import Mathlib

/-!
The list macros of utlist.h: intrusive linked lists and their merge sort

A shallow embedding of the list macros of `src/src/utlist.h`.

* A node is an address (`Ptr`, a natural number); address `0` is `NULL`.
* The link fields live in a `Heap`: `next x` and `prev x` are the fields of the
  node at address `x`.  The payload of a node is never touched by the macros, so
  a comparator is a function of the two node addresses.
* Reading or writing a field through `NULL` is an error: the accessors return
  `none`, and every macro propagates it.
* Loops whose termination depends on the shape of the heap take a `fuel`
  argument and return `none` when it runs out.
* The C `int` counters of the sort (`_ls_insize`, `_ls_psize`, `_ls_qsize`,
  `_ls_nmerges`) are natural numbers bounded by `INT_MAX`.  Signed overflow is
  undefined behaviour in C: every statement that increases a counter
  (`_ls_psize++`, `_ls_nmerges++`, `_ls_insize *= 2`) goes through `intVal` and
  returns `none` when the value does not fit an `int`.  The counters are only
  decremented when positive.
-/

namespace Utlist

/-- A node address; `0` is the null pointer. -/
abbrev Ptr := Nat

/-- The link fields of all nodes: `next x` is `x->next`, `prev x` is `x->prev`. -/
structure Heap where
  next : Ptr → Ptr
  prev : Ptr → Ptr

/-- Read `p->next`; fails on the null pointer. -/
def Heap.rdNext (h : Heap) (p : Ptr) : Option Ptr :=
  if p = 0 then none else some (h.next p)

/-- Read `p->prev`; fails on the null pointer. -/
def Heap.rdPrev (h : Heap) (p : Ptr) : Option Ptr :=
  if p = 0 then none else some (h.prev p)

/-- Write `p->next = v`; fails on the null pointer. -/
def Heap.wrNext (h : Heap) (p v : Ptr) : Option Heap :=
  if p = 0 then none else some (Heap.mk (Function.update h.next p v) h.prev)

/-- Write `p->prev = v`; fails on the null pointer. -/
def Heap.wrPrev (h : Heap) (p v : Ptr) : Option Heap :=
  if p = 0 then none else some (Heap.mk h.next (Function.update h.prev p v))

/-! ## The C type `int` -/

/-- The largest value of the C type `int` (32 bits, two's complement):
`INT_MAX = 2^31 - 1`. -/
def INT_MAX : Nat := 2147483647

/-- The value of a non-negative `int` expression whose mathematical value is
`n`: `n` itself when it fits.  Signed overflow is undefined behaviour (on a
two's-complement machine the run size of the sort would turn negative and a
pass would no longer advance); the embedding fails at the overflowing
statement. -/
def intVal (n : Nat) : Option Nat := if n ≤ INT_MAX then some n else none

/-- The `int` a two's-complement machine computes for an expression whose
mathematical value is `x`: the number congruent to `x` modulo `2^32` between
`-2^31` and `2^31 - 1`.  It is used where a value has to be returned, in the
comparators that subtract keys. -/
def intWrap (x : Int) : Int := (x + 2147483648) % 4294967296 - 2147483648

/-! ## The sort macros `LL_SORT`, `DL_SORT`, `CDL_SORT`

The three macros are one text with four topology-dependent places; the
embedding follows that text once and branches on the topology at those places:

* how a cursor advances (`sortNext`): `x->next`, and for `CDL_SORT` the wrap test
  against `_ls_oldhead`;
* whether `_ls_e->prev = _ls_tail` is executed (`DL_SORT`, `CDL_SORT`);
* how a pass is closed (`sortFinish`).
-/

/-- Which of the three sort macros is being run. -/
inductive Topology where
  | LL
  | DL
  | CDL
  deriving DecidableEq, Repr

/-- The successor a cursor sees.  `LL_SORT`/`DL_SORT`: `x->next`.
`CDL_SORT`: `(x->next == _ls_oldhead) ? NULL : x->next` (line 211; lines 217-218
etc. do the same in two statements). -/
def effNext (t : Topology) (oldhead : Ptr) (nx : Ptr → Ptr) (x : Ptr) : Ptr :=
  if t = Topology.CDL ∧ nx x = oldhead then 0 else nx x

/-- Advance a cursor: dereferences `x`, so it fails on `NULL`. -/
def sortNext (t : Topology) (h : Heap) (oldhead x : Ptr) : Option Ptr :=
  if x = 0 then none else some (effNext t oldhead h.next x)

/-- The `for (_ls_i = 0; _ls_i < _ls_insize; _ls_i++)` loop (lines 105-109):
`n` is the number of iterations left; each one does `_ls_psize++`, advances
`_ls_q`, and breaks when `_ls_q` is null.  Returns `(_ls_q, _ls_psize)`. -/
def sortCount (t : Topology) (h : Heap) (oldhead : Ptr) : Nat → Ptr → Nat → Option (Ptr × Nat)
  | 0, q, psize => some (q, psize)
  | n + 1, q, psize =>
    match intVal (psize + 1) with
    | none => none
    | some psize1 =>
      match sortNext t h oldhead q with
      | none => none
      | some q1 => if q1 = 0 then some (q1, psize1) else sortCount t h oldhead n q1 psize1

/-- The variables live in the merge loop (lines 111-127). -/
structure MergeState where
  heap : Heap
  list : Ptr
  tail : Ptr
  p : Ptr
  q : Ptr
  psize : Nat
  qsize : Nat

/-- Lines 121-126 (and 177 / 234): link the chosen element `e` after `_ls_tail`,
or make it the head; `DL_SORT` and `CDL_SORT` also set `e->prev = _ls_tail`. -/
def sortLink (t : Topology) (h : Heap) (list tail e : Ptr) : Option (Heap × Ptr) :=
  let linked : Option (Heap × Ptr) :=
    if tail ≠ 0 then (h.wrNext tail e).map (fun h1 => (h1, list)) else some (h, e)
  match linked with
  | none => none
  | some (h1, list1) =>
    if t = Topology.LL then some (h1, list1)
    else (h1.wrPrev e tail).map (fun h2 => (h2, list1))

/-- Take the next element from the left run: `_ls_e = _ls_p; _ls_p = next;
_ls_psize--`, then link it. -/
def sortTakeP (t : Topology) (oldhead : Ptr) (s : MergeState) : Option MergeState :=
  match sortNext t s.heap oldhead s.p with
  | none => none
  | some p1 =>
    match sortLink t s.heap s.list s.tail s.p with
    | none => none
    | some (h1, list1) => some ⟨h1, list1, s.p, p1, s.q, s.psize - 1, s.qsize⟩

/-- Take the next element from the right run: `_ls_e = _ls_q; _ls_q = next;
_ls_qsize--`, then link it. -/
def sortTakeQ (t : Topology) (oldhead : Ptr) (s : MergeState) : Option MergeState :=
  match sortNext t s.heap oldhead s.q with
  | none => none
  | some q1 =>
    match sortLink t s.heap s.list s.tail s.q with
    | none => none
    | some (h1, list1) => some ⟨h1, list1, s.q, s.p, q1, s.psize, s.qsize - 1⟩

/-- One iteration of the merge loop body (lines 112-126). -/
def sortMergeStep (t : Topology) (cmp : Ptr → Ptr → Int) (oldhead : Ptr)
    (s : MergeState) : Option MergeState :=
  if s.psize = 0 then sortTakeQ t oldhead s
  else if s.qsize = 0 ∨ s.q = 0 then sortTakeP t oldhead s
  else if cmp s.p s.q ≤ 0 then sortTakeP t oldhead s
  else sortTakeQ t oldhead s

/-- The merge loop `while (_ls_psize > 0 || (_ls_qsize > 0 && _ls_q))`.  Every
iteration decrements `_ls_psize` or `_ls_qsize`; the first argument bounds the
number of iterations. -/
def sortMerge (t : Topology) (cmp : Ptr → Ptr → Int) (oldhead : Ptr) :
    Nat → MergeState → Option MergeState
  | 0, s => if 0 < s.psize ∨ (0 < s.qsize ∧ s.q ≠ 0) then none else some s
  | f + 1, s =>
    if 0 < s.psize ∨ (0 < s.qsize ∧ s.q ≠ 0) then
      match sortMergeStep t cmp oldhead s with
      | none => none
      | some s1 => sortMerge t cmp oldhead f s1
    else some s

/-- The variables live across the iterations of `while (_ls_p)`. -/
structure PassState where
  heap : Heap
  list : Ptr
  tail : Ptr
  p : Ptr
  nmerges : Nat

/-- The loop `while (_ls_p)` of one pass (lines 101-129): `_ls_nmerges++`, count
off the left run, merge it with the right run, continue at `_ls_q`. -/
def sortPass (t : Topology) (cmp : Ptr → Ptr → Int) (oldhead : Ptr) (insize : Nat) :
    Nat → PassState → Option PassState
  | 0, _ => none
  | f + 1, s =>
    if s.p = 0 then some s
    else
      match intVal (s.nmerges + 1) with
      | none => none
      | some nmerges1 =>
        match sortCount t s.heap oldhead insize s.p 0 with
        | none => none
        | some (q, psize) =>
          match sortMerge t cmp oldhead (psize + insize)
              ⟨s.heap, s.list, s.tail, s.p, q, psize, insize⟩ with
          | none => none
          | some m => sortPass t cmp oldhead insize f ⟨m.heap, m.list, m.tail, m.q, nmerges1⟩

/-- The statements closing a pass.  `LL_SORT` (line 130): `_ls_tail->next = NULL`.
`DL_SORT` (182-183): `list->prev = _ls_tail; _ls_tail->next = NULL`.
`CDL_SORT` (239-240): `list->prev = _ls_tail; _ls_tail->next = list`. -/
def sortFinish (t : Topology) (h : Heap) (list tail : Ptr) : Option Heap :=
  match t with
  | Topology.LL => h.wrNext tail 0
  | Topology.DL =>
    match h.wrPrev list tail with
    | none => none
    | some h1 => h1.wrNext tail 0
  | Topology.CDL =>
    match h.wrPrev list tail with
    | none => none
    | some h1 => h1.wrNext tail list

/-- What the sort leaves behind: the heap, the head, and the final values of
`_ls_insize` and `_ls_nmerges`. -/
structure SortState where
  heap : Heap
  list : Ptr
  insize : Nat
  nmerges : Nat

/-- The outer loop `while (_ls_looping)` (lines 95-135).  `fuel` bounds the
number of iterations of every `while (_ls_p)` loop, the first numeric argument
the number of passes.  `_ls_insize *= 2` is executed at the end of every pass,
the last one included. -/
def sortLoop (t : Topology) (cmp : Ptr → Ptr → Int) (fuel : Nat) :
    Nat → Heap → Ptr → Nat → Option SortState
  | 0, _, _, _ => none
  | f + 1, h, list, insize =>
    match sortPass t cmp list insize fuel ⟨h, 0, 0, list, 0⟩ with
    | none => none
    | some r =>
      match sortFinish t r.heap r.list r.tail with
      | none => none
      | some h1 =>
        match intVal (insize * 2) with
        | none => none
        | some insize1 =>
          if r.nmerges ≤ 1 then some ⟨h1, r.list, insize1, r.nmerges⟩
          else sortLoop t cmp fuel f h1 r.list insize1

/-- The body of a sort macro: nothing happens on the empty list (`if (list)`),
otherwise the outer loop runs with `_ls_insize = 1`. -/
def sortRun (t : Topology) (cmp : Ptr → Ptr → Int) (fuel : Nat) (h : Heap) (list : Ptr) :
    Option (Heap × Ptr) :=
  if list ≠ 0 then (sortLoop t cmp fuel fuel h list 1).map (fun s => (s.heap, s.list))
  else some (h, list)

/-- The outer loop `while (_ls_looping)` of `sortLoop` with a log: next to the
final state it returns, for every pass in order, the `_ls_insize` the pass ran
with and the value of `_ls_nmerges` when the pass ended. -/
def sortTrace (t : Topology) (cmp : Ptr → Ptr → Int) (fuel : Nat) :
    Nat → Heap → Ptr → Nat → Option (SortState × List (Nat × Nat))
  | 0, _, _, _ => none
  | f + 1, h, list, insize =>
    match sortPass t cmp list insize fuel ⟨h, 0, 0, list, 0⟩ with
    | none => none
    | some r =>
      match sortFinish t r.heap r.list r.tail with
      | none => none
      | some h1 =>
        match intVal (insize * 2) with
        | none => none
        | some insize1 =>
          if r.nmerges ≤ 1 then some (⟨h1, r.list, insize1, r.nmerges⟩, [(insize, r.nmerges)])
          else (sortTrace t cmp fuel f h1 r.list insize1).map
            fun x => (x.1, (insize, r.nmerges) :: x.2)

/-- The passes a sort macro makes, as pairs of `_ls_insize` and `_ls_nmerges`:
none on the empty list (`if (list)`), otherwise those of the outer loop started
with `_ls_insize = 1`. -/
def sortPasses (t : Topology) (cmp : Ptr → Ptr → Int) (fuel : Nat) (h : Heap) (list : Ptr) :
    Option (List (Nat × Nat)) :=
  if list ≠ 0 then (sortTrace t cmp fuel fuel h list 1).map Prod.snd else some []

/-- `LL_SORT(list, cmp)`: returns the new heap and head. -/
def LL_SORT (cmp : Ptr → Ptr → Int) (fuel : Nat) (h : Heap) (list : Ptr) : Option (Heap × Ptr) :=
  sortRun Topology.LL cmp fuel h list

/-- `DL_SORT(list, cmp)`: returns the new heap and head. -/
def DL_SORT (cmp : Ptr → Ptr → Int) (fuel : Nat) (h : Heap) (list : Ptr) : Option (Heap × Ptr) :=
  sortRun Topology.DL cmp fuel h list

/-- `CDL_SORT(list, cmp)`: returns the new heap and head. -/
def CDL_SORT (cmp : Ptr → Ptr → Int) (fuel : Nat) (h : Heap) (list : Ptr) : Option (Heap × Ptr) :=
  sortRun Topology.CDL cmp fuel h list

/-! ## Iteration -/

/-- `LL_FOREACH(head, el)`: `for (el = head; el; el = el->next)`; the nodes in
the order the body sees them. -/
def LL_FOREACH : Nat → Heap → Ptr → Option (List Ptr)
  | 0, _, _ => none
  | f + 1, h, el => if el = 0 then some [] else (LL_FOREACH f h (h.next el)).map (fun r => el :: r)

/-- `DL_FOREACH(head, el)`: the same loop as `LL_FOREACH`. -/
def DL_FOREACH : Nat → Heap → Ptr → Option (List Ptr)
  | 0, _, _ => none
  | f + 1, h, el => if el = 0 then some [] else (DL_FOREACH f h (h.next el)).map (fun r => el :: r)

/-- The loop of `CDL_FOREACH` from the cursor `el`:
`for (...; el; el = (el->next == head ? 0L : el->next))`. -/
def cdlForeachFrom (head : Ptr) : Nat → Heap → Ptr → Option (List Ptr)
  | 0, _, _ => none
  | f + 1, h, el =>
    if el = 0 then some []
    else (cdlForeachFrom head f h (if h.next el = head then 0 else h.next el)).map
      (fun r => el :: r)

/-- `CDL_FOREACH(head, el)`: starts at `el = head`. -/
def CDL_FOREACH (fuel : Nat) (h : Heap) (head : Ptr) : Option (List Ptr) :=
  cdlForeachFrom head fuel h head

/-! ## Singly-linked lists -/

/-- `LL_PREPEND(head, add)`: `add->next = head; head = add`. -/
def LL_PREPEND (h : Heap) (head add : Ptr) : Option (Heap × Ptr) :=
  (h.wrNext add head).map fun h1 => (h1, add)

/-- The loop `while (_tmp->next) { _tmp = _tmp->next; }` of `LL_APPEND`; returns
the final `_tmp`. -/
def llWalkLast : Nat → Heap → Ptr → Option Ptr
  | 0, _, _ => none
  | f + 1, h, tmp =>
    (h.rdNext tmp).bind fun n => if n ≠ 0 then llWalkLast f h n else some tmp

/-- `LL_APPEND(head, add)`. -/
def LL_APPEND (fuel : Nat) (h : Heap) (head add : Ptr) : Option (Heap × Ptr) :=
  (h.wrNext add 0).bind fun h1 =>
    if head ≠ 0 then
      (llWalkLast fuel h1 head).bind fun tmp =>
        (h1.wrNext tmp add).map fun h2 => (h2, head)
    else some (h1, add)

/-- The loop `while (_tmp->next && (_tmp->next != (del))) { _tmp = _tmp->next; }`
of `LL_DELETE`; returns the final `_tmp`. -/
def llWalkTo (del : Ptr) : Nat → Heap → Ptr → Option Ptr
  | 0, _, _ => none
  | f + 1, h, tmp =>
    (h.rdNext tmp).bind fun n => if n ≠ 0 ∧ n ≠ del then llWalkTo del f h n else some tmp

/-- `LL_DELETE(head, del)`. -/
def LL_DELETE (fuel : Nat) (h : Heap) (head del : Ptr) : Option (Heap × Ptr) :=
  if head = del then
    (h.rdNext head).map fun n => (h, n)
  else
    (llWalkTo del fuel h head).bind fun tmp =>
      (h.rdNext tmp).bind fun n =>
        if n ≠ 0 then
          (h.rdNext del).bind fun dn =>
            (h.wrNext tmp dn).map fun h1 => (h1, head)
        else some (h, head)

/-! ## Doubly-linked lists -/

/-- `DL_PREPEND(head, add)`. -/
def DL_PREPEND (h : Heap) (head add : Ptr) : Option (Heap × Ptr) :=
  (h.wrNext add head).bind fun h1 =>
    (if head ≠ 0 then
      (h1.rdPrev head).bind fun hp =>
        (h1.wrPrev add hp).bind fun h2 => h2.wrPrev head add
    else h1.wrPrev add add).map fun h3 => (h3, add)

/-- `DL_APPEND(head, add)`. -/
def DL_APPEND (h : Heap) (head add : Ptr) : Option (Heap × Ptr) :=
  if head ≠ 0 then
    (h.rdPrev head).bind fun hp =>
      (h.wrPrev add hp).bind fun h1 =>
        (h1.rdPrev head).bind fun hp1 =>
          (h1.wrNext hp1 add).bind fun h2 =>
            (h2.wrPrev head add).bind fun h3 =>
              (h3.wrNext add 0).map fun h4 => (h4, head)
  else
    (h.wrPrev add add).bind fun h1 =>
      (h1.wrNext add 0).map fun h2 => (h2, add)

/-- `DL_DELETE(head, del)`. -/
def DL_DELETE (h : Heap) (head del : Ptr) : Option (Heap × Ptr) :=
  (h.rdPrev del).bind fun dp =>
    if dp = del then some (h, 0)
    else if del = head then
      (h.rdNext del).bind fun dn =>
        (h.wrPrev dn dp).bind fun h1 =>
          (h1.rdNext del).map fun dn1 => (h1, dn1)
    else
      (h.rdNext del).bind fun dn =>
        (h.wrNext dp dn).bind fun h1 =>
          (h1.rdNext del).bind fun dn1 =>
            if dn1 ≠ 0 then
              (h1.rdPrev del).bind fun dp1 =>
                (h1.wrPrev dn1 dp1).map fun h2 => (h2, head)
            else
              (h1.rdPrev del).bind fun dp1 =>
                (h1.wrPrev head dp1).map fun h2 => (h2, head)

/-! ## Circular doubly-linked lists -/

/-- `CDL_PREPEND(head, add)`. -/
def CDL_PREPEND (h : Heap) (head add : Ptr) : Option (Heap × Ptr) :=
  (if head ≠ 0 then
    (h.rdPrev head).bind fun hp =>
      (h.wrPrev add hp).bind fun h1 =>
        (h1.wrNext add head).bind fun h2 =>
          (h2.wrPrev head add).bind fun h3 =>
            (h3.rdPrev add).bind fun ap => h3.wrNext ap add
  else
    (h.wrPrev add add).bind fun h1 => h1.wrNext add add).map fun h4 => (h4, add)

/-- `CDL_DELETE(head, del)`.  The test `(head)->next == (head)` is only evaluated
when `(head) == (del)`. -/
def CDL_DELETE (h : Heap) (head del : Ptr) : Option (Heap × Ptr) :=
  (if head = del then (h.rdNext head).map fun n => decide (n = head) else some false).bind
    fun sole =>
      if sole then some (h, 0)
      else
        (h.rdNext del).bind fun dn =>
          (h.rdPrev del).bind fun dp =>
            (h.wrPrev dn dp).bind fun h1 =>
              (h1.rdPrev del).bind fun dp1 =>
                (h1.rdNext del).bind fun dn1 =>
                  (h1.wrNext dp1 dn1).bind fun h2 =>
                    if del = head then (h2.rdNext del).map fun dn2 => (h2, dn2)
                    else some (h2, head)

/-! ## Iteration with a body that changes the list

A loop body works on the heap and on the head variable and is given the node
being visited.  The loops return the nodes visited, in order, and the heap and
head on exit; the second component is `none` when the fuel ran out or a step
failed, the first then holds the visits made so far. -/

/-- Record the visit of `el` in front of what the rest of the loop does. -/
def visit (el : Ptr) (rest : List Ptr × Option (Heap × Ptr)) : List Ptr × Option (Heap × Ptr) :=
  (el :: rest.1, rest.2)

/-- The loop of `DL_FOREACH_SAFE(head, el, tmp)` from the cursor `el`:
`for (...; (el) && (tmp = (el)->next, 1); (el) = tmp)`. -/
def dlForeachSafeFrom (body : Heap → Ptr → Ptr → Option (Heap × Ptr)) :
    Nat → Heap → Ptr → Ptr → List Ptr × Option (Heap × Ptr)
  | 0, _, _, _ => ([], none)
  | f + 1, h, head, el =>
    if el = 0 then ([], some (h, head))
    else
      match h.rdNext el with
      | none => ([], none)
      | some tmp =>
        match body h head el with
        | none => ([el], none)
        | some r => visit el (dlForeachSafeFrom body f r.1 r.2 tmp)

/-- `DL_FOREACH_SAFE(head, el, tmp) body`: starts at `el = head`. -/
def DL_FOREACH_SAFE (body : Heap → Ptr → Ptr → Option (Heap × Ptr)) (fuel : Nat) (h : Heap)
    (head : Ptr) : List Ptr × Option (Heap × Ptr) :=
  dlForeachSafeFrom body fuel h head head

/-- The loop of `CDL_FOREACH_SAFE(head, el, tmp1, tmp2)` from the cursor `el`:
`for (...; (el) && ((tmp2) = (el)->next, 1); (el) = ((el) == (tmp1)) ? 0L : (tmp2))`. -/
def cdlForeachSafeFrom (body : Heap → Ptr → Ptr → Option (Heap × Ptr)) (tmp1 : Ptr) :
    Nat → Heap → Ptr → Ptr → List Ptr × Option (Heap × Ptr)
  | 0, _, _, _ => ([], none)
  | f + 1, h, head, el =>
    if el = 0 then ([], some (h, head))
    else
      match h.rdNext el with
      | none => ([], none)
      | some tmp2 =>
        match body h head el with
        | none => ([el], none)
        | some r =>
          visit el (cdlForeachSafeFrom body tmp1 f r.1 r.2 (if el = tmp1 then 0 else tmp2))

/-- `CDL_FOREACH_SAFE(head, el, tmp1, tmp2) body`: the initialisation is
`(el) = (head), (tmp1) = (head) ? ((head)->prev) : NULL`. -/
def CDL_FOREACH_SAFE (body : Heap → Ptr → Ptr → Option (Heap × Ptr)) (fuel : Nat) (h : Heap)
    (head : Ptr) : List Ptr × Option (Heap × Ptr) :=
  match (if head ≠ 0 then h.rdPrev head else some 0) with
  | none => ([], none)
  | some tmp1 => cdlForeachSafeFrom body tmp1 fuel h head head

/-- The loop of the plain `CDL_FOREACH(head, el)` with a body, from the cursor
`el`: `for (...; el; el = (el->next == head ? 0L : el->next))`.  The macro
argument `head` is the head variable, so the step reads it as the body left
it. -/
def cdlForeachBodyFrom (body : Heap → Ptr → Ptr → Option (Heap × Ptr)) :
    Nat → Heap → Ptr → Ptr → List Ptr × Option (Heap × Ptr)
  | 0, _, _, _ => ([], none)
  | f + 1, h, head, el =>
    if el = 0 then ([], some (h, head))
    else
      match body h head el with
      | none => ([el], none)
      | some r =>
        match r.1.rdNext el with
        | none => ([el], none)
        | some n => visit el (cdlForeachBodyFrom body f r.1 r.2 (if n = r.2 then 0 else n))

/-- `CDL_FOREACH(head, el) body`: starts at `el = head`. -/
def CDL_FOREACH_BODY (body : Heap → Ptr → Ptr → Option (Heap × Ptr)) (fuel : Nat) (h : Heap)
    (head : Ptr) : List Ptr × Option (Heap × Ptr) :=
  cdlForeachBodyFrom body fuel h head head

/-- A loop body that only looks at the node: it leaves the heap and the head
as they are. -/
def bodyKeep (h : Heap) (head : Ptr) (_el : Ptr) : Option (Heap × Ptr) := some (h, head)

/-! ## Searching -/

/-- The loop `LL_FOREACH(head, out) { if (match) break; }` of `LL_SEARCH_SCALAR`
and `LL_SEARCH` from the cursor `out`; returns the final `out`. -/
def llSearchFrom (found : Ptr → Bool) : Nat → Heap → Ptr → Option Ptr
  | 0, _, _ => none
  | f + 1, h, out =>
    if out = 0 then some out
    else if found out then some out
    else llSearchFrom found f h (h.next out)

/-- `LL_SEARCH_SCALAR(head, out, field, val)`: the test is
`(out)->field == (val)`.  The macro assigns `out` only; the heap is returned
as it was found. -/
def LL_SEARCH_SCALAR (field : Ptr → Int) (val : Int) (fuel : Nat) (h : Heap) (head : Ptr) :
    Option (Heap × Ptr) :=
  (llSearchFrom (fun x => decide (field x = val)) fuel h head).map fun out => (h, out)

/-- `LL_SEARCH(head, out, elt, cmp)`: the test is `cmp(out, elt) == 0`. -/
def LL_SEARCH (cmp : Ptr → Ptr → Int) (elt : Ptr) (fuel : Nat) (h : Heap) (head : Ptr) :
    Option (Heap × Ptr) :=
  (llSearchFrom (fun x => decide (cmp x elt = 0)) fuel h head).map fun out => (h, out)

/-- `#define DL_SEARCH_SCALAR LL_SEARCH_SCALAR`. -/
def DL_SEARCH_SCALAR (field : Ptr → Int) (val : Int) (fuel : Nat) (h : Heap) (head : Ptr) :
    Option (Heap × Ptr) :=
  LL_SEARCH_SCALAR field val fuel h head

/-- `#define DL_SEARCH LL_SEARCH`. -/
def DL_SEARCH (cmp : Ptr → Ptr → Int) (elt : Ptr) (fuel : Nat) (h : Heap) (head : Ptr) :
    Option (Heap × Ptr) :=
  LL_SEARCH cmp elt fuel h head

/-- The loop `CDL_FOREACH(head, out) { if (match) break; }` of
`CDL_SEARCH_SCALAR` and `CDL_SEARCH` from the cursor `out`. -/
def cdlSearchFrom (found : Ptr → Bool) (head : Ptr) : Nat → Heap → Ptr → Option Ptr
  | 0, _, _ => none
  | f + 1, h, out =>
    if out = 0 then some out
    else if found out then some out
    else cdlSearchFrom found head f h (if h.next out = head then 0 else h.next out)

/-- `CDL_SEARCH_SCALAR(head, out, field, val)`. -/
def CDL_SEARCH_SCALAR (field : Ptr → Int) (val : Int) (fuel : Nat) (h : Heap) (head : Ptr) :
    Option (Heap × Ptr) :=
  (cdlSearchFrom (fun x => decide (field x = val)) head fuel h head).map fun out => (h, out)

/-- `CDL_SEARCH(head, out, elt, cmp)`. -/
def CDL_SEARCH (cmp : Ptr → Ptr → Int) (elt : Ptr) (fuel : Nat) (h : Heap) (head : Ptr) :
    Option (Heap × Ptr) :=
  (cdlSearchFrom (fun x => decide (cmp x elt = 0)) head fuel h head).map fun out => (h, out)

/-! ## Shapes of lists in the heap -/

/-- Following `nx` from `a` visits exactly the nodes of `l`, none of them null,
and then arrives at `b`. -/
def isPath (nx : Ptr → Ptr) : Ptr → List Ptr → Ptr → Prop
  | a, [], b => a = b
  | a, x :: xs, b => a = x ∧ x ≠ 0 ∧ isPath nx (nx x) xs b

/-- A null-terminated chain: following `nx` from `head` visits exactly `l` and
then reaches `NULL`. -/
def isList (nx : Ptr → Ptr) (head : Ptr) (l : List Ptr) : Prop := isPath nx head l 0

/-- Every node of `l` has as its `prev` the node before it in `l`; the first one
has `a`. -/
def backLinked (pv : Ptr → Ptr) : Ptr → List Ptr → Prop
  | _, [] => True
  | a, x :: xs => pv x = a ∧ backLinked pv x xs

instance isPath.decide (nx : Ptr → Ptr) : ∀ (a : Ptr) (l : List Ptr) (b : Ptr),
    Decidable (isPath nx a l b)
  | a, [], b => inferInstanceAs (Decidable (a = b))
  | a, x :: xs, b =>
    have := isPath.decide nx (nx x) xs b
    inferInstanceAs (Decidable (a = x ∧ x ≠ 0 ∧ isPath nx (nx x) xs b))

instance isList.decide (nx : Ptr → Ptr) (a : Ptr) (l : List Ptr) : Decidable (isList nx a l) :=
  isPath.decide nx a l 0

instance backLinked.decide (pv : Ptr → Ptr) : ∀ (a : Ptr) (l : List Ptr),
    Decidable (backLinked pv a l)
  | _, [] => inferInstanceAs (Decidable True)
  | a, x :: xs =>
    have := backLinked.decide pv x xs
    inferInstanceAs (Decidable (pv x = a ∧ backLinked pv x xs))

/-- A ring of at least one node: following `nx` from `head` visits the
distinct nodes `l` and returns to `head`. -/
def isRing (nx : Ptr → Ptr) (head : Ptr) (l : List Ptr) : Prop :=
  l ≠ [] ∧ l.Nodup ∧ isPath nx head l head

/-- A well-formed doubly-linked list: a null-terminated `next` chain through
`l`; every node but the head has the node before it as `prev`, and the head's
`prev` is the last node. -/
def isDList (h : Heap) (head : Ptr) (l : List Ptr) : Prop :=
  isList h.next head l ∧ backLinked h.prev (l.getLastD 0) l

/-- A well-formed circular doubly-linked list: empty with a null head, or a
ring through `l` whose `prev` fields run backwards around the ring. -/
def isCDList (h : Heap) (head : Ptr) (l : List Ptr) : Prop :=
  (l = [] ∧ head = 0) ∨ (isRing h.next head l ∧ backLinked h.prev (l.getLastD 0) l)

instance isRing.decide (nx : Ptr → Ptr) (a : Ptr) (l : List Ptr) : Decidable (isRing nx a l) :=
  inferInstanceAs (Decidable (l ≠ [] ∧ l.Nodup ∧ isPath nx a l a))

instance isDList.decide (h : Heap) (a : Ptr) (l : List Ptr) : Decidable (isDList h a l) :=
  inferInstanceAs (Decidable (isList h.next a l ∧ backLinked h.prev (l.getLastD 0) l))

instance isCDList.decide (h : Heap) (a : Ptr) (l : List Ptr) : Decidable (isCDList h a l) :=
  inferInstanceAs (Decidable ((l = [] ∧ a = 0) ∨
    (isRing h.next a l ∧ backLinked h.prev (l.getLastD 0) l)))

/-! ## Invariants of the sort -/

/-- The nodes a pass has output so far: `em` is empty and `list`, `tail` are
null, or `em` ends in `tail` and is linked by `next` from `list` up to `tail`
(the `next` of `tail` itself is stale).  For `DL_SORT`/`CDL_SORT` the `prev`
fields follow `em` backwards, the first one being null. -/
def isEmitted (t : Topology) (h : Heap) (list tail : Ptr) (em : List Ptr) : Prop :=
  ((em = [] ∧ list = 0 ∧ tail = 0) ∨
    (tail ≠ 0 ∧ ∃ em1, em = em1 ++ [tail] ∧ isPath h.next list em1 tail)) ∧
  (t ≠ Topology.LL → backLinked h.prev 0 em)

/-- The comparator as the order the merge uses: `a` may be output before `b`
when `cmp a b <= 0`. -/
def sortLe (cmp : Ptr → Ptr → Int) (a b : Ptr) : Bool := decide (cmp a b ≤ 0)

/-- What one pass does to the runs of the list: adjacent runs are merged in
pairs, a last run without partner is kept. -/
def mergePairs (cmp : Ptr → Ptr → Int) : List (List Ptr) → List (List Ptr)
  | [] => []
  | [b] => [b]
  | b1 :: b2 :: rest => List.merge b1 b2 (sortLe cmp) :: mergePairs cmp rest

/-- The runs a pass with `_ls_insize = k` sees: every run but the last has
exactly `k` nodes, the last one between `1` and `k`. -/
def runsOf (k : Nat) : List (List Ptr) → Prop
  | [] => True
  | [b] => b ≠ [] ∧ b.length ≤ k
  | b1 :: b2 :: rest => b1.length = k ∧ runsOf k (b2 :: rest)

/-- The shape a sort macro leaves behind (and the next pass starts from).
`LL_SORT`: a null-terminated chain.  `DL_SORT`: a null-terminated chain whose
`prev` fields run backwards, the head's `prev` being the last node.
`CDL_SORT`: a ring, `next` of the last node being the head, with the same
`prev` fields. -/
def sortShape (t : Topology) (h : Heap) (list : Ptr) (l : List Ptr) : Prop :=
  match t with
  | Topology.LL => isList h.next list l
  | Topology.DL => isList h.next list l ∧ backLinked h.prev (l.getLastD 0) l
  | Topology.CDL => isPath h.next list l list ∧ backLinked h.prev (l.getLastD 0) l

/-- Stability of `l` with respect to `l0`: whenever `a` occurs before `b` in
`l0` (the pair `[a, b]` is a sublist) and `cmp a b <= 0`, `a` still occurs before
`b` in `l`. -/
def stableFor (cmp : Ptr → Ptr → Int) (l0 l : List Ptr) : Prop :=
  ∀ a b, cmp a b ≤ 0 → List.Sublist [a, b] l0 → List.Sublist [a, b] l

/-- Non-decreasing under the comparator: `cmp x y <= 0` for every adjacent pair
`x`, `y` of the sequence. -/
def nonDecreasing (cmp : Ptr → Ptr → Int) : List Ptr → Prop
  | [] => True
  | [_] => True
  | x :: y :: rest => cmp x y ≤ 0 ∧ nonDecreasing cmp (y :: rest)

instance nonDecreasing.decide (cmp : Ptr → Ptr → Int) : ∀ l : List Ptr,
    Decidable (nonDecreasing cmp l)
  | [] => inferInstanceAs (Decidable True)
  | [_] => inferInstanceAs (Decidable True)
  | x :: y :: rest =>
    have := nonDecreasing.decide cmp (y :: rest)
    inferInstanceAs (Decidable (cmp x y ≤ 0 ∧ nonDecreasing cmp (y :: rest)))

/-- What a search has to deliver on the foreach sequence `l`: `out` is null and
no node of `l` matches, or `out` is a node of `l` that matches and no node
before it does. -/
def firstMatch (found : Ptr → Bool) (l : List Ptr) (out : Ptr) : Prop :=
  (out = 0 ∧ ∀ x ∈ l, found x = false) ∨
    (∃ l1 l2, l = l1 ++ out :: l2 ∧ found out = true ∧ ∀ x ∈ l1, found x = false)

/-! ## The list test program `tests/test26.c` -/

/-- The numeric ascending comparator on an `int` key field: `a->key - b->key`,
the difference being an `int` as well. -/
def ascending (key : Ptr → Int) (a b : Ptr) : Int := intWrap (key a - key b)

/-- The descending comparator of `tests/test44.c` (`reverse`):
`int _a = ..., _b = ...; return _b - _a;`, the difference of the two `int`
keys taken as an `int`. -/
def descending (key : Ptr → Int) (a b : Ptr) : Int := intWrap (key b - key a)

/-- The keys 5, 3, 3, 1, 4 of the nodes `1..5`. -/
def fiveKey (x : Ptr) : Int := [5, 3, 3, 1, 4].getD (x - 1) 0

/-- The keys 0..9 of the nodes `1..10`. -/
def tenKey (x : Ptr) : Int := [0, 1, 2, 3, 4, 5, 6, 7, 8, 9].getD (x - 1) 0

/-! ## Sequences of operations -/

/-- Insert the nodes `ns` one after the other with `op` (`LL_APPEND`,
`DL_PREPEND`, ...), as the loop of `test26.c` does with `DL_APPEND`. -/
def insertAll (op : Heap → Ptr → Ptr → Option (Heap × Ptr)) :
    List Ptr → Heap → Ptr → Option (Heap × Ptr)
  | [], h, head => some (h, head)
  | n :: ns, h, head => (op h head n).bind fun r => insertAll op ns r.1 r.2

/-- Append the nodes `1..5` holding 5, 3, 3, 1, 4 to the empty doubly-linked
list, `DL_SORT` ascending, and read off with `DL_FOREACH` the nodes and their
keys. -/
def sortFive (fuel : Nat) : Option (List Ptr × List Int) :=
  (insertAll DL_APPEND [1, 2, 3, 4, 5] (Heap.mk (fun _ => 0) (fun _ => 0)) 0).bind fun r1 =>
    (DL_SORT (ascending fiveKey) fuel r1.1 r1.2).bind fun r2 =>
      (DL_FOREACH fuel r2.1 r2.2).map fun l => (l, l.map fiveKey)

/-- Append the nodes `1..10` holding 0..9, `DL_SORT` ascending, `DL_SORT` again
with the descending comparator, and read off the keys. -/
def sortTenTwice (fuel : Nat) : Option (List Int) :=
  (insertAll DL_APPEND [1, 2, 3, 4, 5, 6, 7, 8, 9, 10]
      (Heap.mk (fun _ => 0) (fun _ => 0)) 0).bind fun r1 =>
    (DL_SORT (ascending tenKey) fuel r1.1 r1.2).bind fun r2 =>
      (DL_SORT (descending tenKey) fuel r2.1 r2.2).bind fun r3 =>
        (DL_FOREACH fuel r3.1 r3.2).map fun l => l.map tenKey

/-- Append the nodes `1..10` holding 0..9, `DL_SORT` with the descending
comparator, and read off the keys. -/
def sortTenDescending (fuel : Nat) : Option (List Int) :=
  (insertAll DL_APPEND [1, 2, 3, 4, 5, 6, 7, 8, 9, 10]
      (Heap.mk (fun _ => 0) (fun _ => 0)) 0).bind fun r1 =>
    (DL_SORT (descending tenKey) fuel r1.1 r1.2).bind fun r2 =>
      (DL_FOREACH fuel r2.1 r2.2).map fun l => l.map tenKey

/-- A call of one of the structural macros of a doubly-linked list. -/
inductive DLOp where
  | append (n : Ptr)
  | prepend (n : Ptr)
  | delete (n : Ptr)

/-- Run a sequence of `DL_APPEND` / `DL_PREPEND` / `DL_DELETE` calls. -/
def dlRun : List DLOp → Heap → Ptr → Option (Heap × Ptr)
  | [], h, head => some (h, head)
  | DLOp.append n :: ops, h, head => (DL_APPEND h head n).bind fun r => dlRun ops r.1 r.2
  | DLOp.prepend n :: ops, h, head => (DL_PREPEND h head n).bind fun r => dlRun ops r.1 r.2
  | DLOp.delete n :: ops, h, head => (DL_DELETE h head n).bind fun r => dlRun ops r.1 r.2

/-- The calls the macros allow, and the node sequence they are meant to
produce from `l`: a node that is appended or prepended is not null and not in
the list, a node that is deleted is in the list; `none` when a call breaks
this. -/
def dlSeq : List DLOp → List Ptr → Option (List Ptr)
  | [], l => some l
  | DLOp.append n :: ops, l => if n ≠ 0 ∧ n ∉ l then dlSeq ops (l ++ [n]) else none
  | DLOp.prepend n :: ops, l => if n ≠ 0 ∧ n ∉ l then dlSeq ops (n :: l) else none
  | DLOp.delete n :: ops, l => if n ∈ l then dlSeq ops (l.erase n) else none

/-- A call of one of the structural macros of a circular list. -/
inductive CDLOp where
  | prepend (n : Ptr)
  | delete (n : Ptr)

/-- Run a sequence of `CDL_PREPEND` / `CDL_DELETE` calls. -/
def cdlRun : List CDLOp → Heap → Ptr → Option (Heap × Ptr)
  | [], h, head => some (h, head)
  | CDLOp.prepend n :: ops, h, head => (CDL_PREPEND h head n).bind fun r => cdlRun ops r.1 r.2
  | CDLOp.delete n :: ops, h, head => (CDL_DELETE h head n).bind fun r => cdlRun ops r.1 r.2

/-- The calls the macros allow, and the ring order they are meant to produce
from `l`: a node that is prepended is not null and not in the ring, a node that
is deleted is in the ring; `none` when a call breaks this. -/
def cdlSeq : List CDLOp → List Ptr → Option (List Ptr)
  | [], l => some l
  | CDLOp.prepend n :: ops, l => if n ≠ 0 ∧ n ∉ l then cdlSeq ops (n :: l) else none
  | CDLOp.delete n :: ops, l => if n ∈ l then cdlSeq ops (l.erase n) else none

/-! ## Concrete inputs -/

/-- A heap holding the chain `5 -> 3 -> 4 -> 1 -> 2 -> NULL` with `prev` fields
of a well-formed doubly-linked list. -/
def sampleHeap : Heap :=
  Heap.mk
    (fun x => if x = 5 then 3 else if x = 3 then 4 else if x = 4 then 1 else if x = 1 then 2
      else 0)
    (fun x => if x = 5 then 2 else if x = 3 then 5 else if x = 4 then 3 else if x = 1 then 4
      else if x = 2 then 1 else 0)

/-- The ring `5 -> 3 -> 4 -> 1 -> 2 -> 5` with its `prev` fields. -/
def sampleRing : Heap :=
  Heap.mk
    (fun x => if x = 5 then 3 else if x = 3 then 4 else if x = 4 then 1 else if x = 1 then 2
      else 5)
    (fun x => if x = 5 then 2 else if x = 3 then 5 else if x = 4 then 3 else if x = 1 then 4
      else if x = 2 then 1 else 0)

/-- The ring of the single node `1`: `1->next == 1`, `1->prev == 1`. -/
def soleRing : Heap := Heap.mk (fun _ => 1) (fun _ => 1)

/-- The list of the single node `1`: `1->next == NULL`, `1->prev == 1`. -/
def soleList : Heap := Heap.mk (fun _ => 0) (fun _ => 1)

/-- A comparator for the samples: nodes hold their own address as key. -/
def addrCmp (a b : Ptr) : Int := (a : Int) - (b : Int)

/-- A comparator with ties: nodes hold half their address as key. -/
def halfCmp (a b : Ptr) : Int := ((a / 2 : Nat) : Int) - ((b / 2 : Nat) : Int)

/-! ## Paths and chains -/

theorem isPath_append (nx : Ptr → Ptr) (l1 l2 : List Ptr) (a c : Ptr) :
    isPath nx a (l1 ++ l2) c ↔ ∃ b, isPath nx a l1 b ∧ isPath nx b l2 c := by
  induction l1 generalizing a with
  | nil => simp [isPath]
  | cons x xs ih =>
    show (a = x ∧ x ≠ 0 ∧ isPath nx (nx x) (xs ++ l2) c) ↔
      ∃ b, (a = x ∧ x ≠ 0 ∧ isPath nx (nx x) xs b) ∧ isPath nx b l2 c
    rw [ih]
    constructor
    · rintro ⟨h1, h2, b, h3, h4⟩
      exact ⟨b, ⟨h1, h2, h3⟩, h4⟩
    · rintro ⟨b, ⟨h1, h2, h3⟩, h4⟩
      exact ⟨h1, h2, b, h3, h4⟩

theorem isPath_congr {nx nx1 : Ptr → Ptr} {l : List Ptr} (hc : ∀ x ∈ l, nx1 x = nx x)
    {a b : Ptr} (hp : isPath nx a l b) : isPath nx1 a l b := by
  induction l generalizing a with
  | nil => exact hp
  | cons x xs ih =>
    obtain ⟨h1, h2, h3⟩ := hp
    refine ⟨h1, h2, ?_⟩
    rw [hc x (List.mem_cons_self _ _)]
    exact ih (fun y hy => hc y (List.mem_cons_of_mem _ hy)) h3

theorem isPath_ne_zero {nx : Ptr → Ptr} {l : List Ptr} {a b : Ptr} (hp : isPath nx a l b) :
    ∀ x ∈ l, x ≠ 0 := by
  induction l generalizing a with
  | nil => simp
  | cons x xs ih =>
    obtain ⟨_, h2, h3⟩ := hp
    intro y hy
    rcases List.mem_cons.1 hy with rfl | hy
    · exact h2
    · exact ih h3 y hy

theorem isPath_head {nx : Ptr → Ptr} {l : List Ptr} {a b : Ptr} (hp : isPath nx a l b) :
    a = l.headD b := by
  cases l with
  | nil => exact hp
  | cons x xs => exact hp.1

theorem isList_zero {nx : Ptr → Ptr} {l : List Ptr} (hp : isList nx 0 l) : l = [] := by
  cases l with
  | nil => rfl
  | cons x xs => exact absurd hp.1.symm hp.2.1

theorem isList_nil_iff {nx : Ptr → Ptr} {a : Ptr} : isList nx a [] ↔ a = 0 := Iff.rfl

theorem isList_unique {nx : Ptr → Ptr} {l l1 : List Ptr} {a : Ptr}
    (h : isList nx a l) (h1 : isList nx a l1) : l = l1 := by
  induction l generalizing a l1 with
  | nil =>
    have : a = 0 := h
    subst this
    exact (isList_zero h1).symm
  | cons x xs ih =>
    obtain ⟨e, hx, hr⟩ := h
    cases l1 with
    | nil => exact absurd (e ▸ (h1 : a = 0)) hx
    | cons y ys =>
      obtain ⟨e1, _, hr1⟩ := h1
      have hxy : x = y := e.symm.trans e1
      subst hxy
      rw [ih hr hr1]

theorem isList_nodup {nx : Ptr → Ptr} {l : List Ptr} {a : Ptr} (h : isList nx a l) : l.Nodup := by
  induction l generalizing a with
  | nil => exact List.nodup_nil
  | cons x xs ih =>
    obtain ⟨e, hx, hr⟩ := h
    refine List.nodup_cons.2 ⟨?_, ih hr⟩
    intro hmem
    obtain ⟨l1, l2, rfl⟩ := List.append_of_mem hmem
    obtain ⟨b, _, hb⟩ := (isPath_append nx l1 (x :: l2) (nx x) 0).1 hr
    obtain ⟨_, _, hb2⟩ := hb
    have := isList_unique hr hb2
    have hlen := congrArg List.length this
    simp at hlen
    omega

theorem effNext_of_ne {t : Topology} (ht : t ≠ Topology.CDL) (oh : Ptr) (nx : Ptr → Ptr) :
    effNext t oh nx = nx := by
  funext x
  simp [effNext, ht]

theorem effNext_update_of_ne (t : Topology) (oh : Ptr) (nx : Ptr → Ptr) (z v x : Ptr)
    (hx : x ≠ z) : effNext t oh (Function.update nx z v) x = effNext t oh nx x := by
  simp [effNext, Function.update_noteq hx]

theorem intVal_of_le {n : Nat} (h : n ≤ INT_MAX) : intVal n = some n := if_pos h

theorem sortCount_spec (t : Topology) (h : Heap) (oh : Ptr) :
    ∀ (n : Nat) (q : Ptr) (R : List Ptr) (ps : Nat),
      isList (effNext t oh h.next) q R → (R ≠ [] ∨ n = 0) →
      ps + min n R.length ≤ INT_MAX →
      sortCount t h oh n q ps = some ((R.drop n).headD 0, ps + min n R.length) := by
  intro n
  induction n with
  | zero =>
    intro q R ps hR _ _
    have := isPath_head hR
    simp [sortCount, this]
  | succ n ih =>
    intro q R ps hR hne hb
    cases R with
    | nil => simp at hne
    | cons x xs =>
      obtain ⟨e, hx, hr⟩ := hR
      subst e
      simp only [List.length_cons, Nat.add_min_add_right] at hb
      have hiv : intVal (ps + 1) = some (ps + 1) := intVal_of_le (by omega)
      simp only [sortCount, hiv, sortNext, if_neg hx]
      by_cases hz : effNext t oh h.next q = 0
      · rw [hz] at hr
        have := isList_zero hr
        subst this
        simp [hz]
      · have hxs : xs ≠ [] := by
          rintro rfl
          exact hz hr
        simp only [if_neg hz]
        rw [ih _ xs _ hr (Or.inl hxs) (by omega)]
        simp only [List.drop_succ_cons, List.length_cons, Nat.add_min_add_right]
        congr 2
        omega

/-! ## Back links -/

theorem backLinked_congr {pv pv1 : Ptr → Ptr} {l : List Ptr} (hc : ∀ x ∈ l, pv1 x = pv x)
    {a : Ptr} (hb : backLinked pv a l) : backLinked pv1 a l := by
  induction l generalizing a with
  | nil => trivial
  | cons x xs ih =>
    refine ⟨?_, ih (fun y hy => hc y (List.mem_cons_of_mem _ hy)) hb.2⟩
    rw [hc x (List.mem_cons_self _ _)]
    exact hb.1

theorem backLinked_concat (pv : Ptr → Ptr) (l : List Ptr) (a e : Ptr) :
    backLinked pv a (l ++ [e]) ↔ backLinked pv a l ∧ pv e = l.getLastD a := by
  induction l generalizing a with
  | nil => simp [backLinked]
  | cons x xs ih =>
    show (pv x = a ∧ backLinked pv x (xs ++ [e])) ↔ (pv x = a ∧ backLinked pv x xs) ∧ _
    rw [ih]
    rw [List.getLastD_cons]
    tauto

/-! ## The merge loop -/

theorem isEmitted_tail {t : Topology} {h : Heap} {list tail : Ptr} {em : List Ptr}
    (hem : isEmitted t h list tail em) : tail = em.getLastD 0 := by
  rcases hem.1 with ⟨rfl, _, rfl⟩ | ⟨_, em1, rfl, _⟩
  · rfl
  · exact (List.getLastD_concat _ _ _).symm

theorem sortLink_spec (t : Topology) (h : Heap) (list tail e : Ptr) (em : List Ptr)
    (hem : isEmitted t h list tail em) (he : e ≠ 0) (hnd : (em ++ [e]).Nodup) :
    ∃ h1 list1, sortLink t h list tail e = some (h1, list1) ∧
      isEmitted t h1 list1 e (em ++ [e]) ∧ (∀ x, x ∉ em → h1.next x = h.next x) := by
  have htl := isEmitted_tail hem
  have hnotin : e ∉ em := by
    intro hm
    have := List.nodup_append.1 hnd
    exact this.2.2 hm (List.mem_singleton_self e)
  obtain ⟨hshape, hback⟩ := hem
  rcases hshape with ⟨rfl, rfl, rfl⟩ | ⟨htz, em1, rfl, hpath⟩
  · by_cases ht : t = Topology.LL
    · refine ⟨h, e, by simp [sortLink, ht], ⟨Or.inr ⟨he, [], rfl, rfl⟩, fun hh => absurd ht hh⟩,
        fun _ _ => rfl⟩
    · refine ⟨Heap.mk h.next (Function.update h.prev e 0), e,
        by simp [sortLink, ht, Heap.wrPrev, he], ⟨Or.inr ⟨he, [], rfl, rfl⟩, fun _ => ?_⟩,
        fun _ _ => rfl⟩
      show Function.update h.prev e 0 e = 0 ∧ True
      simp
  · have htn : tail ∉ em1 := by
      have := (List.nodup_append.1 (List.nodup_append.1 hnd).1)
      intro hm
      exact this.2.2 hm (List.mem_singleton_self tail)
    have hp1 : isPath (Function.update h.next tail e) list (em1 ++ [tail]) e := by
      refine (isPath_append _ _ _ _ _).2 ⟨tail, isPath_congr (fun x hx => ?_) hpath, rfl, htz, ?_⟩
      · exact Function.update_noteq (fun hxe : x = tail => htn (hxe ▸ hx)) _ _
      · show Function.update h.next tail e tail = e
        simp
    have hfr : ∀ x, x ∉ em1 ++ [tail] → Function.update h.next tail e x = h.next x := by
      intro x hx
      exact Function.update_noteq (fun hxe => hx (by simp [hxe])) _ _
    by_cases ht : t = Topology.LL
    · refine ⟨Heap.mk (Function.update h.next tail e) h.prev, list,
        by simp [sortLink, ht, Heap.wrNext, htz],
        ⟨Or.inr ⟨he, em1 ++ [tail], rfl, hp1⟩, fun hh => absurd ht hh⟩, hfr⟩
    · refine ⟨Heap.mk (Function.update h.next tail e) (Function.update h.prev e tail), list,
        by simp [sortLink, ht, Heap.wrNext, Heap.wrPrev, htz, he],
        ⟨Or.inr ⟨he, em1 ++ [tail], rfl, hp1⟩, fun _ => ?_⟩, hfr⟩
      refine (backLinked_concat _ _ _ _).2 ⟨backLinked_congr (fun x hx => ?_) (hback ht), ?_⟩
      · exact Function.update_noteq (fun hxe : x = e => hnotin (hxe ▸ hx)) _ _
      · show Function.update h.prev e tail e = _
        rw [← htl]
        simp
theorem isPath_frame {t : Topology} {oh : Ptr} {h h1 : Heap} {em l : List Ptr} {a b : Ptr}
    (hfr : ∀ x, x ∉ em → h1.next x = h.next x) (hdis : ∀ x ∈ l, x ∉ em)
    (hp : isPath (effNext t oh h.next) a l b) : isPath (effNext t oh h1.next) a l b := by
  refine isPath_congr (fun x hx => ?_) hp
  simp [effNext, hfr x (hdis x hx)]

theorem sortTakeP_spec (t : Topology) (oh : Ptr) (h : Heap) (list tail p q r0 x : Ptr)
    (P QR em : List Ptr) (ps k : Nat)
    (hP : isPath (effNext t oh h.next) p (x :: P) r0)
    (hQ : isList (effNext t oh h.next) q QR)
    (hem : isEmitted t h list tail em)
    (hnd : (em ++ (x :: P ++ QR)).Nodup) :
    ∃ h1 list1, sortTakeP t oh ⟨h, list, tail, p, q, ps, k⟩
        = some ⟨h1, list1, x, effNext t oh h.next x, q, ps - 1, k⟩ ∧
      isPath (effNext t oh h1.next) (effNext t oh h.next x) P r0 ∧
      isList (effNext t oh h1.next) q QR ∧
      isEmitted t h1 list1 x (em ++ [x]) ∧
      ((em ++ [x]) ++ (P ++ QR)).Nodup := by
  obtain ⟨e, hx, hr⟩ := hP
  subst e
  have hnd1 : ((em ++ [p]) ++ (P ++ QR)).Nodup := by simpa using hnd
  obtain ⟨h1, list1, hl, hem1, hfr⟩ :=
    sortLink_spec t h list tail p em hem hx (List.nodup_append.1 hnd1).1
  have hdis : ∀ y ∈ P ++ QR, y ∉ em := by
    intro y hy hye
    exact (List.nodup_append.1 hnd1).2.2 (List.mem_append_left _ hye) hy
  refine ⟨h1, list1, ?_, isPath_frame hfr (fun y hy => hdis y (List.mem_append_left _ hy)) hr,
    isPath_frame hfr (fun y hy => hdis y (List.mem_append_right _ hy)) hQ, hem1, hnd1⟩
  simp [sortTakeP, sortNext, hx, hl]

theorem sortTakeQ_spec (t : Topology) (oh : Ptr) (h : Heap) (list tail p q r0 y : Ptr)
    (P QR em : List Ptr) (ps k : Nat)
    (hP : isPath (effNext t oh h.next) p P r0)
    (hQ : isList (effNext t oh h.next) q (y :: QR))
    (hem : isEmitted t h list tail em)
    (hnd : (em ++ (P ++ y :: QR)).Nodup) :
    ∃ h1 list1, sortTakeQ t oh ⟨h, list, tail, p, q, ps, k⟩
        = some ⟨h1, list1, y, p, effNext t oh h.next y, ps, k - 1⟩ ∧
      isPath (effNext t oh h1.next) p P r0 ∧
      isList (effNext t oh h1.next) (effNext t oh h.next y) QR ∧
      isEmitted t h1 list1 y (em ++ [y]) ∧
      ((em ++ [y]) ++ (P ++ QR)).Nodup := by
  obtain ⟨e, hy, hr⟩ := hQ
  subst e
  have hperm : List.Perm ((em ++ [q]) ++ (P ++ QR)) (em ++ (P ++ q :: QR)) := by
    rw [List.append_assoc]
    exact List.Perm.append_left em (by simpa using (List.perm_middle).symm)
  have hnd1 : ((em ++ [q]) ++ (P ++ QR)).Nodup := hperm.nodup_iff.2 hnd
  obtain ⟨h1, list1, hl, hem1, hfr⟩ :=
    sortLink_spec t h list tail q em hem hy (List.nodup_append.1 hnd1).1
  have hdis : ∀ z ∈ P ++ QR, z ∉ em := by
    intro z hz hze
    exact (List.nodup_append.1 hnd1).2.2 (List.mem_append_left _ hze) hz
  refine ⟨h1, list1, ?_, isPath_frame hfr (fun z hz => hdis z (List.mem_append_left _ hz)) hP,
    isPath_frame hfr (fun z hz => hdis z (List.mem_append_right _ hz)) hr, hem1, hnd1⟩
  simp [sortTakeQ, sortNext, hy, hl]
theorem sortMerge_stop (t : Topology) (cmp : Ptr → Ptr → Int) (oh : Ptr) (f : Nat)
    (s : MergeState) (hc : ¬ (0 < s.psize ∨ (0 < s.qsize ∧ s.q ≠ 0))) :
    sortMerge t cmp oh f s = some s := by
  cases f <;> simp only [sortMerge, if_neg hc]

theorem sortMerge_step (t : Topology) (cmp : Ptr → Ptr → Int) (oh : Ptr) (f : Nat)
    (s s1 : MergeState) (hc : 0 < s.psize ∨ (0 < s.qsize ∧ s.q ≠ 0))
    (hs : sortMergeStep t cmp oh s = some s1) :
    sortMerge t cmp oh (f + 1) s = sortMerge t cmp oh f s1 := by
  simp only [sortMerge, if_pos hc, hs]

theorem sortMerge_spec (t : Topology) (cmp : Ptr → Ptr → Int) (oh : Ptr) :
    ∀ (fuel : Nat) (P Q R em : List Ptr) (k : Nat) (h : Heap) (list tail p q r0 : Ptr),
      P.length + k ≤ fuel →
      Q.length ≤ k → (Q.length = k ∨ R = []) →
      isPath (effNext t oh h.next) p P r0 →
      isList (effNext t oh h.next) q (Q ++ R) →
      isEmitted t h list tail em →
      (em ++ (P ++ (Q ++ R))).Nodup →
      ∃ m, sortMerge t cmp oh fuel ⟨h, list, tail, p, q, P.length, k⟩ = some m ∧
        isEmitted t m.heap m.list m.tail (em ++ List.merge P Q (sortLe cmp)) ∧
        isList (effNext t oh m.heap.next) m.q R := by
  intro fuel
  induction fuel with
  | zero =>
    intro P Q R em k h list tail p q r0 hf hQk _ _ hQ hem _
    have hP0 : P = [] := List.length_eq_zero.1 (by omega)
    have hk0 : k = 0 := by omega
    have hQ0 : Q = [] := List.length_eq_zero.1 (by omega)
    subst hP0 hk0 hQ0
    exact ⟨_, sortMerge_stop t cmp oh 0 _ (by simp), by simpa using hem, by simpa using hQ⟩
  | succ f ih =>
    intro P Q R em k h list tail p q r0 hf hQk hQR hP hQ hem hnd
    cases P with
    | nil =>
      cases Q with
      | nil =>
        have hstop : ¬ (0 < k ∧ q ≠ 0) := by
          rintro ⟨hk, hq⟩
          rcases hQR with hk0 | rfl
          · simp at hk0; omega
          · exact hq hQ
        exact ⟨_, sortMerge_stop t cmp oh _ _ (by simpa using hstop), by simpa using hem,
          by simpa using hQ⟩
      | cons y Q1 =>
        have hyq : q = y := hQ.1
        have hy0 : y ≠ 0 := hQ.2.1
        have hk : 0 < k := by simp at hQk; omega
        obtain ⟨h1, list1, hstep, hP1, hQ1, hem1, hnd1⟩ :=
          sortTakeQ_spec t oh h list tail p q r0 y [] (Q1 ++ R) em 0 k hP hQ hem hnd
        obtain ⟨m, hm, hem2, hR2⟩ := ih [] Q1 R (em ++ [y]) (k - 1) h1 list1 y p
          (effNext t oh h.next y) r0 (by simp at hf ⊢; omega) (by simp at hQk; omega)
          (by rcases hQR with hk0 | hR
              · left; simp at hk0; omega
              · right; exact hR)
          hP1 hQ1 hem1 hnd1
        refine ⟨m, ?_, by simpa using hem2, hR2⟩
        rw [sortMerge_step t cmp oh f _ _ (Or.inr ⟨hk, hyq ▸ hy0⟩)
          (by simpa [sortMergeStep] using hstep)]
        exact hm
    | cons x P1 =>
      have hxp : p = x := hP.1
      cases Q with
      | nil =>
        have hq0 : k = 0 ∨ q = 0 := by
          rcases hQR with hk0 | rfl
          · left; simpa using hk0.symm
          · right; exact hQ
        obtain ⟨h1, list1, hstep, hP1, hQ1, hem1, hnd1⟩ :=
          sortTakeP_spec t oh h list tail p q r0 x P1 ([] ++ R) em (P1.length + 1) k
            hP hQ hem hnd
        obtain ⟨m, hm, hem2, hR2⟩ := ih P1 [] R (em ++ [x]) k h1 list1 x
          (effNext t oh h.next x) q r0 (by simp at hf ⊢; omega) hQk hQR hP1 hQ1 hem1 hnd1
        refine ⟨m, ?_, by simpa using hem2, hR2⟩
        rw [List.length_cons, sortMerge_step t cmp oh f _ _ (Or.inl (Nat.succ_pos _))
          (by simpa [sortMergeStep, hq0] using hstep)]
        exact hm
      | cons y Q1 =>
        have hyq : q = y := hQ.1
        have hy0 : y ≠ 0 := hQ.2.1
        have hk : 0 < k := by simp at hQk; omega
        subst hxp hyq
        have hq0 : ¬ (k = 0 ∨ q = 0) := by
          rintro (h0 | h0)
          · omega
          · exact hy0 h0
        by_cases hle : cmp p q ≤ 0
        · obtain ⟨h1, list1, hstep, hP1, hQ1, hem1, hnd1⟩ :=
            sortTakeP_spec t oh h list tail p q r0 p P1 (q :: Q1 ++ R) em (P1.length + 1) k
              hP hQ hem hnd
          obtain ⟨m, hm, hem2, hR2⟩ := ih P1 (q :: Q1) R (em ++ [p]) k h1 list1 p
            (effNext t oh h.next p) q r0 (by simp at hf ⊢; omega) hQk hQR hP1 hQ1 hem1 hnd1
          refine ⟨m, ?_, ?_, hR2⟩
          · rw [List.length_cons, sortMerge_step t cmp oh f _ _ (Or.inl (Nat.succ_pos _))
              (by simpa [sortMergeStep, hq0, hle] using hstep)]
            exact hm
          · have : List.merge (p :: P1) (q :: Q1) (sortLe cmp)
                = p :: List.merge P1 (q :: Q1) (sortLe cmp) := by
              rw [List.cons_merge_cons]
              simp [sortLe, hle]
            rw [this]
            simpa using hem2
        · obtain ⟨h1, list1, hstep, hP1, hQ1, hem1, hnd1⟩ :=
            sortTakeQ_spec t oh h list tail p q r0 q (p :: P1) (Q1 ++ R) em (P1.length + 1) k
              hP hQ hem hnd
          obtain ⟨m, hm, hem2, hR2⟩ := ih (p :: P1) Q1 R (em ++ [q]) (k - 1) h1 list1 q p
            (effNext t oh h.next q) r0 (by simp at hf ⊢; omega) (by simp at hQk; omega)
            (by rcases hQR with hk0 | hR
                · left; simp at hk0; omega
                · right; exact hR)
            hP1 hQ1 hem1 hnd1
          refine ⟨m, ?_, ?_, hR2⟩
          · rw [List.length_cons, sortMerge_step t cmp oh f _ _ (Or.inl (Nat.succ_pos _))
              (by simpa [sortMergeStep, hq0, hle] using hstep)]
            exact hm
          · have : List.merge (p :: P1) (q :: Q1) (sortLe cmp)
                = q :: List.merge (p :: P1) Q1 (sortLe cmp) := by
              rw [List.cons_merge_cons]
              simp [sortLe, hle]
            rw [this]
            simpa using hem2

/-! ## One pass -/

theorem runsOf_cons {k : Nat} (hk : 0 < k) {b : List Ptr} {rest : List (List Ptr)}
    (hr : runsOf k (b :: rest)) :
    runsOf k rest ∧ b ≠ [] ∧ b.length ≤ k ∧ (b.length = k ∨ rest = []) := by
  cases rest with
  | nil => exact ⟨trivial, hr.1, hr.2, Or.inr rfl⟩
  | cons b2 rest =>
    refine ⟨hr.2, ?_, by rw [hr.1], Or.inl hr.1⟩
    intro hb
    rw [hb] at hr
    exact absurd hr.1.symm (Nat.pos_iff_ne_zero.1 hk)

theorem sortPass_stop (t : Topology) (cmp : Ptr → Ptr → Int) (oh : Ptr) (k f : Nat)
    (s : PassState) (hp : s.p = 0) : sortPass t cmp oh k (f + 1) s = some s := by
  simp only [sortPass, if_pos hp]

theorem sortPass_step (t : Topology) (cmp : Ptr → Ptr → Int) (oh : Ptr) (k f : Nat)
    (s : PassState) (q : Ptr) (ps : Nat) (m : MergeState) (hp : s.p ≠ 0)
    (hnm : s.nmerges + 1 ≤ INT_MAX)
    (hc : sortCount t s.heap oh k s.p 0 = some (q, ps))
    (hm : sortMerge t cmp oh (ps + k) ⟨s.heap, s.list, s.tail, s.p, q, ps, k⟩ = some m) :
    sortPass t cmp oh k (f + 1) s
      = sortPass t cmp oh k f ⟨m.heap, m.list, m.tail, m.q, s.nmerges + 1⟩ := by
  simp only [sortPass, if_neg hp, intVal_of_le hnm, hc, hm]

theorem sortPass_spec (t : Topology) (cmp : Ptr → Ptr → Int) (oh : Ptr) (k : Nat) (hk : 0 < k) :
    ∀ (bs : List (List Ptr)) (fuel : Nat) (em : List Ptr) (h : Heap) (list tail p : Ptr)
      (nm : Nat),
      runsOf k bs →
      (mergePairs cmp bs).length < fuel →
      isList (effNext t oh h.next) p bs.flatten →
      isEmitted t h list tail em →
      (em ++ bs.flatten).Nodup →
      k ≤ INT_MAX → nm + (mergePairs cmp bs).length ≤ INT_MAX →
      ∃ r, sortPass t cmp oh k fuel ⟨h, list, tail, p, nm⟩ = some r ∧
        isEmitted t r.heap r.list r.tail (em ++ (mergePairs cmp bs).flatten) ∧
        r.nmerges = nm + (mergePairs cmp bs).length
  | [], fuel, em, h, list, tail, p, nm, _, hf, hl, hem, _, _, _ => by
    obtain ⟨f, rfl⟩ : ∃ f, fuel = f + 1 := ⟨fuel - 1, by omega⟩
    have hp : p = 0 := hl
    exact ⟨_, sortPass_stop t cmp oh k f _ hp, by simpa [mergePairs] using hem,
      by simp [mergePairs]⟩
  | [b], fuel, em, h, list, tail, p, nm, hr, hf, hl, hem, hnd, hkm, hnmb => by
    obtain ⟨f, rfl⟩ : ∃ f, fuel = f + 1 := ⟨fuel - 1, by omega⟩
    have hb : b ≠ [] := hr.1
    have hbk : b.length ≤ k := hr.2
    have hl1 : isList (effNext t oh h.next) p b := by simpa using hl
    have hp : p ≠ 0 := by
      cases b with
      | nil => exact absurd rfl hb
      | cons x xs => exact hl1.1 ▸ hl1.2.1
    have hc := sortCount_spec t h oh k p b 0 hl1 (Or.inl hb)
      (by rw [Nat.min_eq_right hbk]; omega)
    rw [List.drop_eq_nil_of_le hbk, Nat.min_eq_right hbk] at hc
    simp only [List.headD_nil, Nat.zero_add] at hc
    obtain ⟨m, hm, hem1, hq1⟩ := sortMerge_spec t cmp oh (b.length + k) b [] [] em k h list tail
      p 0 0 (le_refl _) (Nat.zero_le _) (Or.inr rfl) hl1 rfl hem (by simpa using hnd)
    have hstep := sortPass_step t cmp oh k f ⟨h, list, tail, p, nm⟩ 0 b.length m hp
      (by simp [mergePairs] at hnmb; exact hnmb) hc hm
    have hmq : m.q = 0 := hq1
    obtain ⟨g, rfl⟩ : ∃ g, f = g + 1 := ⟨f - 1, by simp [mergePairs] at hf; omega⟩
    refine ⟨_, hstep.trans (sortPass_stop t cmp oh k g _ hmq), ?_, by simp [mergePairs]⟩
    simpa [mergePairs] using hem1
  | b1 :: b2 :: rest, fuel, em, h, list, tail, p, nm, hr, hf, hl, hem, hnd, hkm, hnmb => by
    obtain ⟨f, rfl⟩ : ∃ f, fuel = f + 1 := ⟨fuel - 1, by omega⟩
    have hb1 : b1.length = k := hr.1
    obtain ⟨hrest, hb2, hb2k, hb2r⟩ := runsOf_cons hk hr.2
    have hflat : (b1 :: b2 :: rest).flatten = b1 ++ (b2 ++ rest.flatten) := by simp
    rw [hflat] at hl hnd
    obtain ⟨r0, hP, hQ⟩ := (isPath_append _ _ _ _ _).1 hl
    have hb1ne : b1 ≠ [] := by
      intro hb
      rw [hb] at hb1
      exact absurd hb1.symm (Nat.pos_iff_ne_zero.1 hk)
    have hp : p ≠ 0 := by
      cases b1 with
      | nil => exact absurd rfl hb1ne
      | cons x xs => exact hP.1 ▸ hP.2.1
    have hnmb1 : nm + 1 + (mergePairs cmp rest).length ≤ INT_MAX := by
      simp [mergePairs] at hnmb
      omega
    have hc := sortCount_spec t h oh k p _ 0 hl (Or.inl (by simp [hb1ne]))
      (by rw [Nat.zero_add]; exact le_trans (Nat.min_le_left _ _) hkm)
    have hdrop : (b1 ++ (b2 ++ rest.flatten)).drop k = b2 ++ rest.flatten := by
      rw [← hb1]
      exact List.drop_left _ _
    have hmin : min k (b1 ++ (b2 ++ rest.flatten)).length = b1.length := by
      rw [List.length_append, hb1]
      exact Nat.min_eq_left (Nat.le_add_right _ _)
    rw [hdrop, hmin, Nat.zero_add, ← isPath_head hQ] at hc
    have hrest0 : b2.length = k ∨ rest.flatten = [] := by
      rcases hb2r with h1 | h1
      · exact Or.inl h1
      · right; rw [h1]; rfl
    obtain ⟨m, hm, hem1, hq1⟩ := sortMerge_spec t cmp oh (b1.length + k) b1 b2 rest.flatten em k
      h list tail p r0 r0 (le_refl _) hb2k hrest0 hP hQ hem hnd
    have hstep := sortPass_step t cmp oh k f ⟨h, list, tail, p, nm⟩ r0 b1.length m hp
      (by show nm + 1 ≤ INT_MAX; omega) hc hm
    have hperm : List.Perm ((em ++ List.merge b1 b2 (sortLe cmp)) ++ rest.flatten)
        (em ++ (b1 ++ (b2 ++ rest.flatten))) := by
      rw [List.append_assoc, ← List.append_assoc b1]
      exact List.Perm.append_left em
        (List.Perm.append_right _ (List.merge_perm_append (sortLe cmp)))
    obtain ⟨r, hr1, hem2, hnm⟩ := sortPass_spec t cmp oh k hk rest f
      (em ++ List.merge b1 b2 (sortLe cmp)) m.heap m.list m.tail m.q (nm + 1) hrest
      (by simp [mergePairs] at hf; omega) hq1 hem1 (hperm.nodup_iff.2 hnd) hkm hnmb1
    refine ⟨r, hstep.trans hr1, ?_, ?_⟩
    · simpa [mergePairs] using hem2
    · rw [hnm]
      simp [mergePairs]
      omega

/-! ## What a pass does to the runs -/

theorem mergePairs_length (cmp : Ptr → Ptr → Int) :
    ∀ bs : List (List Ptr), (mergePairs cmp bs).length = (bs.length + 1) / 2
  | [] => rfl
  | [_] => by simp [mergePairs]
  | _ :: _ :: rest => by
    simp only [mergePairs, List.length_cons, mergePairs_length cmp rest]
    omega

theorem mergePairs_perm (cmp : Ptr → Ptr → Int) :
    ∀ bs : List (List Ptr), List.Perm (mergePairs cmp bs).flatten bs.flatten
  | [] => List.Perm.refl _
  | [_] => List.Perm.refl _
  | b1 :: b2 :: rest => by
    simp only [mergePairs, List.flatten_cons, ← List.append_assoc]
    exact List.Perm.append (List.merge_perm_append (sortLe cmp)) (mergePairs_perm cmp rest)

theorem runsOf_mergePairs (cmp : Ptr → Ptr → Int) (k : Nat) (hk : 0 < k) :
    ∀ bs : List (List Ptr), runsOf k bs → runsOf (2 * k) (mergePairs cmp bs)
  | [], _ => trivial
  | [b], hr => ⟨hr.1, by have := hr.2; omega⟩
  | [b1, b2], hr => by
    have h1 : b1.length = k := hr.1
    have h2 : b2 ≠ [] ∧ b2.length ≤ k := hr.2
    refine ⟨?_, ?_⟩
    · intro hm
      have := congrArg List.length hm
      rw [List.length_merge, List.length_nil] at this
      omega
    · simp only [List.length_merge]
      omega
  | b1 :: b2 :: b3 :: rest, hr => by
    have h1 : b1.length = k := hr.1
    have h2 : b2.length = k := hr.2.1
    have ih := runsOf_mergePairs cmp k hk (b3 :: rest) hr.2.2
    cases rest with
    | nil =>
      refine ⟨?_, ih⟩
      simp only [List.length_merge]
      omega
    | cons b4 rest =>
      refine ⟨?_, ih⟩
      simp only [List.length_merge]
      omega

theorem sortLe_trans {cmp : Ptr → Ptr → Int}
    (htr : ∀ a b c, cmp a b ≤ 0 → cmp b c ≤ 0 → cmp a c ≤ 0) (a b c : Ptr) :
    sortLe cmp a b = true → sortLe cmp b c = true → sortLe cmp a c = true := by
  simp only [sortLe, decide_eq_true_eq]
  exact htr a b c

theorem sortLe_total {cmp : Ptr → Ptr → Int} (htot : ∀ a b, cmp a b ≤ 0 ∨ cmp b a ≤ 0)
    (a b : Ptr) : (sortLe cmp a b || sortLe cmp b a) = true := by
  simp only [sortLe, Bool.or_eq_true, decide_eq_true_eq]
  exact htot a b

theorem merge_sorted {cmp : Ptr → Ptr → Int}
    (htr : ∀ a b c, cmp a b ≤ 0 → cmp b c ≤ 0 → cmp a c ≤ 0)
    (htot : ∀ a b, cmp a b ≤ 0 ∨ cmp b a ≤ 0) (l1 l2 : List Ptr)
    (h1 : l1.Pairwise (fun a b => cmp a b ≤ 0)) (h2 : l2.Pairwise (fun a b => cmp a b ≤ 0)) :
    (List.merge l1 l2 (sortLe cmp)).Pairwise (fun a b => cmp a b ≤ 0) := by
  have key := List.sorted_merge (sortLe_trans htr) (sortLe_total htot) l1 l2
    (h1.imp (fun hab => by simpa [sortLe] using hab))
    (h2.imp (fun hab => by simpa [sortLe] using hab))
  exact key.imp (fun hab => by simpa [sortLe] using hab)

theorem mergePairs_sorted {cmp : Ptr → Ptr → Int}
    (htr : ∀ a b c, cmp a b ≤ 0 → cmp b c ≤ 0 → cmp a c ≤ 0)
    (htot : ∀ a b, cmp a b ≤ 0 ∨ cmp b a ≤ 0) :
    ∀ bs : List (List Ptr), (∀ b ∈ bs, b.Pairwise (fun x y => cmp x y ≤ 0)) →
      ∀ b ∈ mergePairs cmp bs, b.Pairwise (fun x y => cmp x y ≤ 0)
  | [], _ => by simp [mergePairs]
  | [b], hs => by simpa [mergePairs] using hs
  | b1 :: b2 :: rest, hs => by
    intro b hb
    simp only [mergePairs, List.mem_cons] at hb
    rcases hb with rfl | hb
    · exact merge_sorted htr htot b1 b2 (hs b1 (by simp)) (hs b2 (by simp))
    · exact mergePairs_sorted htr htot rest (fun c hc => hs c (by simp [hc])) b hb

/-! ## Stability -/

theorem stableFor_refl (cmp : Ptr → Ptr → Int) (l : List Ptr) : stableFor cmp l l :=
  fun _ _ _ hs => hs

theorem stableFor_trans {cmp : Ptr → Ptr → Int} {l0 l1 l2 : List Ptr}
    (h1 : stableFor cmp l0 l1) (h2 : stableFor cmp l1 l2) : stableFor cmp l0 l2 :=
  fun a b hab hs => h2 a b hab (h1 a b hab hs)

theorem pair_sublist_append {a b : Ptr} {l1 l2 : List Ptr}
    (hs : List.Sublist [a, b] (l1 ++ l2)) :
    List.Sublist [a, b] l1 ∨ (a ∈ l1 ∧ b ∈ l2) ∨ List.Sublist [a, b] l2 := by
  obtain ⟨r1, r2, he, hr1, hr2⟩ := List.sublist_append_iff.1 hs
  cases r1 with
  | nil =>
    simp only [List.nil_append] at he
    subst he
    exact Or.inr (Or.inr hr2)
  | cons c r1 =>
    cases r1 with
    | nil =>
      simp only [List.cons_append, List.nil_append, List.cons.injEq] at he
      obtain ⟨rfl, rfl⟩ := he
      exact Or.inr (Or.inl ⟨List.singleton_sublist.1 hr1, List.singleton_sublist.1 hr2⟩)
    | cons d r1 =>
      simp only [List.cons_append, List.cons.injEq] at he
      obtain ⟨rfl, rfl, he⟩ := he
      have h1 : r1 = [] := (List.append_eq_nil.1 he.symm).1
      subst h1
      exact Or.inl hr1

theorem stableFor_append {cmp : Ptr → Ptr → Int} {l1 l2 m1 m2 : List Ptr}
    (h1 : stableFor cmp l1 m1) (h2 : stableFor cmp l2 m2)
    (hm1 : ∀ x ∈ l1, x ∈ m1) (hm2 : ∀ x ∈ l2, x ∈ m2) :
    stableFor cmp (l1 ++ l2) (m1 ++ m2) := by
  intro a b hab hs
  rcases pair_sublist_append hs with hs1 | ⟨ha, hb⟩ | hs2
  · exact (h1 a b hab hs1).trans (List.sublist_append_left _ _)
  · exact List.Sublist.append (List.singleton_sublist.2 (hm1 a ha))
      (List.singleton_sublist.2 (hm2 b hb))
  · exact (h2 a b hab hs2).trans (List.sublist_append_right _ _)

theorem merge_stableFor {cmp : Ptr → Ptr → Int}
    (htr : ∀ a b c, cmp a b ≤ 0 → cmp b c ≤ 0 → cmp a c ≤ 0) (L R : List Ptr)
    (hL : L.Pairwise (fun a b => cmp a b ≤ 0)) :
    stableFor cmp (L ++ R) (List.merge L R (sortLe cmp)) := by
  induction L generalizing R with
  | nil => simpa using stableFor_refl cmp R
  | cons x L1 ihL =>
    induction R with
    | nil => simpa using stableFor_refl cmp (x :: L1)
    | cons y R1 ihR =>
      intro a b hab hs
      rw [List.cons_merge_cons]
      by_cases hle : cmp x y ≤ 0
      · have hxy : sortLe cmp x y = true := by simpa [sortLe] using hle
        rw [if_pos hxy]
        rw [List.cons_append] at hs
        rcases List.sublist_cons_iff.1 hs with hs1 | ⟨r, hr, hs1⟩
        · exact (ihL (y :: R1) hL.tail a b hab hs1).cons x
        · simp only [List.cons.injEq] at hr
          obtain ⟨rfl, rfl⟩ := hr
          have hb : b ∈ List.merge L1 (y :: R1) (sortLe cmp) :=
            List.mem_merge.2 (List.mem_append.1 (List.singleton_sublist.1 hs1))
          exact (List.singleton_sublist.2 hb).cons₂ a
      · have hxy : ¬ sortLe cmp x y = true := by simpa [sortLe] using hle
        rw [if_neg hxy]
        rcases pair_sublist_append hs with hs1 | ⟨ha, hb⟩ | hs2
        · exact (ihR a b hab (hs1.trans (List.sublist_append_left _ _))).cons y
        · rcases List.mem_cons.1 hb with rfl | hb1
          · exfalso
            rcases List.mem_cons.1 ha with rfl | ha1
            · exact hle hab
            · exact hle (htr x a b (List.rel_of_pairwise_cons hL ha1) hab)
          · have hsub : List.Sublist [a, b] ((x :: L1) ++ R1) :=
              List.Sublist.append (List.singleton_sublist.2 ha) (List.singleton_sublist.2 hb1)
            exact (ihR a b hab hsub).cons y
        · rcases List.sublist_cons_iff.1 hs2 with hs3 | ⟨r, hr, hs3⟩
          · exact (ihR a b hab (hs3.trans (List.sublist_append_right _ _))).cons y
          · simp only [List.cons.injEq] at hr
            obtain ⟨rfl, rfl⟩ := hr
            have hb : b ∈ List.merge (x :: L1) R1 (sortLe cmp) :=
              List.mem_merge.2 (Or.inr (List.singleton_sublist.1 hs3))
            exact (List.singleton_sublist.2 hb).cons₂ a

theorem mergePairs_stableFor {cmp : Ptr → Ptr → Int}
    (htr : ∀ a b c, cmp a b ≤ 0 → cmp b c ≤ 0 → cmp a c ≤ 0) :
    ∀ bs : List (List Ptr), (∀ b ∈ bs, b.Pairwise (fun x y => cmp x y ≤ 0)) →
      stableFor cmp bs.flatten (mergePairs cmp bs).flatten
  | [], _ => stableFor_refl cmp _
  | [_], _ => stableFor_refl cmp _
  | b1 :: b2 :: rest, hs => by
    have hflat : (b1 :: b2 :: rest).flatten = (b1 ++ b2) ++ rest.flatten := by simp
    rw [hflat]
    show stableFor cmp _ (List.merge b1 b2 (sortLe cmp) ++ (mergePairs cmp rest).flatten)
    refine stableFor_append (merge_stableFor htr b1 b2 (hs b1 (by simp)))
      (mergePairs_stableFor htr rest (fun c hc => hs c (by simp [hc]))) ?_ ?_
    · intro x hx
      exact List.mem_merge.2 (List.mem_append.1 hx)
    · intro x hx
      exact (mergePairs_perm cmp rest).mem_iff.2 hx

/-! ## Closing a pass and starting the next -/

theorem backLinked_update_head {pv : Ptr → Ptr} {a x v : Ptr} {xs : List Ptr}
    (hb : backLinked pv a (x :: xs)) (hx : x ∉ xs) :
    backLinked (Function.update pv x v) v (x :: xs) := by
  refine ⟨by simp, backLinked_congr (fun y hy => ?_) hb.2⟩
  exact Function.update_noteq (fun hyx : y = x => hx (hyx ▸ hy)) _ _

theorem isEmitted_close {t : Topology} {h : Heap} {list tail : Ptr} {em : List Ptr}
    (hem : isEmitted t h list tail em) (hne : em ≠ []) (hnd : em.Nodup) (stop : Ptr) :
    tail ≠ 0 ∧ list ≠ 0 ∧ em.getLastD 0 = tail ∧ (∃ rest, em = list :: rest) ∧
      isPath (Function.update h.next tail stop) list em stop := by
  rcases hem.1 with ⟨h0, _, _⟩ | ⟨htz, em1, rfl, hpath⟩
  · exact absurd h0 hne
  · have htn : tail ∉ em1 := fun hm =>
      (List.nodup_append.1 hnd).2.2 hm (List.mem_singleton_self tail)
    have hhead : ∃ rest, em1 ++ [tail] = list :: rest := by
      cases em1 with
      | nil => exact ⟨[], by rw [show list = tail from hpath]; rfl⟩
      | cons x xs => exact ⟨xs ++ [tail], by rw [show list = x from hpath.1]; rfl⟩
    have hl0 : list ≠ 0 := by
      obtain ⟨rest, hr⟩ := hhead
      have hmem : list ∈ em1 ++ [tail] := by rw [hr]; exact List.mem_cons_self _ _
      rcases List.mem_append.1 hmem with hm | hm
      · exact isPath_ne_zero hpath list hm
      · rw [List.mem_singleton.1 hm]; exact htz
    refine ⟨htz, hl0, List.getLastD_concat _ _ _, hhead, ?_⟩
    refine (isPath_append _ _ _ _ _).2 ⟨tail, isPath_congr (fun x hx => ?_) hpath, rfl, htz, ?_⟩
    · exact Function.update_noteq (fun hxe : x = tail => htn (hxe ▸ hx)) _ _
    · show Function.update h.next tail stop tail = stop
      simp

theorem sortFinish_spec (t : Topology) (h : Heap) (list tail : Ptr) (em : List Ptr)
    (hem : isEmitted t h list tail em) (hne : em ≠ []) (hnd : em.Nodup) :
    ∃ h1, sortFinish t h list tail = some h1 ∧ sortShape t h1 list em := by
  cases t with
  | LL =>
    obtain ⟨htz, _, _, _, hp⟩ := isEmitted_close hem hne hnd 0
    exact ⟨Heap.mk (Function.update h.next tail 0) h.prev,
      by simp [sortFinish, Heap.wrNext, htz], hp⟩
  | DL =>
    obtain ⟨htz, hlz, hlast, ⟨rest, hrest⟩, hp⟩ := isEmitted_close hem hne hnd 0
    refine ⟨Heap.mk (Function.update h.next tail 0) (Function.update h.prev list tail),
      by simp [sortFinish, Heap.wrNext, Heap.wrPrev, htz, hlz], hp, ?_⟩
    rw [hlast]
    have hb := hem.2 (by decide)
    subst hrest
    exact backLinked_update_head hb (List.nodup_cons.1 hnd).1
  | CDL =>
    obtain ⟨htz, hlz, hlast, ⟨rest, hrest⟩, hp⟩ := isEmitted_close hem hne hnd list
    refine ⟨Heap.mk (Function.update h.next tail list) (Function.update h.prev list tail),
      by simp [sortFinish, Heap.wrNext, Heap.wrPrev, htz, hlz], hp, ?_⟩
    rw [hlast]
    have hb := hem.2 (by decide)
    subst hrest
    exact backLinked_update_head hb (List.nodup_cons.1 hnd).1

theorem isPath_wrap (nx : Ptr → Ptr) (b : Ptr) :
    ∀ (l : List Ptr) (a : Ptr), isPath nx a l b → l ≠ [] → (∀ x ∈ l.tail, x ≠ b) →
      isList (effNext Topology.CDL b nx) a l
  | [], _, _, hne, _ => absurd rfl hne
  | [x], a, hp, _, _ => by
    obtain ⟨e, hx, hr⟩ := hp
    refine ⟨e, hx, ?_⟩
    have hnx : nx x = b := hr
    show effNext Topology.CDL b nx x = 0
    simp [effNext, hnx]
  | x :: y :: ys, a, hp, _, ht => by
    obtain ⟨e, hx, hr⟩ := hp
    have hnx : nx x = y := hr.1
    have hyb : y ≠ b := ht y (by simp)
    have ih := isPath_wrap nx b (y :: ys) (nx x) hr (by simp)
      (fun z hz => ht z (List.mem_cons_of_mem _ hz))
    refine ⟨e, hx, ?_⟩
    have : effNext Topology.CDL b nx x = nx x := by simp [effNext, hnx, hyb]
    rw [this]
    exact ih

theorem sortShape_start {t : Topology} {h : Heap} {list : Ptr} {l : List Ptr}
    (hs : sortShape t h list l) (hne : l ≠ []) (hnd : l.Nodup) :
    isList (effNext t list h.next) list l := by
  cases t with
  | LL => rw [effNext_of_ne (by decide)]; exact hs
  | DL => rw [effNext_of_ne (by decide)]; exact hs.1
  | CDL =>
    refine isPath_wrap h.next list l list hs.1 hne ?_
    cases l with
    | nil => exact absurd rfl hne
    | cons x xs =>
      have hx : list = x := hs.1.1
      intro z hz hzl
      exact (List.nodup_cons.1 hnd).1 (by rw [← hx, ← hzl]; exact hz)

/-! ## The outer loop -/

theorem runsOf_flatten_ne_nil {k : Nat} (hk : 0 < k) {bs : List (List Ptr)} (hr : runsOf k bs)
    (hne : bs ≠ []) : bs.flatten ≠ [] := by
  cases bs with
  | nil => exact absurd rfl hne
  | cons b rest =>
    obtain ⟨_, hb, _, _⟩ := runsOf_cons hk hr
    intro hf
    rw [List.flatten_cons] at hf
    exact hb (List.append_eq_nil.1 hf).1

/-- A pass whose run size is more than half of `INT_MAX` cannot be followed by
`_ls_insize *= 2`: the outer loop fails there, whatever the fuel. -/
theorem sortLoop_overflow (t : Topology) (cmp : Ptr → Ptr → Int) (fuel f : Nat) (h : Heap)
    (list : Ptr) (k : Nat) (hk : INT_MAX < k * 2) : sortLoop t cmp fuel f h list k = none := by
  cases f with
  | zero => rfl
  | succ f =>
    have hiv : intVal (k * 2) = none := if_neg (Nat.not_le.2 hk)
    simp only [sortLoop]
    cases sortPass t cmp list k fuel ⟨h, 0, 0, list, 0⟩ with
    | none => rfl
    | some r =>
      simp only
      cases sortFinish t r.heap r.list r.tail with
      | none => rfl
      | some h1 => simp only [hiv]

/-- The counters stay in the range of `int`: with `m` runs of size `k` to
merge, `m <= 2 ^ e` and `k * 2 ^ e <= INT_MAX`, neither `k`, nor `k * 2`, nor
`m` overflows, and after a pass that does more than one merge the same holds
with `e - 1`. -/
theorem passBound {k e m : Nat} (hk : 0 < k) (he : 1 ≤ e) (hme : m ≤ 2 ^ e)
    (hke : k * 2 ^ e ≤ INT_MAX) :
    k ≤ INT_MAX ∧ k * 2 ≤ INT_MAX ∧ m ≤ INT_MAX ∧
      (1 < (m + 1) / 2 → 1 ≤ e - 1 ∧ (m + 1) / 2 ≤ 2 ^ (e - 1) ∧
        k * 2 * 2 ^ (e - 1) ≤ INT_MAX) := by
  obtain ⟨e1, rfl⟩ : ∃ e1, e = e1 + 1 := ⟨e - 1, by omega⟩
  rw [Nat.add_sub_cancel]
  have h2 : 2 ^ (e1 + 1) = 2 * 2 ^ e1 := by rw [pow_succ]; ring
  rw [h2] at hme hke
  have hP : 0 < 2 ^ e1 := pow_pos (by norm_num) _
  have h1 : k ≤ k * 2 ^ e1 := Nat.le_mul_of_pos_right k hP
  have h3 : 2 ^ e1 ≤ k * 2 ^ e1 := Nat.le_mul_of_pos_left _ hk
  have h4 : k * (2 * 2 ^ e1) = 2 * (k * 2 ^ e1) := by ring
  have h5 : k * 2 * 2 ^ e1 = 2 * (k * 2 ^ e1) := by ring
  rw [h4] at hke
  rw [h5]
  refine ⟨by omega, by omega, by omega, fun hm => ?_⟩
  rcases Nat.eq_zero_or_pos e1 with h0 | hpos
  · subst h0
    simp only [pow_zero] at hme
    omega
  · exact ⟨hpos, by omega, hke⟩

theorem sortLoop_spec (t : Topology) (cmp : Ptr → Ptr → Int)
    (htr : ∀ a b c, cmp a b ≤ 0 → cmp b c ≤ 0 → cmp a c ≤ 0)
    (htot : ∀ a b, cmp a b ≤ 0 ∨ cmp b a ≤ 0) (fuel : Nat) :
    ∀ (f : Nat) (bs : List (List Ptr)) (k e : Nat) (h : Heap) (list : Ptr),
      0 < k → bs ≠ [] → bs.length ≤ f → bs.length < fuel →
      1 ≤ e → bs.length ≤ 2 ^ e → k * 2 ^ e ≤ INT_MAX →
      runsOf k bs → (∀ b ∈ bs, b.Pairwise (fun x y => cmp x y ≤ 0)) →
      isList (effNext t list h.next) list bs.flatten → bs.flatten.Nodup →
      ∃ s l, sortLoop t cmp fuel f h list k = some s ∧ sortShape t s.heap s.list l ∧
        l.Perm bs.flatten ∧ l.Pairwise (fun x y => cmp x y ≤ 0) ∧
        stableFor cmp bs.flatten l := by
  intro f
  induction f with
  | zero =>
    intro bs k e h list _ hne hlen
    exact absurd (List.length_eq_zero.1 (Nat.le_zero.1 hlen)) hne
  | succ f ih =>
    intro bs k e h list hk hne hlen hfuel he hme hke hruns hsorted hl hnd
    have hlenm := mergePairs_length cmp bs
    have hbpos : 0 < bs.length := List.length_pos.2 hne
    obtain ⟨hkm, hk2, hmm, hnext⟩ := passBound hk he hme hke
    obtain ⟨r, hpass, hem, hnm⟩ := sortPass_spec t cmp list k hk bs fuel [] h 0 0 list 0 hruns
      (by omega) hl ⟨Or.inl ⟨rfl, rfl, rfl⟩, fun _ => trivial⟩ (by simpa using hnd) hkm
      (by rw [Nat.zero_add, hlenm]; omega)
    rw [List.nil_append] at hem
    rw [Nat.zero_add] at hnm
    have hperm := mergePairs_perm cmp bs
    have hnd1 : (mergePairs cmp bs).flatten.Nodup := hperm.nodup_iff.2 hnd
    have hne1 : (mergePairs cmp bs).flatten ≠ [] := by
      intro h0
      have := hperm.length_eq
      rw [h0] at this
      exact runsOf_flatten_ne_nil hk hruns hne (List.length_eq_zero.1 this.symm)
    obtain ⟨h1, hfin, hshape⟩ := sortFinish_spec t r.heap r.list r.tail _ hem hne1 hnd1
    have hsorted1 := mergePairs_sorted htr htot bs hsorted
    have hstab1 := mergePairs_stableFor htr bs hsorted
    by_cases hdone : r.nmerges ≤ 1
    · refine ⟨⟨h1, r.list, k * 2, r.nmerges⟩, (mergePairs cmp bs).flatten, ?_, hshape, hperm,
        ?_, hstab1⟩
      · simp only [sortLoop, hpass, hfin, intVal_of_le hk2, if_pos hdone]
      · have hlen1 : (mergePairs cmp bs).length = 1 := by omega
        obtain ⟨b, hb⟩ := List.length_eq_one.1 hlen1
        rw [hb]
        simpa using hsorted1 b (by rw [hb]; exact List.mem_singleton_self b)
    · have hruns1 : runsOf (k * 2) (mergePairs cmp bs) := by
        rw [Nat.mul_comm]
        exact runsOf_mergePairs cmp k hk bs hruns
      obtain ⟨he1, hme1, hke1⟩ := hnext (by omega)
      obtain ⟨s, l, hs, hshape2, hperm2, hsorted2, hstab2⟩ := ih (mergePairs cmp bs) (k * 2)
        (e - 1) h1
        r.list (by omega) (fun h0 => hne1 (by rw [h0]; rfl)) (by omega) (by omega) he1
        (by rw [hlenm]; exact hme1) hke1 hruns1
        hsorted1 (sortShape_start hshape hne1 hnd1) hnd1
      refine ⟨s, l, ?_, hshape2, hperm2.trans hperm, hsorted2, stableFor_trans hstab1 hstab2⟩
      simp only [sortLoop, hpass, hfin, intVal_of_le hk2, if_neg hdone]
      exact hs

/-- The runs before the first pass: every node is a run of its own. -/
theorem runsOf_singletons (l : List Ptr) : runsOf 1 (l.map (fun x => [x])) := by
  induction l with
  | nil => trivial
  | cons x xs ih =>
    cases xs with
    | nil => exact ⟨by simp, by simp⟩
    | cons y ys => exact ⟨rfl, ih⟩

theorem flatten_singletons (l : List Ptr) : (l.map (fun x => [x])).flatten = l := by
  induction l with
  | nil => rfl
  | cons x xs ih => simp [ih]

theorem sortRun_spec (t : Topology) (cmp : Ptr → Ptr → Int)
    (htr : ∀ a b c, cmp a b ≤ 0 → cmp b c ≤ 0 → cmp a c ≤ 0)
    (htot : ∀ a b, cmp a b ≤ 0 ∨ cmp b a ≤ 0) (fuel : Nat) (h : Heap) (list : Ptr)
    (l : List Ptr) (hne : l ≠ []) (hfuel : l.length < fuel) (hn : l.length ≤ 2 ^ 30)
    (hl : isList (effNext t list h.next) list l) (hnd : l.Nodup) :
    ∃ h1 list1 l1, sortRun t cmp fuel h list = some (h1, list1) ∧ sortShape t h1 list1 l1 ∧
      l1.Perm l ∧ l1.Pairwise (fun x y => cmp x y ≤ 0) ∧ stableFor cmp l l1 := by
  have hfl := flatten_singletons l
  obtain ⟨s, l1, hs, hshape, hperm, hsorted, hstab⟩ := sortLoop_spec t cmp htr htot fuel fuel
    (l.map (fun x => [x])) 1 30 h list Nat.one_pos (by simpa using hne) (by simp; omega)
    (by simpa using hfuel) (by norm_num) (by simpa using hn) (by norm_num [INT_MAX])
    (runsOf_singletons l)
    (by intro b hb; obtain ⟨x, _, rfl⟩ := List.mem_map.1 hb; exact List.pairwise_singleton _ _)
    (by rw [hfl]; exact hl) (by rw [hfl]; exact hnd)
  rw [hfl] at hperm hstab
  have hlz : list ≠ 0 := by
    cases l with
    | nil => exact absurd rfl hne
    | cons x xs => exact hl.1 ▸ hl.2.1
  exact ⟨s.heap, s.list, l1, by simp [sortRun, hlz, hs], hshape, hperm, hsorted, hstab⟩

/-! ## Iteration over well-formed lists -/

theorem LL_FOREACH_of_isList (h : Heap) :
    ∀ (l : List Ptr) (fuel : Nat) (el : Ptr), isList h.next el l → l.length < fuel →
      LL_FOREACH fuel h el = some l
  | [], fuel, el, hl, hf => by
    obtain ⟨f, rfl⟩ : ∃ f, fuel = f + 1 := ⟨fuel - 1, by omega⟩
    have : el = 0 := hl
    simp [LL_FOREACH, this]
  | x :: xs, fuel, el, hl, hf => by
    obtain ⟨f, rfl⟩ : ∃ f, fuel = f + 1 := ⟨fuel - 1, by omega⟩
    obtain ⟨e, hx, hr⟩ := hl
    subst e
    have ih := LL_FOREACH_of_isList h xs f (h.next el) hr (by simpa using hf)
    simp [LL_FOREACH, hx, ih]

theorem isList_of_LL_FOREACH (h : Heap) :
    ∀ (fuel : Nat) (el : Ptr) (l : List Ptr), LL_FOREACH fuel h el = some l →
      isList h.next el l
  | 0, _, _, hf => by simp [LL_FOREACH] at hf
  | f + 1, el, l, hf => by
    by_cases hz : el = 0
    · simp [LL_FOREACH, hz] at hf
      subst hf
      exact hz
    · simp only [LL_FOREACH, if_neg hz, Option.map_eq_some'] at hf
      obtain ⟨r, hr, rfl⟩ := hf
      exact ⟨rfl, hz, isList_of_LL_FOREACH h f _ r hr⟩

theorem DL_FOREACH_eq_LL_FOREACH (h : Heap) :
    ∀ (fuel : Nat) (el : Ptr), DL_FOREACH fuel h el = LL_FOREACH fuel h el
  | 0, _ => rfl
  | f + 1, el => by
    simp only [DL_FOREACH, LL_FOREACH, DL_FOREACH_eq_LL_FOREACH h f]

theorem DL_FOREACH_of_isList (h : Heap) (l : List Ptr) (fuel : Nat) (el : Ptr)
    (hl : isList h.next el l) (hf : l.length < fuel) : DL_FOREACH fuel h el = some l := by
  rw [DL_FOREACH_eq_LL_FOREACH]
  exact LL_FOREACH_of_isList h l fuel el hl hf

theorem cdlForeachFrom_of_isList (h : Heap) (head : Ptr) :
    ∀ (l : List Ptr) (fuel : Nat) (el : Ptr),
      isList (effNext Topology.CDL head h.next) el l → l.length < fuel →
      cdlForeachFrom head fuel h el = some l
  | [], fuel, el, hl, hf => by
    obtain ⟨f, rfl⟩ : ∃ f, fuel = f + 1 := ⟨fuel - 1, by omega⟩
    have : el = 0 := hl
    simp [cdlForeachFrom, this]
  | x :: xs, fuel, el, hl, hf => by
    obtain ⟨f, rfl⟩ : ∃ f, fuel = f + 1 := ⟨fuel - 1, by omega⟩
    obtain ⟨e, hx, hr⟩ := hl
    subst e
    have ih := cdlForeachFrom_of_isList h head xs f _ hr (by simpa using hf)
    have hstep : (if h.next el = head then 0 else h.next el)
        = effNext Topology.CDL head h.next el := by simp [effNext]
    simp only [cdlForeachFrom, if_neg hx, hstep, ih, Option.map_some']

theorem isRing_start {h : Heap} {head : Ptr} {l : List Ptr} (hr : isRing h.next head l) :
    isList (effNext Topology.CDL head h.next) head l := by
  obtain ⟨hne, hnd, hp⟩ := hr
  refine isPath_wrap h.next head l head hp hne ?_
  cases l with
  | nil => exact absurd rfl hne
  | cons x xs =>
    have hx : head = x := hp.1
    intro z hz hzl
    exact (List.nodup_cons.1 hnd).1 (by rw [← hx, ← hzl]; exact hz)

theorem CDL_FOREACH_of_isRing (h : Heap) (head : Ptr) (l : List Ptr) (fuel : Nat)
    (hr : isRing h.next head l) (hf : l.length < fuel) : CDL_FOREACH fuel h head = some l :=
  cdlForeachFrom_of_isList h head l fuel head (isRing_start hr) hf

/-! ## The three sort macros -/

theorem isList_getLast {nx : Ptr → Ptr} :
    ∀ {l : List Ptr} {a t : Ptr}, isList nx a l → l.getLast? = some t → nx t = 0
  | [], _, _, _, ht => by simp at ht
  | [_], _, _, hl, ht => by
    simp only [List.getLast?_singleton, Option.some.injEq] at ht
    subst ht
    exact hl.2.2
  | _ :: y :: rest, _, _, hl, ht => by
    rw [List.getLast?_cons_cons] at ht
    exact isList_getLast hl.2.2 ht

theorem DL_SORT_spec (cmp : Ptr → Ptr → Int)
    (htot : ∀ a b, cmp a b ≤ 0 ∨ cmp b a ≤ 0)
    (htr : ∀ a b c, cmp a b ≤ 0 → cmp b c ≤ 0 → cmp a c ≤ 0)
    (h : Heap) (head : Ptr) (l : List Ptr) (fuel : Nat)
    (hl : isList h.next head l) (hf : l.length < fuel) (hn : l.length ≤ 2 ^ 30) :
    ∃ h1 head1 l1, DL_SORT cmp fuel h head = some (h1, head1) ∧ isList h1.next head1 l1 ∧
      (l ≠ [] → isDList h1 head1 l1) ∧
      l1.Perm l ∧ l1.Pairwise (fun x y => cmp x y ≤ 0) ∧ stableFor cmp l l1 := by
  by_cases hne : l = []
  · subst hne
    have hz : head = 0 := hl
    exact ⟨h, head, [], by simp [DL_SORT, sortRun, hz], hl, fun hh => absurd rfl hh,
      List.Perm.refl _, List.Pairwise.nil, stableFor_refl cmp _⟩
  · obtain ⟨h1, head1, l1, hs, hshape, hperm, hsorted, hstab⟩ :=
      sortRun_spec Topology.DL cmp htr htot fuel h head l hne hf hn
        (by rw [effNext_of_ne (by decide)]; exact hl) (isList_nodup hl)
    exact ⟨h1, head1, l1, hs, hshape.1, fun _ => hshape, hperm, hsorted, hstab⟩

theorem isPath_update_frame {nx : Ptr → Ptr} {l : List Ptr} {a b : Ptr} (z v : Ptr)
    (hz : z ∉ l) (hp : isPath nx a l b) : isPath (Function.update nx z v) a l b :=
  isPath_congr (fun x hx => Function.update_noteq (fun hxz : x = z => hz (hxz ▸ hx)) _ _) hp

theorem backLinked_update_frame {pv : Ptr → Ptr} {l : List Ptr} {a : Ptr} (z v : Ptr)
    (hz : z ∉ l) (hb : backLinked pv a l) : backLinked (Function.update pv z v) a l :=
  backLinked_congr (fun x hx => Function.update_noteq (fun hxz : x = z => hz (hxz ▸ hx)) _ _) hb

theorem getLastD_append_cons (l1 l2 : List Ptr) (x a : Ptr) :
    (l1 ++ x :: l2).getLastD a = l2.getLastD x := by
  induction l1 generalizing a with
  | nil => exact List.getLastD_cons _ _ _
  | cons y ys ih => rw [List.cons_append, List.getLastD_cons, ih]

theorem backLinked_append (pv : Ptr → Ptr) (l1 l2 : List Ptr) (a : Ptr) :
    backLinked pv a (l1 ++ l2) ↔ backLinked pv a l1 ∧ backLinked pv (l1.getLastD a) l2 := by
  induction l1 generalizing a with
  | nil => simp [backLinked]
  | cons x xs ih =>
    show (pv x = a ∧ backLinked pv x (xs ++ l2)) ↔ (pv x = a ∧ backLinked pv x xs) ∧ _
    rw [ih, List.getLastD_cons]
    tauto

theorem eq_nil_or_snoc (l : List Ptr) : l = [] ∨ ∃ l1 t, l = l1 ++ [t] := by
  rcases List.eq_nil_or_concat l with h | ⟨l1, t, h⟩
  · exact Or.inl h
  · exact Or.inr ⟨l1, t, by rw [h, List.concat_eq_append]⟩

/-- Redirecting the `next` of the last node of a path redirects the path. -/
theorem isPath_set_last {nx : Ptr → Ptr} {l : List Ptr} {a b t : Ptr} (c : Ptr)
    (hp : isPath nx a (l ++ [t]) b) (hnd : (l ++ [t]).Nodup) :
    isPath (Function.update nx t c) a (l ++ [t]) c := by
  obtain ⟨m, h1, h2⟩ := (isPath_append _ _ _ _ _).1 hp
  have htn : t ∉ l := fun hm => (List.nodup_append.1 hnd).2.2 hm (List.mem_singleton_self t)
  refine (isPath_append _ _ _ _ _).2 ⟨m, isPath_update_frame t c htn h1, h2.1, h2.2.1, ?_⟩
  show Function.update nx t c t = c
  simp

theorem isPath_last {nx : Ptr → Ptr} {l : List Ptr} {a b t : Ptr}
    (hp : isPath nx a (l ++ [t]) b) : t ≠ 0 ∧ nx t = b ∧ isPath nx a l t := by
  obtain ⟨m, h1, h2⟩ := (isPath_append _ _ _ _ _).1 hp
  have hm : m = t := h2.1
  subst hm
  exact ⟨h2.2.1, h2.2.2, h1⟩

theorem isPath_mem_next {nx : Ptr → Ptr} {l1 l2 : List Ptr} {a b x : Ptr}
    (hp : isPath nx a (l1 ++ x :: l2) b) : nx x = l2.headD b := by
  obtain ⟨m, _, h2⟩ := (isPath_append _ _ _ _ _).1 hp
  exact isPath_head h2.2.2

/-! ## Singly-linked operations -/

theorem LL_PREPEND_spec (h : Heap) (head add : Ptr) (l : List Ptr)
    (hl : isList h.next head l) (ha : add ≠ 0) (hn : add ∉ l) :
    ∃ h1, LL_PREPEND h head add = some (h1, add) ∧ isList h1.next add (add :: l) ∧
      h1.prev = h.prev := by
  refine ⟨Heap.mk (Function.update h.next add head) h.prev,
    by simp [LL_PREPEND, Heap.wrNext, ha], ⟨rfl, ha, ?_⟩, rfl⟩
  show isPath (Function.update h.next add head) (Function.update h.next add head add) l 0
  rw [Function.update_same]
  exact isPath_update_frame add head hn hl

theorem llWalkLast_spec (h : Heap) :
    ∀ (l : List Ptr) (t a : Ptr) (fuel : Nat), isList h.next a (l ++ [t]) → l.length < fuel →
      llWalkLast fuel h a = some t
  | [], t, a, fuel, hl, hf => by
    obtain ⟨f, rfl⟩ : ∃ f, fuel = f + 1 := ⟨fuel - 1, by omega⟩
    obtain ⟨e, ht, hn⟩ := hl
    subst e
    have hn0 : h.next a = 0 := hn
    simp [llWalkLast, Heap.rdNext, ht, hn0]
  | x :: xs, t, a, fuel, hl, hf => by
    obtain ⟨f, rfl⟩ : ∃ f, fuel = f + 1 := ⟨fuel - 1, by omega⟩
    obtain ⟨e, hx, hr⟩ := hl
    subst e
    have hne : h.next a ≠ 0 := by
      intro h0
      rw [h0] at hr
      have := isList_zero hr
      simp at this
    have ih := llWalkLast_spec h xs t (h.next a) f hr (by simpa using hf)
    simp [llWalkLast, Heap.rdNext, hx, hne, ih]

theorem LL_APPEND_spec (h : Heap) (head add : Ptr) (l : List Ptr) (fuel : Nat)
    (hl : isList h.next head l) (ha : add ≠ 0) (hn : add ∉ l) (hf : l.length ≤ fuel) :
    ∃ h1 head1, LL_APPEND fuel h head add = some (h1, head1) ∧
      isList h1.next head1 (l ++ [add]) ∧ (l ≠ [] → head1 = head) := by
  have hl1 : isList (Function.update h.next add 0) head l := isPath_update_frame add 0 hn hl
  rcases eq_nil_or_snoc l with rfl | ⟨l1, t, rfl⟩
  · have hz : head = 0 := hl
    refine ⟨Heap.mk (Function.update h.next add 0) h.prev, add,
      by simp [LL_APPEND, Heap.wrNext, ha, hz], ⟨rfl, ha, ?_⟩, fun hh => absurd rfl hh⟩
    show Function.update h.next add 0 add = 0
    simp
  · have hhz : head ≠ 0 := by
      cases l1 with
      | nil => exact hl.1 ▸ hl.2.1
      | cons x xs => exact hl.1 ▸ hl.2.1
    have htz : t ≠ 0 := (isPath_last hl).1
    have hta : t ≠ add := fun hta => hn (by simp [hta])
    have hw := llWalkLast_spec (Heap.mk (Function.update h.next add 0) h.prev) l1 t head fuel
      hl1 (by simpa using hf)
    refine ⟨Heap.mk (Function.update (Function.update h.next add 0) t add) h.prev, head,
      by simp [LL_APPEND, Heap.wrNext, ha, hhz, hw, htz], ?_, fun _ => rfl⟩
    refine (isPath_append _ _ _ _ _).2 ⟨add, isPath_set_last add hl1 (isList_nodup hl), rfl, ha, ?_⟩
    show Function.update (Function.update h.next add 0) t add add = 0
    rw [Function.update_noteq (Ne.symm hta), Function.update_same]
theorem headD_mem {l : List Ptr} (hne : l ≠ []) (a : Ptr) : l.headD a ∈ l := by
  cases l with
  | nil => exact absurd rfl hne
  | cons x xs => exact List.mem_cons_self _ _

theorem llWalkTo_spec (h : Heap) (del : Ptr) (hd : del ≠ 0) :
    ∀ (l : List Ptr) (p a : Ptr) (fuel : Nat), isPath h.next a (l ++ [p]) del →
      del ∉ l ++ [p] → l.length < fuel → llWalkTo del fuel h a = some p
  | [], p, a, fuel, hl, _, hf => by
    obtain ⟨f, rfl⟩ : ∃ f, fuel = f + 1 := ⟨fuel - 1, by omega⟩
    obtain ⟨e, hp, hn⟩ := hl
    subst e
    have hn0 : h.next a = del := hn
    simp [llWalkTo, Heap.rdNext, hp, hn0]
  | x :: xs, p, a, fuel, hl, hnot, hf => by
    obtain ⟨f, rfl⟩ : ∃ f, fuel = f + 1 := ⟨fuel - 1, by omega⟩
    have hl1 : isPath h.next a (x :: (xs ++ [p])) del := hl
    obtain ⟨e, hx, hr⟩ := hl1
    subst e
    have hmem : h.next a ∈ xs ++ [p] := by
      rw [isPath_head hr]
      exact headD_mem (by simp) del
    have hne : h.next a ≠ 0 := isPath_ne_zero hr _ hmem
    have hnd : h.next a ≠ del := fun hh => hnot (List.mem_cons_of_mem _ (hh ▸ hmem))
    have ih := llWalkTo_spec h del hd xs p (h.next a) f hr
      (fun hh => hnot (List.mem_cons_of_mem _ hh)) (by simpa using hf)
    simp [llWalkTo, Heap.rdNext, hx, hne, hnd, ih]

theorem LL_DELETE_spec (h : Heap) (head del : Ptr) (l : List Ptr) (fuel : Nat)
    (hl : isList h.next head l) (hd : del ∈ l) (hf : l.length ≤ fuel) :
    ∃ h1 head1, LL_DELETE fuel h head del = some (h1, head1) ∧
      isList h1.next head1 (l.erase del) ∧
      (del = head → head1 = h.next del ∧ head1 ≠ head) ∧ (del ≠ head → head1 = head) := by
  have hnd := isList_nodup hl
  have hdz : del ≠ 0 := isPath_ne_zero hl del hd
  obtain ⟨l1, l2, rfl⟩ := List.append_of_mem hd
  have hd1 : del ∉ l1 := fun hm =>
    (List.nodup_append.1 hnd).2.2 hm (List.mem_cons_self _ _)
  have hd2 : del ∉ l2 := (List.nodup_cons.1 (List.nodup_append.1 hnd).2.1).1
  have herase : (l1 ++ del :: l2).erase del = l1 ++ l2 := by
    rw [List.erase_append_right _ hd1, List.erase_cons_head]
  rw [herase]
  obtain ⟨m, hp1, hp2⟩ := (isPath_append _ _ _ _ _).1 hl
  have hm : m = del := hp2.1
  subst hm
  have hrest : isList h.next (h.next m) l2 := hp2.2.2
  rcases eq_nil_or_snoc l1 with rfl | ⟨l0, p, rfl⟩
  · have hhead : head = m := hp1
    subst hhead
    refine ⟨h, h.next head, by simp [LL_DELETE, Heap.rdNext, hdz], by simpa using hrest,
      fun _ => ⟨rfl, ?_⟩, fun hh => absurd rfl hh⟩
    intro heq
    have := isPath_head hrest
    rw [heq] at this
    cases l2 with
    | nil => exact hdz this
    | cons y ys => exact hd2 (by rw [this]; exact List.mem_cons_self _ _)
  · have hhm : head ≠ m := by
      intro heq
      apply hd1
      rw [← heq, isPath_head hp1]
      exact headD_mem (by simp) m
    have hw := llWalkTo_spec h m hdz l0 p head fuel hp1 hd1 (by simp at hf; omega)
    obtain ⟨hpz, hpn, _⟩ := isPath_last hp1
    have hp2n : p ∉ l2 := fun hm =>
      (List.nodup_append.1 hnd).2.2 (by simp) (List.mem_cons_of_mem _ hm)
    refine ⟨Heap.mk (Function.update h.next p (h.next m)) h.prev, head,
      by simp [LL_DELETE, hhm, hw, Heap.rdNext, Heap.wrNext, hpz, hpn, hdz], ?_,
      fun hh => absurd hh.symm hhm, fun _ => rfl⟩
    exact (isPath_append _ _ _ _ _).2 ⟨h.next m,
      isPath_set_last (h.next m) hp1 (List.nodup_append.1 hnd).1,
      isPath_update_frame p (h.next m) hp2n hrest⟩

/-! ## Doubly-linked operations -/

theorem isDList_nil {h : Heap} {head : Ptr} (hl : isDList h head []) : head = 0 := hl.1

theorem isDList_cons {h : Heap} {head x : Ptr} {xs : List Ptr} (hl : isDList h head (x :: xs)) :
    head = x ∧ x ≠ 0 ∧ h.prev x = xs.getLastD x ∧ backLinked h.prev x xs ∧
      isList h.next (h.next x) xs := by
  obtain ⟨⟨e, hx, hr⟩, hb⟩ := hl
  rw [List.getLastD_cons] at hb
  exact ⟨e, hx, hb.1, hb.2, hr⟩

theorem DL_PREPEND_spec (h : Heap) (head add : Ptr) (l : List Ptr)
    (hl : isDList h head l) (ha : add ≠ 0) (hn : add ∉ l) :
    ∃ h1, DL_PREPEND h head add = some (h1, add) ∧ isDList h1 add (add :: l) := by
  cases l with
  | nil =>
    have hz : head = 0 := isDList_nil hl
    refine ⟨Heap.mk (Function.update h.next add 0) (Function.update h.prev add add),
      by simp [DL_PREPEND, Heap.wrNext, Heap.wrPrev, ha, hz], ⟨rfl, ha, ?_⟩, ?_, trivial⟩
    · show Function.update h.next add 0 add = 0
      simp
    · show Function.update h.prev add add add = add
      simp
  | cons x xs =>
    obtain ⟨e, hx, hpx, hb, hr⟩ := isDList_cons hl
    subst e
    have hah : add ≠ head := fun hh => hn (by simp [hh])
    have hax : add ∉ xs := fun hm => hn (List.mem_cons_of_mem _ hm)
    have hhx : head ∉ xs := (List.nodup_cons.1 (isList_nodup hl.1)).1
    refine ⟨Heap.mk (Function.update h.next add head)
        (Function.update (Function.update h.prev add (h.prev head)) head add),
      by simp [DL_PREPEND, Heap.wrNext, Heap.wrPrev, Heap.rdPrev, ha, hx], ⟨rfl, ha, ?_⟩, ?_⟩
    · show isPath (Function.update h.next add head) (Function.update h.next add head add)
        (head :: xs) 0
      rw [Function.update_same]
      exact isPath_update_frame add head hn hl.1
    · show backLinked _ ((add :: head :: xs).getLastD 0) (add :: head :: xs)
      rw [List.getLastD_cons, List.getLastD_cons]
      refine ⟨?_, ?_, ?_⟩
      · show Function.update (Function.update h.prev add (h.prev head)) head add add = _
        rw [Function.update_noteq hah, Function.update_same, hpx]
      · show Function.update (Function.update h.prev add (h.prev head)) head add head = add
        rw [Function.update_same]
      · exact backLinked_update_frame head add hhx (backLinked_update_frame add _ hax hb)

theorem DL_APPEND_spec (h : Heap) (head add : Ptr) (l : List Ptr)
    (hl : isDList h head l) (ha : add ≠ 0) (hn : add ∉ l) :
    ∃ h1 head1, DL_APPEND h head add = some (h1, head1) ∧ isDList h1 head1 (l ++ [add]) ∧
      (l ≠ [] → head1 = head) := by
  cases l with
  | nil =>
    have hz : head = 0 := isDList_nil hl
    refine ⟨Heap.mk (Function.update h.next add 0) (Function.update h.prev add add), add,
      by simp [DL_APPEND, Heap.wrNext, Heap.wrPrev, ha, hz], ⟨⟨rfl, ha, ?_⟩, ?_, trivial⟩,
      fun hh => absurd rfl hh⟩
    · show Function.update h.next add 0 add = 0
      simp
    · show Function.update h.prev add add add = add
      simp
  | cons x xs =>
    obtain ⟨e, hx, hpx, hb, hr⟩ := isDList_cons hl
    subst e
    have hnd := isList_nodup hl.1
    have hah : add ≠ head := fun hh => hn (by simp [hh])
    have hax : add ∉ xs := fun hm => hn (List.mem_cons_of_mem _ hm)
    have hhx : head ∉ xs := (List.nodup_cons.1 hnd).1
    obtain ⟨l1, t, hlt⟩ : ∃ l1 t, head :: xs = l1 ++ [t] := by
      rcases eq_nil_or_snoc (head :: xs) with h0 | h1
      · exact absurd h0 (by simp)
      · exact h1
    have hlast : xs.getLastD head = t := by
      rw [← List.getLastD_cons 0, hlt, List.getLastD_concat]
    have hpt : h.prev head = t := hpx.trans hlast
    have hl1 := hl.1
    rw [hlt] at hl1 hnd hn
    have htz : t ≠ 0 := (isPath_last hl1).1
    have hta : t ≠ add := fun hh => hn (by simp [hh])
    refine ⟨Heap.mk (Function.update (Function.update h.next t add) add 0)
        (Function.update (Function.update h.prev add t) head add), head,
      by simp [DL_APPEND, Heap.wrNext, Heap.wrPrev, Heap.rdPrev, ha, hx, hpt,
        Function.update_noteq (Ne.symm hah), htz], ⟨?_, ?_⟩, fun _ => rfl⟩
    · show isPath _ head ((head :: xs) ++ [add]) 0
      rw [hlt]
      refine (isPath_append _ _ _ _ _).2 ⟨add,
        isPath_update_frame add 0 hn (isPath_set_last add hl1 hnd), rfl, ha, ?_⟩
      show Function.update (Function.update h.next t add) add 0 add = 0
      rw [Function.update_same]
    · show backLinked _ (((head :: xs) ++ [add]).getLastD 0) (head :: (xs ++ [add]))
      rw [List.getLastD_concat]
      refine ⟨?_, (backLinked_concat _ _ _ _).2 ⟨?_, ?_⟩⟩
      · show Function.update (Function.update h.prev add t) head add head = add
        rw [Function.update_same]
      · exact backLinked_update_frame head add hhx (backLinked_update_frame add _ hax hb)
      · show Function.update (Function.update h.prev add t) head add add = _
        rw [Function.update_noteq hah, Function.update_same, hlast]
theorem isPath_cons_of_ne {nx : Ptr → Ptr} {l : List Ptr} {a b : Ptr} (hp : isPath nx a l b)
    (hne : l ≠ []) : ∃ rest, l = a :: rest := by
  cases l with
  | nil => exact absurd rfl hne
  | cons x xs => exact ⟨xs, by rw [hp.1]⟩

theorem DL_DELETE_spec (h : Heap) (head del : Ptr) (l : List Ptr)
    (hl : isDList h head l) (hd : del ∈ l) :
    ∃ h1 head1, DL_DELETE h head del = some (h1, head1) ∧ isDList h1 head1 (l.erase del) ∧
      (del = head → head1 = h.next del) ∧ (del ≠ head → head1 = head) := by
  have hnd := isList_nodup hl.1
  have hdz : del ≠ 0 := isPath_ne_zero hl.1 del hd
  obtain ⟨l1, l2, rfl⟩ := List.append_of_mem hd
  have hd1 : del ∉ l1 := fun hm =>
    (List.nodup_append.1 hnd).2.2 hm (List.mem_cons_self _ _)
  have hd2 : del ∉ l2 := (List.nodup_cons.1 (List.nodup_append.1 hnd).2.1).1
  have herase : (l1 ++ del :: l2).erase del = l1 ++ l2 := by
    rw [List.erase_append_right _ hd1, List.erase_cons_head]
  rw [herase]
  obtain ⟨hlist, hback⟩ := hl
  rw [getLastD_append_cons] at hback
  obtain ⟨hb1, hb2⟩ := (backLinked_append _ _ _ _).1 hback
  have hpd : h.prev del = l1.getLastD (l2.getLastD del) := hb2.1
  have hb3 : backLinked h.prev del l2 := hb2.2
  obtain ⟨m, hp1, hp2⟩ := (isPath_append _ _ _ _ _).1 hlist
  have hm : m = del := hp2.1
  subst hm
  have hrest : isList h.next (h.next m) l2 := hp2.2.2
  have hnext : h.next m = l2.headD 0 := isPath_head hrest
  rcases eq_nil_or_snoc l1 with rfl | ⟨l0, p, rfl⟩
  · have hhead : head = m := hp1
    subst hhead
    rw [List.getLastD_nil] at hpd
    cases l2 with
    | nil =>
      rw [List.getLastD_nil] at hpd
      have hn0 : h.next head = 0 := hnext
      exact ⟨h, 0, by simp [DL_DELETE, Heap.rdPrev, hdz, hpd], ⟨rfl, trivial⟩,
        fun _ => hn0.symm, fun hh => absurd rfl hh⟩
    | cons y ys =>
      have hny : h.next head = y := hnext
      have hyz : y ≠ 0 := hrest.2.1
      have hlast_mem : ys.getLastD y ∈ y :: ys := by
        rw [← List.getLastD_cons 0]
        rw [List.getLastD_eq_getLast?]
        cases hg : (y :: ys).getLast? with
        | none => simp at hg
        | some z => exact List.mem_of_getLast?_eq_some hg
      have hpne : h.prev head ≠ head := by
        rw [hpd, List.getLastD_cons]
        exact fun hh => hd2 (hh ▸ hlast_mem)
      refine ⟨Heap.mk h.next (Function.update h.prev y (h.prev head)), y,
        by simp [DL_DELETE, Heap.rdPrev, Heap.rdNext, Heap.wrPrev, hdz, hpne, hny, hyz],
        ⟨by have h2 := hrest; rw [hny] at h2; exact h2, ?_⟩, fun _ => hny.symm,
        fun hh => absurd rfl hh⟩
      show backLinked _ (([] ++ y :: ys).getLastD 0) (y :: ys)
      rw [List.nil_append, List.getLastD_cons 0, hpd, List.getLastD_cons]
      exact backLinked_update_head hb3 (List.nodup_cons.1 (isList_nodup hrest)).1
  · rw [List.getLastD_concat] at hpd
    obtain ⟨rest, hrest1⟩ := isPath_cons_of_ne hp1 (by simp)
    have hhz : head ≠ 0 := isPath_ne_zero hp1 head (by rw [hrest1]; exact List.mem_cons_self _ _)
    have hhm : m ≠ head := by
      intro heq
      apply hd1
      rw [hrest1, heq]
      exact List.mem_cons_self _ _
    have hpm : p ≠ m := fun hh => hd1 (by simp [hh])
    obtain ⟨hpz, _, _⟩ := isPath_last hp1
    have hnd1 : (l0 ++ [p]).Nodup := (List.nodup_append.1 hnd).1
    have hp2n : p ∉ l2 := fun hm =>
      (List.nodup_append.1 hnd).2.2 (by simp) (List.mem_cons_of_mem _ hm)
    cases l2 with
    | nil =>
      have hn0 : h.next m = 0 := hnext
      refine ⟨Heap.mk (Function.update h.next p 0) (Function.update h.prev head p), head,
        by simp [DL_DELETE, Heap.rdPrev, Heap.rdNext, Heap.wrPrev, Heap.wrNext, hdz, hpd, hpm,
          hhm, hn0, hpz, Function.update_noteq (Ne.symm hpm), hhz],
        ⟨?_, ?_⟩, fun hh => absurd hh hhm, fun _ => rfl⟩
      · show isPath _ head ((l0 ++ [p]) ++ []) 0
        rw [List.append_nil]
        exact isPath_set_last 0 hp1 hnd1
      · show backLinked _ (((l0 ++ [p]) ++ []).getLastD 0) ((l0 ++ [p]) ++ [])
        rw [List.append_nil, List.getLastD_concat]
        rw [hrest1] at hb1 hnd1 ⊢
        exact backLinked_update_head hb1 (List.nodup_cons.1 hnd1).1
    | cons z zs =>
      have hnz : h.next m = z := hnext
      have hzz : z ≠ 0 := hrest.2.1
      have hz1 : z ∉ l0 ++ [p] := fun hm =>
        (List.nodup_append.1 hnd).2.2 hm (by simp)
      have hzzs : z ∉ zs := (List.nodup_cons.1 (isList_nodup hrest)).1
      refine ⟨Heap.mk (Function.update h.next p z) (Function.update h.prev z p), head,
        by simp [DL_DELETE, Heap.rdPrev, Heap.rdNext, Heap.wrPrev, Heap.wrNext, hdz, hpd, hpm,
          hhm, hnz, hpz, Function.update_noteq (Ne.symm hpm), hzz],
        ⟨?_, ?_⟩, fun hh => absurd hh hhm, fun _ => rfl⟩
      · refine (isPath_append _ _ _ _ _).2 ⟨z, isPath_set_last z hp1 hnd1, ?_⟩
        rw [hnz] at hrest
        exact isPath_update_frame p z hp2n hrest
      · show backLinked _ (((l0 ++ [p]) ++ z :: zs).getLastD 0) ((l0 ++ [p]) ++ z :: zs)
        rw [getLastD_append_cons]
        rw [List.getLastD_cons] at hb1
        refine (backLinked_append _ _ _ _).2 ⟨backLinked_update_frame z p hz1 hb1, ?_, ?_⟩
        · show Function.update h.prev z p z = _
          rw [Function.update_same, List.getLastD_concat]
        · exact backLinked_update_frame z p hzzs hb3.2

/-! ## Circular operations -/

theorem getLastD_mem_cons (y : Ptr) (ys : List Ptr) : ys.getLastD y ∈ y :: ys := by
  rw [← List.getLastD_cons 0, List.getLastD_eq_getLast?]
  cases hg : (y :: ys).getLast? with
  | none => simp at hg
  | some z => exact List.mem_of_getLast?_eq_some hg

theorem CDL_DELETE_spec (h : Heap) (head del : Ptr) (l1 l2 : List Ptr)
    (hl : isCDList h head (l1 ++ del :: l2)) :
    ∃ h1 head1, CDL_DELETE h head del = some (h1, head1) ∧ isCDList h1 head1 (l1 ++ l2) ∧
      (l1 ++ l2 = [] → head1 = 0) ∧ (l1 ++ l2 ≠ [] → del = head → head1 = h.next del) ∧
      (del ≠ head → head1 = head) := by
  rcases hl with ⟨h0, _⟩ | ⟨⟨_, hnd, hring⟩, hback⟩
  · exact absurd h0 (by simp)
  have hdz : del ≠ 0 := isPath_ne_zero hring del (by simp)
  have hd1 : del ∉ l1 := fun hm =>
    (List.nodup_append.1 hnd).2.2 hm (List.mem_cons_self _ _)
  have hd2 : del ∉ l2 := (List.nodup_cons.1 (List.nodup_append.1 hnd).2.1).1
  rw [getLastD_append_cons] at hback
  obtain ⟨hb1, hb2⟩ := (backLinked_append _ _ _ _).1 hback
  have hpd : h.prev del = l1.getLastD (l2.getLastD del) := hb2.1
  have hb3 : backLinked h.prev del l2 := hb2.2
  obtain ⟨m, hp1, hp2⟩ := (isPath_append _ _ _ _ _).1 hring
  have hm : m = del := hp2.1
  subst hm
  have hrest : isPath h.next (h.next m) l2 head := hp2.2.2
  have hnext : h.next m = l2.headD head := isPath_head hrest
  have hnd2 : l2.Nodup := (List.nodup_cons.1 (List.nodup_append.1 hnd).2.1).2
  rcases eq_nil_or_snoc l1 with rfl | ⟨l0, p, rfl⟩
  · have hhead : head = m := hp1
    subst hhead
    rw [List.getLastD_nil] at hpd
    cases l2 with
    | nil =>
      have hn0 : h.next head = head := hnext
      exact ⟨h, 0, by simp [CDL_DELETE, Heap.rdNext, hdz, hn0], Or.inl ⟨rfl, rfl⟩,
        fun _ => rfl, fun hh => absurd rfl hh, fun hh => absurd rfl hh⟩
    | cons y ys =>
      have hny : h.next head = y := hnext
      have hyz : y ≠ 0 := hrest.2.1
      have hyh : y ≠ head := fun hh => hd2 (by simp [hh])
      obtain ⟨k0, t, hkt⟩ : ∃ k0 t, y :: ys = k0 ++ [t] := by
        rcases eq_nil_or_snoc (y :: ys) with h0 | h1
        · exact absurd h0 (by simp)
        · exact h1
      have hlast : ys.getLastD y = t := by
        rw [← List.getLastD_cons 0, hkt, List.getLastD_concat]
      rw [List.getLastD_cons, hlast] at hpd
      have hrest1 : isPath h.next y (k0 ++ [t]) head := by
        have h2 := hrest
        rw [hny, hkt] at h2
        exact h2
      have htz : t ≠ 0 := (isPath_last hrest1).1
      have hth : t ≠ head := fun hh => hd2 (by rw [hkt]; simp [hh])
      refine ⟨Heap.mk (Function.update h.next t y) (Function.update h.prev y t), y,
        by simp [CDL_DELETE, Heap.rdPrev, Heap.rdNext, Heap.wrPrev, Heap.wrNext, hdz, hny,
          hyh, Ne.symm hyh, hyz, hpd, Function.update_noteq (Ne.symm hyh),
          Function.update_noteq (Ne.symm hth), htz],
        Or.inr ⟨⟨by simp, by simpa using hnd2, ?_⟩, ?_⟩, fun hh => absurd hh (by simp),
        fun _ _ => hny.symm, fun hh => absurd rfl hh⟩
      · show isPath _ y (y :: ys) y
        rw [hkt]
        exact isPath_set_last y hrest1 (by rw [← hkt]; exact hnd2)
      · show backLinked _ ((y :: ys).getLastD 0) (y :: ys)
        rw [List.getLastD_cons, hlast]
        exact backLinked_update_head hb3 (List.nodup_cons.1 hnd2).1
  · rw [List.getLastD_concat] at hpd
    obtain ⟨rest, hrest1⟩ := isPath_cons_of_ne hp1 (by simp)
    have hhz : head ≠ 0 := isPath_ne_zero hp1 head (by rw [hrest1]; exact List.mem_cons_self _ _)
    have hhm : m ≠ head := by
      intro heq
      apply hd1
      rw [hrest1, heq]
      exact List.mem_cons_self _ _
    have hpm : p ≠ m := fun hh => hd1 (by simp [hh])
    obtain ⟨hpz, _, _⟩ := isPath_last hp1
    have hnd1 : (l0 ++ [p]).Nodup := (List.nodup_append.1 hnd).1
    have hp2n : p ∉ l2 := fun hm =>
      (List.nodup_append.1 hnd).2.2 (by simp) (List.mem_cons_of_mem _ hm)
    cases l2 with
    | nil =>
      have hn0 : h.next m = head := hnext
      refine ⟨Heap.mk (Function.update h.next p head) (Function.update h.prev head p), head,
        by simp [CDL_DELETE, Heap.rdPrev, Heap.rdNext, Heap.wrPrev, Heap.wrNext, hdz, hpd, hpm,
          hhm, Ne.symm hhm, hn0, hpz, Function.update_noteq hhm, hhz],
        Or.inr ⟨⟨by simp, by simpa using hnd1, ?_⟩, ?_⟩, fun hh => absurd hh (by simp),
        fun _ hh => absurd hh hhm, fun _ => rfl⟩
      · show isPath _ head ((l0 ++ [p]) ++ []) head
        rw [List.append_nil]
        exact isPath_set_last head hp1 hnd1
      · show backLinked _ (((l0 ++ [p]) ++ []).getLastD 0) ((l0 ++ [p]) ++ [])
        rw [List.append_nil, List.getLastD_concat]
        rw [hrest1] at hb1 hnd1 ⊢
        exact backLinked_update_head hb1 (List.nodup_cons.1 hnd1).1
    | cons z zs =>
      have hnz : h.next m = z := hnext
      have hzz : z ≠ 0 := hrest.2.1
      have hzm : z ≠ m := fun hh => hd2 (by simp [hh])
      have hz1 : z ∉ l0 ++ [p] := fun hm =>
        (List.nodup_append.1 hnd).2.2 hm (by simp)
      have hzzs : z ∉ zs := (List.nodup_cons.1 hnd2).1
      have hndr : ((l0 ++ [p]) ++ z :: zs).Nodup := by
        have hperm : List.Perm (m :: ((l0 ++ [p]) ++ z :: zs)) ((l0 ++ [p]) ++ m :: z :: zs) :=
          List.perm_middle.symm
        exact (List.nodup_cons.1 (hperm.nodup_iff.2 hnd)).2
      refine ⟨Heap.mk (Function.update h.next p z) (Function.update h.prev z p), head,
        by simp [CDL_DELETE, Heap.rdPrev, Heap.rdNext, Heap.wrPrev, Heap.wrNext, hdz, hpd, hpm,
          hhm, Ne.symm hhm, hnz, hpz, Function.update_noteq (Ne.symm hzm), hzz],
        Or.inr ⟨⟨by simp, hndr, ?_⟩, ?_⟩, fun hh => absurd hh (by simp),
        fun _ hh => absurd hh hhm, fun _ => rfl⟩
      · refine (isPath_append _ _ _ _ _).2 ⟨z, isPath_set_last z hp1 hnd1, ?_⟩
        rw [hnz] at hrest
        exact isPath_update_frame p z hp2n hrest
      · show backLinked _ (((l0 ++ [p]) ++ z :: zs).getLastD 0) ((l0 ++ [p]) ++ z :: zs)
        rw [getLastD_append_cons]
        rw [List.getLastD_cons] at hb1
        refine (backLinked_append _ _ _ _).2 ⟨backLinked_update_frame z p hz1 hb1, ?_, ?_⟩
        · show Function.update h.prev z p z = _
          rw [Function.update_same, List.getLastD_concat]
        · exact backLinked_update_frame z p hzzs hb3.2

/-! ## Sequences of doubly-linked operations -/

theorem dlRun_spec : ∀ (ops : List DLOp) (h : Heap) (head : Ptr) (l0 l : List Ptr),
    isDList h head l0 → dlSeq ops l0 = some l →
    ∃ h1 head1, dlRun ops h head = some (h1, head1) ∧ isDList h1 head1 l
  | [], h, head, l0, l, hl, hs => by
    simp only [dlSeq, Option.some.injEq] at hs
    subst hs
    exact ⟨h, head, rfl, hl⟩
  | DLOp.append n :: ops, h, head, l0, l, hl, hs => by
    by_cases hc : n ≠ 0 ∧ n ∉ l0
    · simp only [dlSeq, if_pos hc] at hs
      obtain ⟨h1, head1, hop, hl1, _⟩ := DL_APPEND_spec h head n l0 hl hc.1 hc.2
      obtain ⟨h2, head2, hrun, hl2⟩ := dlRun_spec ops h1 head1 _ l hl1 hs
      exact ⟨h2, head2, by simp [dlRun, hop, hrun], hl2⟩
    · simp [dlSeq, if_neg hc] at hs
  | DLOp.prepend n :: ops, h, head, l0, l, hl, hs => by
    by_cases hc : n ≠ 0 ∧ n ∉ l0
    · simp only [dlSeq, if_pos hc] at hs
      obtain ⟨h1, hop, hl1⟩ := DL_PREPEND_spec h head n l0 hl hc.1 hc.2
      obtain ⟨h2, head2, hrun, hl2⟩ := dlRun_spec ops h1 n _ l hl1 hs
      exact ⟨h2, head2, by simp [dlRun, hop, hrun], hl2⟩
    · simp [dlSeq, if_neg hc] at hs
  | DLOp.delete n :: ops, h, head, l0, l, hl, hs => by
    by_cases hc : n ∈ l0
    · simp only [dlSeq, if_pos hc] at hs
      obtain ⟨h1, head1, hop, hl1, _⟩ := DL_DELETE_spec h head n l0 hl hc
      obtain ⟨h2, head2, hrun, hl2⟩ := dlRun_spec ops h1 head1 _ l hl1 hs
      exact ⟨h2, head2, by simp [dlRun, hop, hrun], hl2⟩
    · simp [dlSeq, if_neg hc] at hs

theorem isDList_tail {h : Heap} {head : Ptr} {l : List Ptr} (hl : isDList h head l)
    (hne : l ≠ []) : head ≠ 0 ∧ h.prev head ≠ 0 ∧ l.getLast? = some (h.prev head) := by
  cases l with
  | nil => exact absurd rfl hne
  | cons x xs =>
    obtain ⟨e, hx, hpx, _, _⟩ := isDList_cons hl
    subst e
    have hmem := getLastD_mem_cons head xs
    rw [← hpx] at hmem
    refine ⟨hx, isPath_ne_zero hl.1 _ hmem, ?_⟩
    rw [hpx, ← List.getLastD_cons 0, List.getLastD_eq_getLast?]
    cases hg : (head :: xs).getLast? with
    | none => simp at hg
    | some z => rfl

/-- C5. Doubly-linked tail invariant: starting from the empty list
(`head = NULL`, any heap), after every finite sequence of `DL_APPEND`,
`DL_PREPEND` (of non-null nodes not in the list) and `DL_DELETE` (of nodes in
the list) the calls succeed, `DL_FOREACH` yields the expected sequence, and
when the list is non-empty `head->prev` is not null and is the last node
`DL_FOREACH` produces. -/
theorem DL_tail_invariant (ops : List DLOp) (h0 : Heap) (l : List Ptr) (fuel : Nat)
    (hpre : dlSeq ops [] = some l) (hf : l.length < fuel) :
    ∃ h head, dlRun ops h0 0 = some (h, head) ∧ DL_FOREACH fuel h head = some l ∧
      (head = 0 ↔ l = []) ∧
      (head ≠ 0 → h.prev head ≠ 0 ∧ l.getLast? = some (h.prev head)) := by
  obtain ⟨h, head, hrun, hl⟩ := dlRun_spec ops h0 0 [] l ⟨rfl, trivial⟩ hpre
  refine ⟨h, head, hrun, DL_FOREACH_of_isList h l fuel head hl.1 hf, ?_, ?_⟩
  · constructor
    · intro hz
      rw [hz] at hl
      exact isList_zero hl.1
    · intro hn
      rw [hn] at hl
      exact isDList_nil hl
  · intro hz
    have hne : l ≠ [] := by
      intro hn
      rw [hn] at hl
      exact hz (isDList_nil hl)
    exact (isDList_tail hl hne).2

theorem DL_tail_invariant_witness :
    dlSeq [DLOp.append 1, DLOp.prepend 2, DLOp.append 3, DLOp.delete 3, DLOp.delete 2] []
      = some [1] ∧ [1].length < 2 ∧
    ∃ h head, dlRun [DLOp.append 1, DLOp.prepend 2, DLOp.append 3, DLOp.delete 3, DLOp.delete 2]
        sampleHeap 0 = some (h, head) ∧ DL_FOREACH 2 h head = some [1] ∧
      (head = 0 ↔ [1] = []) ∧
      (head ≠ 0 → h.prev head ≠ 0 ∧ [1].getLast? = some (h.prev head)) :=
  ⟨by decide, by decide,
    DL_tail_invariant
      [DLOp.append 1, DLOp.prepend 2, DLOp.append 3, DLOp.delete 3, DLOp.delete 2] sampleHeap
      [1] 2 (by decide) (by decide)⟩

/-! ## Inserting a sequence of nodes -/

theorem insertAll_LL_APPEND (fuel : Nat) :
    ∀ (ns : List Ptr) (h : Heap) (head : Ptr) (l : List Ptr), isList h.next head l →
      (l ++ ns).Nodup → (∀ n ∈ ns, n ≠ 0) → (l ++ ns).length ≤ fuel →
      ∃ h1 head1, insertAll (LL_APPEND fuel) ns h head = some (h1, head1) ∧
        isList h1.next head1 (l ++ ns)
  | [], h, head, l, hl, _, _, _ => ⟨h, head, rfl, by simpa using hl⟩
  | n :: ns, h, head, l, hl, hnd, hnz, hf => by
    have hn : n ∉ l := fun hm =>
      (List.nodup_append.1 hnd).2.2 hm (List.mem_cons_self _ _)
    obtain ⟨h1, head1, hop, hl1, _⟩ := LL_APPEND_spec h head n l fuel hl
      (hnz n (List.mem_cons_self _ _)) hn (by simp at hf; omega)
    obtain ⟨h2, head2, hrun, hl2⟩ := insertAll_LL_APPEND fuel ns h1 head1 (l ++ [n]) hl1
      (by simpa using hnd) (fun m hm => hnz m (List.mem_cons_of_mem _ hm)) (by simpa using hf)
    exact ⟨h2, head2, by simp [insertAll, hop, hrun], by simpa using hl2⟩

theorem insertAll_DL_APPEND :
    ∀ (ns : List Ptr) (h : Heap) (head : Ptr) (l : List Ptr), isDList h head l →
      (l ++ ns).Nodup → (∀ n ∈ ns, n ≠ 0) →
      ∃ h1 head1, insertAll DL_APPEND ns h head = some (h1, head1) ∧
        isDList h1 head1 (l ++ ns)
  | [], h, head, l, hl, _, _ => ⟨h, head, rfl, by simpa using hl⟩
  | n :: ns, h, head, l, hl, hnd, hnz => by
    have hn : n ∉ l := fun hm =>
      (List.nodup_append.1 hnd).2.2 hm (List.mem_cons_self _ _)
    obtain ⟨h1, head1, hop, hl1, _⟩ := DL_APPEND_spec h head n l hl
      (hnz n (List.mem_cons_self _ _)) hn
    obtain ⟨h2, head2, hrun, hl2⟩ := insertAll_DL_APPEND ns h1 head1 (l ++ [n]) hl1
      (by simpa using hnd) (fun m hm => hnz m (List.mem_cons_of_mem _ hm))
    exact ⟨h2, head2, by simp [insertAll, hop, hrun], by simpa using hl2⟩

theorem insertAll_LL_PREPEND :
    ∀ (ns : List Ptr) (h : Heap) (head : Ptr) (l : List Ptr), isList h.next head l →
      (l ++ ns).Nodup → (∀ n ∈ ns, n ≠ 0) →
      ∃ h1 head1, insertAll LL_PREPEND ns h head = some (h1, head1) ∧
        isList h1.next head1 (ns.reverse ++ l)
  | [], h, head, l, hl, _, _ => ⟨h, head, rfl, by simpa using hl⟩
  | n :: ns, h, head, l, hl, hnd, hnz => by
    have hn : n ∉ l := fun hm =>
      (List.nodup_append.1 hnd).2.2 hm (List.mem_cons_self _ _)
    obtain ⟨h1, hop, hl1, _⟩ := LL_PREPEND_spec h head n l hl
      (hnz n (List.mem_cons_self _ _)) hn
    have hperm : List.Perm ((n :: l) ++ ns) (l ++ n :: ns) := List.perm_middle.symm
    obtain ⟨h2, head2, hrun, hl2⟩ := insertAll_LL_PREPEND ns h1 n (n :: l) hl1
      (hperm.nodup_iff.2 hnd) (fun m hm => hnz m (List.mem_cons_of_mem _ hm))
    exact ⟨h2, head2, by simp [insertAll, hop, hrun], by simpa using hl2⟩

theorem insertAll_DL_PREPEND :
    ∀ (ns : List Ptr) (h : Heap) (head : Ptr) (l : List Ptr), isDList h head l →
      (l ++ ns).Nodup → (∀ n ∈ ns, n ≠ 0) →
      ∃ h1 head1, insertAll DL_PREPEND ns h head = some (h1, head1) ∧
        isDList h1 head1 (ns.reverse ++ l)
  | [], h, head, l, hl, _, _ => ⟨h, head, rfl, by simpa using hl⟩
  | n :: ns, h, head, l, hl, hnd, hnz => by
    have hn : n ∉ l := fun hm =>
      (List.nodup_append.1 hnd).2.2 hm (List.mem_cons_self _ _)
    obtain ⟨h1, hop, hl1⟩ := DL_PREPEND_spec h head n l hl
      (hnz n (List.mem_cons_self _ _)) hn
    have hperm : List.Perm ((n :: l) ++ ns) (l ++ n :: ns) := List.perm_middle.symm
    obtain ⟨h2, head2, hrun, hl2⟩ := insertAll_DL_PREPEND ns h1 n (n :: l) hl1
      (hperm.nodup_iff.2 hnd) (fun m hm => hnz m (List.mem_cons_of_mem _ hm))
    exact ⟨h2, head2, by simp [insertAll, hop, hrun], by simpa using hl2⟩

/-- C6. Append keeps insertion order: `LL_APPEND` on a null-terminated
singly-linked list and `DL_APPEND` on a well-formed doubly-linked list, with a
non-null node not in the list, succeed and make the foreach sequence the one
before followed by the new node; appending `n1..nk` to the empty list and
iterating yields `n1, ..., nk`. -/
theorem APPEND_keeps_order :
    (∀ (h : Heap) (head add : Ptr) (l : List Ptr) (fuel : Nat),
      isList h.next head l → add ≠ 0 → add ∉ l → l.length + 1 < fuel →
      LL_FOREACH fuel h head = some l ∧
      ∃ h1 head1, LL_APPEND fuel h head add = some (h1, head1) ∧
        LL_FOREACH fuel h1 head1 = some (l ++ [add])) ∧
    (∀ (h : Heap) (head add : Ptr) (l : List Ptr) (fuel : Nat),
      isDList h head l → add ≠ 0 → add ∉ l → l.length + 1 < fuel →
      DL_FOREACH fuel h head = some l ∧
      ∃ h1 head1, DL_APPEND h head add = some (h1, head1) ∧
        DL_FOREACH fuel h1 head1 = some (l ++ [add])) ∧
    (∀ (h0 : Heap) (ns : List Ptr) (fuel : Nat),
      ns.Nodup → (∀ n ∈ ns, n ≠ 0) → ns.length < fuel →
      (∃ h head, insertAll (LL_APPEND fuel) ns h0 0 = some (h, head) ∧
        LL_FOREACH fuel h head = some ns) ∧
      (∃ h head, insertAll DL_APPEND ns h0 0 = some (h, head) ∧
        DL_FOREACH fuel h head = some ns)) := by
  refine ⟨?_, ?_, ?_⟩
  · intro h head add l fuel hl ha hn hf
    obtain ⟨h1, head1, hop, hl1, _⟩ := LL_APPEND_spec h head add l fuel hl ha hn (by omega)
    exact ⟨LL_FOREACH_of_isList h l fuel head hl (by omega), h1, head1, hop,
      LL_FOREACH_of_isList h1 _ fuel head1 hl1 (by simpa using hf)⟩
  · intro h head add l fuel hl ha hn hf
    obtain ⟨h1, head1, hop, hl1, _⟩ := DL_APPEND_spec h head add l hl ha hn
    exact ⟨DL_FOREACH_of_isList h l fuel head hl.1 (by omega), h1, head1, hop,
      DL_FOREACH_of_isList h1 _ fuel head1 hl1.1 (by simpa using hf)⟩
  · intro h0 ns fuel hnd hnz hf
    constructor
    · obtain ⟨h, head, hrun, hl⟩ := insertAll_LL_APPEND fuel ns h0 0 [] rfl (by simpa using hnd)
        hnz (by simp; omega)
      exact ⟨h, head, hrun, LL_FOREACH_of_isList h ns fuel head (by simpa using hl) hf⟩
    · obtain ⟨h, head, hrun, hl⟩ := insertAll_DL_APPEND ns h0 0 [] ⟨rfl, trivial⟩
        (by simpa using hnd) hnz
      exact ⟨h, head, hrun, DL_FOREACH_of_isList h ns fuel head (by simpa using hl.1) hf⟩

theorem APPEND_keeps_order_witness :
    isList sampleHeap.next 5 [5, 3, 4, 1, 2] ∧ (7 : Ptr) ≠ 0 ∧ 7 ∉ [5, 3, 4, 1, 2] ∧
    [5, 3, 4, 1, 2].length + 1 < 7 ∧
    (LL_FOREACH 7 sampleHeap 5 = some [5, 3, 4, 1, 2] ∧
      ∃ h1 head1, LL_APPEND 7 sampleHeap 5 7 = some (h1, head1) ∧
        LL_FOREACH 7 h1 head1 = some ([5, 3, 4, 1, 2] ++ [7])) ∧
    isDList sampleHeap 5 [5, 3, 4, 1, 2] ∧
    (DL_FOREACH 7 sampleHeap 5 = some [5, 3, 4, 1, 2] ∧
      ∃ h1 head1, DL_APPEND sampleHeap 5 7 = some (h1, head1) ∧
        DL_FOREACH 7 h1 head1 = some ([5, 3, 4, 1, 2] ++ [7])) :=
  ⟨by decide, by decide, by decide, by decide,
    APPEND_keeps_order.1 sampleHeap 5 7 [5, 3, 4, 1, 2] 7 (by decide) (by decide) (by decide)
      (by decide),
    by decide,
    APPEND_keeps_order.2.1 sampleHeap 5 7 [5, 3, 4, 1, 2] 7 (by decide) (by decide) (by decide)
      (by decide)⟩

/-- C7. Prepend yields reverse insertion order: `LL_PREPEND` and `DL_PREPEND`
with a non-null node not in the list succeed, the node becomes the head, and the
foreach sequence is the new node followed by the sequence before; prepending
`n1..nk` to the empty list and iterating yields `nk, ..., n1`. -/
theorem PREPEND_reverses_order :
    (∀ (h : Heap) (head add : Ptr) (l : List Ptr) (fuel : Nat),
      isList h.next head l → add ≠ 0 → add ∉ l → l.length + 1 < fuel →
      LL_FOREACH fuel h head = some l ∧
      ∃ h1 head1, LL_PREPEND h head add = some (h1, head1) ∧ head1 = add ∧
        LL_FOREACH fuel h1 head1 = some (add :: l)) ∧
    (∀ (h : Heap) (head add : Ptr) (l : List Ptr) (fuel : Nat),
      isDList h head l → add ≠ 0 → add ∉ l → l.length + 1 < fuel →
      DL_FOREACH fuel h head = some l ∧
      ∃ h1 head1, DL_PREPEND h head add = some (h1, head1) ∧ head1 = add ∧
        DL_FOREACH fuel h1 head1 = some (add :: l)) ∧
    (∀ (h0 : Heap) (ns : List Ptr) (fuel : Nat),
      ns.Nodup → (∀ n ∈ ns, n ≠ 0) → ns.length < fuel →
      (∃ h head, insertAll LL_PREPEND ns h0 0 = some (h, head) ∧
        LL_FOREACH fuel h head = some ns.reverse) ∧
      (∃ h head, insertAll DL_PREPEND ns h0 0 = some (h, head) ∧
        DL_FOREACH fuel h head = some ns.reverse)) := by
  refine ⟨?_, ?_, ?_⟩
  · intro h head add l fuel hl ha hn hf
    obtain ⟨h1, hop, hl1, _⟩ := LL_PREPEND_spec h head add l hl ha hn
    exact ⟨LL_FOREACH_of_isList h l fuel head hl (by omega), h1, add, hop, rfl,
      LL_FOREACH_of_isList h1 _ fuel add hl1 (by simpa using hf)⟩
  · intro h head add l fuel hl ha hn hf
    obtain ⟨h1, hop, hl1⟩ := DL_PREPEND_spec h head add l hl ha hn
    exact ⟨DL_FOREACH_of_isList h l fuel head hl.1 (by omega), h1, add, hop, rfl,
      DL_FOREACH_of_isList h1 _ fuel add hl1.1 (by simpa using hf)⟩
  · intro h0 ns fuel hnd hnz hf
    constructor
    · obtain ⟨h, head, hrun, hl⟩ := insertAll_LL_PREPEND ns h0 0 [] rfl (by simpa using hnd) hnz
      exact ⟨h, head, hrun,
        LL_FOREACH_of_isList h _ fuel head (by simpa using hl) (by simpa using hf)⟩
    · obtain ⟨h, head, hrun, hl⟩ := insertAll_DL_PREPEND ns h0 0 [] ⟨rfl, trivial⟩
        (by simpa using hnd) hnz
      exact ⟨h, head, hrun,
        DL_FOREACH_of_isList h _ fuel head (by simpa using hl.1) (by simpa using hf)⟩

theorem PREPEND_reverses_order_witness :
    isList sampleHeap.next 5 [5, 3, 4, 1, 2] ∧ (7 : Ptr) ≠ 0 ∧ 7 ∉ [5, 3, 4, 1, 2] ∧
    [5, 3, 4, 1, 2].length + 1 < 7 ∧
    (LL_FOREACH 7 sampleHeap 5 = some [5, 3, 4, 1, 2] ∧
      ∃ h1 head1, LL_PREPEND sampleHeap 5 7 = some (h1, head1) ∧ head1 = 7 ∧
        LL_FOREACH 7 h1 head1 = some (7 :: [5, 3, 4, 1, 2])) ∧
    isDList sampleHeap 5 [5, 3, 4, 1, 2] ∧
    (DL_FOREACH 7 sampleHeap 5 = some [5, 3, 4, 1, 2] ∧
      ∃ h1 head1, DL_PREPEND sampleHeap 5 7 = some (h1, head1) ∧ head1 = 7 ∧
        DL_FOREACH 7 h1 head1 = some (7 :: [5, 3, 4, 1, 2])) :=
  ⟨by decide, by decide, by decide, by decide,
    PREPEND_reverses_order.1 sampleHeap 5 7 [5, 3, 4, 1, 2] 7 (by decide) (by decide)
      (by decide) (by decide),
    by decide,
    PREPEND_reverses_order.2.1 sampleHeap 5 7 [5, 3, 4, 1, 2] 7 (by decide) (by decide)
      (by decide) (by decide)⟩

/-! ## Deleting a node -/

theorem erase_middle {l1 l2 : List Ptr} {del : Ptr} (hnd : (l1 ++ del :: l2).Nodup) :
    (l1 ++ del :: l2).erase del = l1 ++ l2 := by
  have hd1 : del ∉ l1 := fun hm =>
    (List.nodup_append.1 hnd).2.2 hm (List.mem_cons_self _ _)
  rw [List.erase_append_right _ hd1, List.erase_cons_head]

/-- C8. `DL_DELETE` removes exactly the given node: on a well-formed
doubly-linked list `l1 ++ del :: l2` the call succeeds, the list is again
well formed and its foreach sequence is `l1 ++ l2`; deleting the only node makes
the head null, deleting the head makes its successor the head, deleting the
tail keeps the head with `head->prev` the new tail, and deleting an interior
node keeps the head. -/
theorem DL_DELETE_removes (h : Heap) (head del : Ptr) (l1 l2 : List Ptr) (fuel : Nat)
    (hl : isDList h head (l1 ++ del :: l2)) (hf : (l1 ++ del :: l2).length < fuel) :
    DL_FOREACH fuel h head = some (l1 ++ del :: l2) ∧
    ∃ h1 head1, DL_DELETE h head del = some (h1, head1) ∧
      DL_FOREACH fuel h1 head1 = some (l1 ++ l2) ∧ isDList h1 head1 (l1 ++ l2) ∧
      (l1 = [] → l2 = [] → head1 = 0) ∧
      (l1 = [] → ∀ y ys, l2 = y :: ys → head1 = y) ∧
      (∀ l0 p, l1 = l0 ++ [p] → l2 = [] → head1 = head ∧ h1.prev head1 = p) ∧
      (l1 ≠ [] → head1 = head) := by
  have hnd := isList_nodup hl.1
  obtain ⟨h1, head1, hop, hl1, hhead, hkeep⟩ := DL_DELETE_spec h head del _ hl (by simp)
  rw [erase_middle hnd] at hl1
  have hlen : (l1 ++ l2).length < fuel := by
    simp only [List.length_append, List.length_cons] at hf ⊢
    omega
  have hne : l1 ≠ [] → del ≠ head := by
    intro h1ne heq
    obtain ⟨rest, hrest⟩ := isPath_cons_of_ne hl.1 (by simp)
    cases l1 with
    | nil => exact h1ne rfl
    | cons x xs =>
      simp only [List.cons_append, List.cons.injEq] at hrest
      have hx : x = del := hrest.1.trans heq.symm
      have := (List.nodup_cons.1 hnd).1
      exact this (by simp [hx])
  refine ⟨DL_FOREACH_of_isList h _ fuel head hl.1 hf, h1, head1, hop,
    DL_FOREACH_of_isList h1 _ fuel head1 hl1.1 hlen, hl1, ?_, ?_, ?_, fun h1ne => hkeep (hne h1ne)⟩
  · intro e1 e2
    subst e1 e2
    exact isDList_nil hl1
  · intro e1 y ys e2
    subst e1 e2
    exact (isDList_cons hl1).1
  · intro l0 p e1 e2
    subst e1 e2
    have hh := hkeep (hne (by simp))
    refine ⟨hh, ?_⟩
    have ht := (isDList_tail hl1 (by simp)).2.2
    simpa using ht.symm

theorem DL_DELETE_removes_witness :
    isDList sampleHeap 5 ([5, 3] ++ 4 :: [1, 2]) ∧ ([5, 3] ++ 4 :: [1, 2]).length < 6 ∧
    (DL_FOREACH 6 sampleHeap 5 = some ([5, 3] ++ 4 :: [1, 2]) ∧
      ∃ h1 head1, DL_DELETE sampleHeap 5 4 = some (h1, head1) ∧
        DL_FOREACH 6 h1 head1 = some ([5, 3] ++ [1, 2]) ∧ isDList h1 head1 ([5, 3] ++ [1, 2]) ∧
        (([5, 3] : List Ptr) = [] → ([1, 2] : List Ptr) = [] → head1 = 0) ∧
        (([5, 3] : List Ptr) = [] → ∀ y ys, [1, 2] = y :: ys → head1 = y) ∧
        (∀ l0 p, [5, 3] = l0 ++ [p] → ([1, 2] : List Ptr) = [] →
          head1 = 5 ∧ h1.prev head1 = p) ∧
        (([5, 3] : List Ptr) ≠ [] → head1 = 5)) :=
  ⟨by decide, by decide, DL_DELETE_removes sampleHeap 5 4 [5, 3] [1, 2] 6 (by decide) (by decide)⟩

/-- C9. `LL_DELETE` removes exactly the given node: on a null-terminated
singly-linked list `l1 ++ del :: l2` the call succeeds and the foreach sequence
becomes `l1 ++ l2`; the head changes, to `del->next`, exactly when the deleted
node was the head. -/
theorem LL_DELETE_removes (h : Heap) (head del : Ptr) (l1 l2 : List Ptr) (fuel : Nat)
    (hl : isList h.next head (l1 ++ del :: l2)) (hf : (l1 ++ del :: l2).length < fuel) :
    LL_FOREACH fuel h head = some (l1 ++ del :: l2) ∧
    ∃ h1 head1, LL_DELETE fuel h head del = some (h1, head1) ∧
      LL_FOREACH fuel h1 head1 = some (l1 ++ l2) ∧
      (head1 ≠ head ↔ del = head) ∧ (del = head → head1 = h.next del) := by
  have hnd := isList_nodup hl
  obtain ⟨h1, head1, hop, hl1, hhead, hkeep⟩ :=
    LL_DELETE_spec h head del _ fuel hl (by simp) (by omega)
  rw [erase_middle hnd] at hl1
  have hlen : (l1 ++ l2).length < fuel := by
    simp only [List.length_append, List.length_cons] at hf ⊢
    omega
  refine ⟨LL_FOREACH_of_isList h _ fuel head hl hf, h1, head1, hop,
    LL_FOREACH_of_isList h1 _ fuel head1 hl1 hlen, ⟨fun hne => ?_, fun he => (hhead he).2⟩,
    fun he => (hhead he).1⟩
  by_contra hc
  exact hne (hkeep hc)

theorem LL_DELETE_removes_witness :
    isList sampleHeap.next 5 ([5, 3] ++ 4 :: [1, 2]) ∧ ([5, 3] ++ 4 :: [1, 2]).length < 6 ∧
    (LL_FOREACH 6 sampleHeap 5 = some ([5, 3] ++ 4 :: [1, 2]) ∧
      ∃ h1 head1, LL_DELETE 6 sampleHeap 5 4 = some (h1, head1) ∧
        LL_FOREACH 6 h1 head1 = some ([5, 3] ++ [1, 2]) ∧
        (head1 ≠ 5 ↔ (4 : Ptr) = 5) ∧ ((4 : Ptr) = 5 → head1 = sampleHeap.next 4)) :=
  ⟨by decide, by decide, LL_DELETE_removes sampleHeap 5 4 [5, 3] [1, 2] 6 (by decide) (by decide)⟩

theorem CDL_FOREACH_of_isCDList (h : Heap) (head : Ptr) (l : List Ptr) (fuel : Nat)
    (hl : isCDList h head l) (hf : l.length < fuel) : CDL_FOREACH fuel h head = some l := by
  rcases hl with ⟨rfl, rfl⟩ | ⟨hr, _⟩
  · obtain ⟨f, rfl⟩ : ∃ f, fuel = f + 1 := ⟨fuel - 1, by simp at hf; omega⟩
    simp [CDL_FOREACH, cdlForeachFrom]
  · exact CDL_FOREACH_of_isRing h head l fuel hr hf

/-- C10. `CDL_DELETE` removes exactly the given node from the ring: on a
well-formed circular list with ring order `l1 ++ del :: l2` the call succeeds;
if the node was the sole node the head becomes null; otherwise the
`CDL_FOREACH` sequence is `l1 ++ l2`, the head is the successor of the deleted
node when that was the head, and is unchanged otherwise. -/
theorem CDL_DELETE_removes (h : Heap) (head del : Ptr) (l1 l2 : List Ptr) (fuel : Nat)
    (hl : isCDList h head (l1 ++ del :: l2)) (hf : (l1 ++ del :: l2).length < fuel) :
    CDL_FOREACH fuel h head = some (l1 ++ del :: l2) ∧
    ∃ h1 head1, CDL_DELETE h head del = some (h1, head1) ∧
      CDL_FOREACH fuel h1 head1 = some (l1 ++ l2) ∧ isCDList h1 head1 (l1 ++ l2) ∧
      (l1 ++ l2 = [] → head1 = 0) ∧
      (l1 ++ l2 ≠ [] → del = head → head1 = h.next del) ∧
      (del ≠ head → head1 = head) := by
  obtain ⟨h1, head1, hop, hl1, hsole, hhead, hkeep⟩ := CDL_DELETE_spec h head del l1 l2 hl
  have hlen : (l1 ++ l2).length < fuel := by
    simp only [List.length_append, List.length_cons] at hf ⊢
    omega
  exact ⟨CDL_FOREACH_of_isCDList h head _ fuel hl hf, h1, head1, hop,
    CDL_FOREACH_of_isCDList h1 head1 _ fuel hl1 hlen, hl1, hsole, hhead, hkeep⟩

theorem CDL_DELETE_removes_witness :
    isCDList sampleRing 5 ([] ++ 5 :: [3, 4, 1, 2]) ∧ ([] ++ 5 :: [3, 4, 1, 2]).length < 6 ∧
    (CDL_FOREACH 6 sampleRing 5 = some ([] ++ 5 :: [3, 4, 1, 2]) ∧
      ∃ h1 head1, CDL_DELETE sampleRing 5 5 = some (h1, head1) ∧
        CDL_FOREACH 6 h1 head1 = some ([] ++ [3, 4, 1, 2]) ∧
        isCDList h1 head1 ([] ++ [3, 4, 1, 2]) ∧
        (([] : List Ptr) ++ [3, 4, 1, 2] = [] → head1 = 0) ∧
        (([] : List Ptr) ++ [3, 4, 1, 2] ≠ [] → (5 : Ptr) = 5 → head1 = sampleRing.next 5) ∧
        ((5 : Ptr) ≠ 5 → head1 = 5)) :=
  ⟨by decide, by decide,
    CDL_DELETE_removes sampleRing 5 5 [] [3, 4, 1, 2] 6 (by decide) (by decide)⟩

/-! ## The sort with an arbitrary comparator -/

theorem backLinked_pred {pv : Ptr → Ptr} {anchor a b : Ptr} {l1 l2 : List Ptr}
    (hb : backLinked pv anchor (l1 ++ a :: b :: l2)) : pv b = a :=
  ((backLinked_append pv l1 (a :: b :: l2) anchor).1 hb).2.2.1

theorem getLast?_eq_getLastD {l : List Ptr} (hne : l ≠ []) (a : Ptr) :
    l.getLast? = some (l.getLastD a) := by
  rw [List.getLastD_eq_getLast?]
  cases hg : l.getLast? with
  | none => exact absurd (List.getLast?_eq_none_iff.1 hg) hne
  | some z => rfl

theorem ring_links {h : Heap} {head : Ptr} {l : List Ptr} (hr : isRing h.next head l)
    (hb : backLinked h.prev (l.getLastD 0) l) :
    ∀ n ∈ l, n ≠ 0 ∧ h.next n ∈ l ∧ h.prev n ∈ l ∧ h.prev (h.next n) = n ∧
      h.next (h.prev n) = n := by
  intro n hn
  obtain ⟨_, hnd, hring⟩ := hr
  have hnz : n ≠ 0 := isPath_ne_zero hring n hn
  obtain ⟨l1, l2, rfl⟩ := List.append_of_mem hn
  rw [getLastD_append_cons] at hb
  obtain ⟨hb1, hb2⟩ := (backLinked_append _ _ _ _).1 hb
  have hpd : h.prev n = l1.getLastD (l2.getLastD n) := hb2.1
  have hb3 : backLinked h.prev n l2 := hb2.2
  obtain ⟨m, hp1, hp2⟩ := (isPath_append _ _ _ _ _).1 hring
  have hm : m = n := hp2.1
  subst hm
  have hrest : isPath h.next (h.next m) l2 head := hp2.2.2
  have hnext : h.next m = l2.headD head := isPath_head hrest
  have hhead : head = l1.headD m := isPath_head hp1
  have hnext_prev : h.prev (h.next m) = m := by
    cases l2 with
    | nil =>
      rw [hnext]
      show h.prev head = m
      cases l1 with
      | nil => rw [hhead]; exact hpd
      | cons x xs => rw [hhead]; exact hb1.1
    | cons z zs => rw [hnext]; exact hb3.1
  have hprev_next : h.next (h.prev m) = m := by
    rcases eq_nil_or_snoc l1 with rfl | ⟨l0, p, rfl⟩
    · rw [hpd, List.getLastD_nil]
      have hhm : head = m := hhead
      rcases eq_nil_or_snoc l2 with rfl | ⟨k0, t, rfl⟩
      · rw [List.getLastD_nil, hnext, hhm]
        rfl
      · rw [List.getLastD_concat, (isPath_last hrest).2.1, hhm]
    · rw [hpd, List.getLastD_concat]
      exact (isPath_last hp1).2.1
  refine ⟨hnz, ?_, ?_, hnext_prev, hprev_next⟩
  · rw [hnext]
    cases l2 with
    | nil =>
      show head ∈ _
      rw [hhead]
      cases l1 with
      | nil => simp
      | cons x xs => simp
    | cons z zs => simp
  · rw [hpd]
    rcases eq_nil_or_snoc l1 with rfl | ⟨l0, p, rfl⟩
    · rw [List.getLastD_nil, List.nil_append]
      exact getLastD_mem_cons m l2
    · rw [List.getLastD_concat]
      simp

theorem ring_tail {h : Heap} {head : Ptr} {l : List Ptr} (hr : isRing h.next head l)
    (hb : backLinked h.prev (l.getLastD 0) l) :
    ∃ t, l.getLast? = some t ∧ h.next t = head ∧ h.prev head = t := by
  obtain ⟨hne, _, hring⟩ := hr
  obtain ⟨rest, hrest⟩ := isPath_cons_of_ne hring hne
  have hph : h.prev head = l.getLastD 0 := by
    rw [hrest] at hb ⊢
    exact hb.1
  refine ⟨l.getLastD 0, getLast?_eq_getLastD hne 0, ?_, hph⟩
  rcases eq_nil_or_snoc l with h0 | ⟨l0, t, rfl⟩
  · exact absurd h0 hne
  · rw [List.getLastD_concat]
    exact (isPath_last hring).2.1

theorem CDL_PREPEND_spec (h : Heap) (head add : Ptr) (l : List Ptr)
    (hl : isCDList h head l) (ha : add ≠ 0) (hn : add ∉ l) :
    ∃ h1, CDL_PREPEND h head add = some (h1, add) ∧ isCDList h1 add (add :: l) := by
  rcases hl with ⟨rfl, rfl⟩ | ⟨⟨hne, hnd, hring⟩, hback⟩
  · refine ⟨Heap.mk (Function.update h.next add add) (Function.update h.prev add add),
      by simp [CDL_PREPEND, Heap.wrNext, Heap.wrPrev, ha],
      Or.inr ⟨⟨by simp, by simp, rfl, ha, ?_⟩, ?_, trivial⟩⟩
    · show Function.update h.next add add add = add
      simp
    · show Function.update h.prev add add add = add
      simp
  · obtain ⟨rest, hrest⟩ := isPath_cons_of_ne hring hne
    obtain ⟨l0, t, hlt⟩ : ∃ l0 t, l = l0 ++ [t] := by
      rcases eq_nil_or_snoc l with h0 | h1
      · exact absurd h0 hne
      · exact h1
    have hhz : head ≠ 0 := isPath_ne_zero hring head (by rw [hrest]; exact List.mem_cons_self _ _)
    have hah : add ≠ head := fun hh => hn (by rw [hrest, hh]; exact List.mem_cons_self _ _)
    have hlast : l.getLastD 0 = t := by rw [hlt, List.getLastD_concat]
    have hpt : h.prev head = t := by
      have hb := hback
      rw [hlast] at hb
      rw [hrest] at hb
      exact hb.1
    have hring1 : isPath h.next head (l0 ++ [t]) head := by rw [← hlt]; exact hring
    have htz : t ≠ 0 := (isPath_last hring1).1
    have hta : t ≠ add := fun hh => hn (by rw [hlt]; simp [hh])
    have hhr : head ∉ rest := by
      have := hnd
      rw [hrest] at this
      exact (List.nodup_cons.1 this).1
    have har : add ∉ rest := fun hm => hn (by rw [hrest]; exact List.mem_cons_of_mem _ hm)
    refine ⟨Heap.mk (Function.update (Function.update h.next add head) t add)
        (Function.update (Function.update h.prev add t) head add),
      by simp [CDL_PREPEND, Heap.wrNext, Heap.wrPrev, Heap.rdPrev, ha, hhz, hpt,
        Function.update_noteq hah, htz],
      Or.inr ⟨⟨by simp, List.nodup_cons.2 ⟨hn, hnd⟩, rfl, ha, ?_⟩, ?_⟩⟩
    · show isPath _ (Function.update (Function.update h.next add head) t add add) l add
      rw [Function.update_noteq (Ne.symm hta), Function.update_same, hlt]
      refine isPath_set_last add (isPath_update_frame add head ?_ hring1) (by rw [← hlt]; exact hnd)
      rw [← hlt]
      exact hn
    · show backLinked _ ((add :: l).getLastD 0) (add :: l)
      rw [List.getLastD_cons]
      have hl2 : l.getLastD add = t := by rw [hlt, List.getLastD_concat]
      rw [hl2, hrest]
      rw [hlast, hrest] at hback
      refine ⟨?_, ?_, ?_⟩
      · show Function.update (Function.update h.prev add t) head add add = t
        rw [Function.update_noteq hah, Function.update_same]
      · show Function.update (Function.update h.prev add t) head add head = add
        rw [Function.update_same]
      · exact backLinked_update_frame head add hhr (backLinked_update_frame add t har hback.2)

theorem isCDList_nodup {h : Heap} {head : Ptr} {l : List Ptr} (hl : isCDList h head l) :
    l.Nodup := by
  rcases hl with ⟨rfl, _⟩ | ⟨hr, _⟩
  · exact List.nodup_nil
  · exact hr.2.1

theorem cdlRun_spec : ∀ (ops : List CDLOp) (h : Heap) (head : Ptr) (l0 l : List Ptr),
    isCDList h head l0 → cdlSeq ops l0 = some l →
    ∃ h1 head1, cdlRun ops h head = some (h1, head1) ∧ isCDList h1 head1 l
  | [], h, head, l0, l, hl, hs => by
    simp only [cdlSeq, Option.some.injEq] at hs
    subst hs
    exact ⟨h, head, rfl, hl⟩
  | CDLOp.prepend n :: ops, h, head, l0, l, hl, hs => by
    by_cases hc : n ≠ 0 ∧ n ∉ l0
    · simp only [cdlSeq, if_pos hc] at hs
      obtain ⟨h1, hop, hl1⟩ := CDL_PREPEND_spec h head n l0 hl hc.1 hc.2
      obtain ⟨h2, head2, hrun, hl2⟩ := cdlRun_spec ops h1 n _ l hl1 hs
      exact ⟨h2, head2, by simp [cdlRun, hop, hrun], hl2⟩
    · simp [cdlSeq, if_neg hc] at hs
  | CDLOp.delete n :: ops, h, head, l0, l, hl, hs => by
    by_cases hc : n ∈ l0
    · simp only [cdlSeq, if_pos hc] at hs
      obtain ⟨l1, l2, rfl⟩ := List.append_of_mem hc
      obtain ⟨h1, head1, hop, hl1, _⟩ := CDL_DELETE_spec h head n l1 l2 hl
      rw [erase_middle (isCDList_nodup hl)] at hs
      obtain ⟨h2, head2, hrun, hl2⟩ := cdlRun_spec ops h1 head1 _ l hl1 hs
      exact ⟨h2, head2, by simp [cdlRun, hop, hrun], hl2⟩
    · simp [cdlSeq, if_neg hc] at hs

theorem isPath_iterate {nx : Ptr → Ptr} :
    ∀ {l : List Ptr} {a b : Ptr}, isPath nx a l b → Nat.iterate nx l.length a = b
  | [], _, _, hp => hp
  | x :: xs, a, b, hp => by
    show Nat.iterate nx xs.length (nx a) = b
    rw [hp.1]
    exact isPath_iterate hp.2.2

theorem isPath_iterate_mem {nx : Ptr → Ptr} :
    ∀ {l : List Ptr} {a b : Ptr}, isPath nx a l b → ∀ k, k < l.length → Nat.iterate nx k a ∈ l
  | [], _, _, _, k, hk => absurd hk (Nat.not_lt_zero k)
  | x :: xs, a, b, hp, 0, _ => by
    show a ∈ x :: xs
    rw [hp.1]
    exact List.mem_cons_self _ _
  | x :: xs, a, b, hp, k + 1, hk => by
    show Nat.iterate nx k (nx a) ∈ x :: xs
    rw [hp.1]
    exact List.mem_cons_of_mem _
      (isPath_iterate_mem hp.2.2 k (Nat.lt_of_succ_lt_succ hk))

theorem ring_period {nx : Ptr → Ptr} {head : Ptr} {l : List Ptr} (hr : isRing nx head l) :
    Nat.iterate nx l.length head = head ∧
      ∀ k, 0 < k → k < l.length → Nat.iterate nx k head ≠ head := by
  obtain ⟨hne, hnd, hring⟩ := hr
  refine ⟨isPath_iterate hring, ?_⟩
  cases l with
  | nil => exact absurd rfl hne
  | cons x xs =>
    intro k hk hlt heq
    obtain ⟨j, rfl⟩ : ∃ j, k = j + 1 := ⟨k - 1, by omega⟩
    have hx : head = x := hring.1
    have hmem := isPath_iterate_mem hring.2.2 j (Nat.lt_of_succ_lt_succ hlt)
    have heq1 : Nat.iterate nx j (nx x) = x := by
      have h2 : Nat.iterate nx (j + 1) head = head := heq
      rw [hx] at h2
      exact h2
    rw [heq1] at hmem
    exact (List.nodup_cons.1 hnd).1 hmem

/-- C11. Circular ring invariant: starting from the empty list (`head = NULL`,
any heap), after every finite sequence of `CDL_PREPEND` (of non-null nodes not
in the ring) and `CDL_DELETE` (of nodes in the ring) the calls succeed and a
non-empty list is a closed ring through the head: every node of the ring has
non-null `next` and `prev` that are again nodes of the ring,
`n->next->prev = n` and `n->prev->next = n`, and following `next` from the head
comes back to the head after exactly `N` steps, `N` the number of nodes. -/
theorem CDL_ring_invariant (ops : List CDLOp) (h0 : Heap) (l : List Ptr) (fuel : Nat)
    (hpre : cdlSeq ops [] = some l) (hf : l.length < fuel) :
    ∃ h head, cdlRun ops h0 0 = some (h, head) ∧ CDL_FOREACH fuel h head = some l ∧
      (head = 0 ↔ l = []) ∧
      (∀ n ∈ l, h.next n ≠ 0 ∧ h.prev n ≠ 0 ∧ h.next n ∈ l ∧ h.prev n ∈ l ∧
        h.prev (h.next n) = n ∧ h.next (h.prev n) = n) ∧
      (l ≠ [] → Nat.iterate h.next l.length head = head ∧
        ∀ k, 0 < k → k < l.length → Nat.iterate h.next k head ≠ head) := by
  obtain ⟨h, head, hrun, hl⟩ := cdlRun_spec ops h0 0 [] l (Or.inl ⟨rfl, rfl⟩) hpre
  refine ⟨h, head, hrun, CDL_FOREACH_of_isCDList h head l fuel hl hf, ?_, ?_, ?_⟩
  · rcases hl with ⟨rfl, rfl⟩ | ⟨hr, _⟩
    · simp
    · obtain ⟨rest, hrest⟩ := isPath_cons_of_ne hr.2.2 hr.1
      have hhz : head ≠ 0 :=
        isPath_ne_zero hr.2.2 head (by rw [hrest]; exact List.mem_cons_self _ _)
      exact ⟨fun hz => absurd hz hhz, fun hn => absurd hn hr.1⟩
  · intro n hn
    rcases hl with ⟨rfl, _⟩ | ⟨hr, hb⟩
    · simp at hn
    · obtain ⟨_, hnx, hpv, h1n, h2n⟩ := ring_links hr hb n hn
      exact ⟨isPath_ne_zero hr.2.2 _ hnx, isPath_ne_zero hr.2.2 _ hpv, hnx, hpv, h1n, h2n⟩
  · intro hne
    rcases hl with ⟨rfl, _⟩ | ⟨hr, _⟩
    · exact absurd rfl hne
    · exact ring_period hr

theorem CDL_ring_invariant_witness :
    cdlSeq [CDLOp.prepend 1, CDLOp.prepend 2, CDLOp.prepend 3, CDLOp.delete 2, CDLOp.prepend 4]
      [] = some [4, 3, 1] ∧ [4, 3, 1].length < 4 ∧
    ∃ h head, cdlRun [CDLOp.prepend 1, CDLOp.prepend 2, CDLOp.prepend 3, CDLOp.delete 2,
        CDLOp.prepend 4] sampleHeap 0 = some (h, head) ∧
      CDL_FOREACH 4 h head = some [4, 3, 1] ∧
      (head = 0 ↔ ([4, 3, 1] : List Ptr) = []) ∧
      (∀ n ∈ ([4, 3, 1] : List Ptr), h.next n ≠ 0 ∧ h.prev n ≠ 0 ∧ h.next n ∈ [4, 3, 1] ∧
        h.prev n ∈ [4, 3, 1] ∧ h.prev (h.next n) = n ∧ h.next (h.prev n) = n) ∧
      (([4, 3, 1] : List Ptr) ≠ [] → Nat.iterate h.next [4, 3, 1].length head = head ∧
        ∀ k, 0 < k → k < [4, 3, 1].length → Nat.iterate h.next k head ≠ head) :=
  ⟨by decide, by decide,
    CDL_ring_invariant
      [CDLOp.prepend 1, CDLOp.prepend 2, CDLOp.prepend 3, CDLOp.delete 2, CDLOp.prepend 4]
      sampleHeap [4, 3, 1] 4 (by decide) (by decide)⟩

/-- C12. Circular wrap termination: on every well-formed circular list of
`N >= 1` nodes `CDL_FOREACH` (with a body that does not modify the list)
terminates and visits `N` nodes: the first is the head, each next one is the
`next` of the one before, no node is visited twice, and the `next` of the last
one visited is the head again; on the empty list it visits nothing. -/
theorem CDL_FOREACH_wraps :
    (∀ (h : Heap) (head : Ptr) (l : List Ptr) (fuel : Nat),
      isCDList h head l → l ≠ [] → l.length < fuel →
      CDL_FOREACH fuel h head = some l ∧ l.Nodup ∧ isPath h.next head l head) ∧
    (∀ (h : Heap) (fuel : Nat), 0 < fuel → CDL_FOREACH fuel h 0 = some []) := by
  constructor
  · intro h head l fuel hl hne hf
    rcases hl with ⟨h0, _⟩ | ⟨hr, _⟩
    · exact absurd h0 hne
    · exact ⟨CDL_FOREACH_of_isRing h head l fuel hr hf, hr.2.1, hr.2.2⟩
  · intro h fuel hf
    exact CDL_FOREACH_of_isCDList h 0 [] fuel (Or.inl ⟨rfl, rfl⟩) hf

theorem CDL_FOREACH_wraps_witness :
    isCDList sampleRing 5 [5, 3, 4, 1, 2] ∧ ([5, 3, 4, 1, 2] : List Ptr) ≠ [] ∧
    [5, 3, 4, 1, 2].length < 6 ∧
    (CDL_FOREACH 6 sampleRing 5 = some [5, 3, 4, 1, 2] ∧ ([5, 3, 4, 1, 2] : List Ptr).Nodup ∧
      isPath sampleRing.next 5 [5, 3, 4, 1, 2] 5) :=
  ⟨by decide, by decide, by decide,
    CDL_FOREACH_wraps.1 sampleRing 5 [5, 3, 4, 1, 2] 6 (by decide) (by decide) (by decide)⟩

/-! ## Deleting every node while iterating -/

theorem dlForeachSafe_delete :
    ∀ (l : List Ptr) (fuel : Nat) (h : Heap) (head : Ptr), isDList h head l → l.length < fuel →
      ∃ h1, dlForeachSafeFrom DL_DELETE fuel h head head = (l, some (h1, 0))
  | [], fuel, h, head, hl, hf => by
    obtain ⟨f, rfl⟩ : ∃ f, fuel = f + 1 := ⟨fuel - 1, by omega⟩
    have hz : head = 0 := isDList_nil hl
    exact ⟨h, by simp [dlForeachSafeFrom, hz]⟩
  | x :: xs, fuel, h, head, hl, hf => by
    obtain ⟨f, rfl⟩ : ∃ f, fuel = f + 1 := ⟨fuel - 1, by omega⟩
    obtain ⟨e, hx, _, _, _⟩ := isDList_cons hl
    subst e
    obtain ⟨h1, head1, hop, hl1, hhead, _⟩ := DL_DELETE_spec h head head _ hl (by simp)
    rw [List.erase_cons_head] at hl1
    have hh1 : head1 = h.next head := hhead rfl
    subst hh1
    obtain ⟨h2, hrun⟩ := dlForeachSafe_delete xs f h1 (h.next head) hl1 (by simpa using hf)
    exact ⟨h2, by simp [dlForeachSafeFrom, hx, Heap.rdNext, hop, hrun, visit]⟩

theorem cdlForeachSafe_delete :
    ∀ (l : List Ptr) (fuel : Nat) (h : Heap) (head : Ptr), isCDList h head l → l ≠ [] →
      l.length < fuel →
      ∃ h1, cdlForeachSafeFrom CDL_DELETE (l.getLastD 0) fuel h head head = (l, some (h1, 0))
  | [], _, _, _, _, hne, _ => absurd rfl hne
  | [x], fuel, h, head, hl, _, hf => by
    obtain ⟨f, rfl⟩ : ∃ f, fuel = f + 2 := ⟨fuel - 2, by simp at hf; omega⟩
    have hr : isRing h.next head [x] := by
      rcases hl with ⟨h0, _⟩ | ⟨hr, _⟩
      · exact absurd h0 (by simp)
      · exact hr
    have e : head = x := hr.2.2.1
    subst e
    have hx : head ≠ 0 := hr.2.2.2.1
    obtain ⟨h1, head1, hop, _, hsole, _, _⟩ := CDL_DELETE_spec h head head [] [] hl
    have hh1 : head1 = 0 := hsole rfl
    subst hh1
    exact ⟨h1, by simp [cdlForeachSafeFrom, hx, Heap.rdNext, hop, visit]⟩
  | x :: y :: ys, fuel, h, head, hl, _, hf => by
    obtain ⟨f, rfl⟩ : ∃ f, fuel = f + 1 := ⟨fuel - 1, by omega⟩
    have hr : isRing h.next head (x :: y :: ys) := by
      rcases hl with ⟨h0, _⟩ | ⟨hr, _⟩
      · exact absurd h0 (by simp)
      · exact hr
    have e : head = x := hr.2.2.1
    subst e
    have hx : head ≠ 0 := hr.2.2.2.1
    obtain ⟨h1, head1, hop, hl1, _, hhead, _⟩ := CDL_DELETE_spec h head head [] (y :: ys) hl
    have hh1 : head1 = h.next head := hhead (by simp) rfl
    subst hh1
    rw [List.nil_append] at hl1
    have hlast : (head :: y :: ys).getLastD 0 = (y :: ys).getLastD 0 := by
      rw [List.getLastD_cons, List.getLastD_cons, List.getLastD_cons]
    have hne : head ≠ (y :: ys).getLastD 0 := by
      intro heq
      have hm : (y :: ys).getLastD 0 ∈ y :: ys := by
        rw [List.getLastD_cons]
        exact getLastD_mem_cons y ys
      rw [← heq] at hm
      exact (List.nodup_cons.1 hr.2.1).1 hm
    obtain ⟨h2, hrun⟩ := cdlForeachSafe_delete (y :: ys) f h1 (h.next head) hl1 (by simp)
      (by simpa using hf)
    refine ⟨h2, ?_⟩
    rw [hlast]
    generalize (y :: ys).getLastD 0 = t at hne hrun ⊢
    simp [cdlForeachSafeFrom, hx, Heap.rdNext, hop, hne, hrun, visit]

/-- C13. Safe deletion under iteration, doubly-linked: on every well-formed
doubly-linked list of `N >= 0` nodes, a `DL_FOREACH_SAFE` loop whose body is
`DL_DELETE(head, el)` terminates, visits exactly the `N` original nodes, each
once and in the original order, and leaves the head null. -/
theorem DL_FOREACH_SAFE_delete_all (h : Heap) (head : Ptr) (l : List Ptr) (fuel : Nat)
    (hl : isDList h head l) (hf : l.length < fuel) :
    DL_FOREACH fuel h head = some l ∧ l.Nodup ∧
    ∃ h1, DL_FOREACH_SAFE DL_DELETE fuel h head = (l, some (h1, 0)) := by
  obtain ⟨h1, hrun⟩ := dlForeachSafe_delete l fuel h head hl hf
  exact ⟨DL_FOREACH_of_isList h l fuel head hl.1 hf, isList_nodup hl.1, h1, hrun⟩

theorem DL_FOREACH_SAFE_delete_all_witness :
    isDList sampleHeap 5 [5, 3, 4, 1, 2] ∧ [5, 3, 4, 1, 2].length < 6 ∧
    (DL_FOREACH 6 sampleHeap 5 = some [5, 3, 4, 1, 2] ∧ ([5, 3, 4, 1, 2] : List Ptr).Nodup ∧
      ∃ h1, DL_FOREACH_SAFE DL_DELETE 6 sampleHeap 5 = ([5, 3, 4, 1, 2], some (h1, 0))) :=
  ⟨by decide, by decide,
    DL_FOREACH_SAFE_delete_all sampleHeap 5 [5, 3, 4, 1, 2] 6 (by decide) (by decide)⟩

/-- C14. Safe deletion under iteration, circular: on every well-formed
circular list of `N >= 1` nodes, a `CDL_FOREACH_SAFE` loop whose body is
`CDL_DELETE(head, el)` terminates, visits exactly the `N` original nodes, each
once and in the original ring order, and leaves the head null. -/
theorem CDL_FOREACH_SAFE_delete_all (h : Heap) (head : Ptr) (l : List Ptr) (fuel : Nat)
    (hl : isCDList h head l) (hne : l ≠ []) (hf : l.length < fuel) :
    CDL_FOREACH fuel h head = some l ∧ l.Nodup ∧
    ∃ h1, CDL_FOREACH_SAFE CDL_DELETE fuel h head = (l, some (h1, 0)) := by
  obtain ⟨h1, hrun⟩ := cdlForeachSafe_delete l fuel h head hl hne hf
  refine ⟨CDL_FOREACH_of_isCDList h head l fuel hl hf, isCDList_nodup hl, h1, ?_⟩
  rcases hl with ⟨h0, _⟩ | ⟨hr, hb⟩
  · exact absurd h0 hne
  · obtain ⟨t, ht, _, hpt⟩ := ring_tail hr hb
    have htl : l.getLastD 0 = t := by
      have := getLast?_eq_getLastD hne 0
      rw [ht] at this
      exact (Option.some.inj this).symm
    obtain ⟨rest, hrest⟩ := isPath_cons_of_ne hr.2.2 hr.1
    have hhz : head ≠ 0 :=
      isPath_ne_zero hr.2.2 head (by rw [hrest]; exact List.mem_cons_self _ _)
    rw [htl] at hrun
    simp [CDL_FOREACH_SAFE, hhz, Heap.rdPrev, hpt, hrun]

theorem CDL_FOREACH_SAFE_delete_all_witness :
    isCDList sampleRing 5 [5, 3, 4, 1, 2] ∧ ([5, 3, 4, 1, 2] : List Ptr) ≠ [] ∧
    [5, 3, 4, 1, 2].length < 6 ∧
    (CDL_FOREACH 6 sampleRing 5 = some [5, 3, 4, 1, 2] ∧ ([5, 3, 4, 1, 2] : List Ptr).Nodup ∧
      ∃ h1, CDL_FOREACH_SAFE CDL_DELETE 6 sampleRing 5 = ([5, 3, 4, 1, 2], some (h1, 0))) :=
  ⟨by decide, by decide, by decide,
    CDL_FOREACH_SAFE_delete_all sampleRing 5 [5, 3, 4, 1, 2] 6 (by decide) (by decide)
      (by decide)⟩

/-! ## Deleting the head inside the plain circular loop -/

theorem CDL_DELETE_next_del (h h1 : Heap) (head head1 del : Ptr)
    (hop : CDL_DELETE h head del = some (h1, head1)) (hp : h.prev del ≠ del) :
    h1.next del = h.next del := by
  have hdz : del ≠ 0 := by
    intro h0
    subst h0
    by_cases hh : head = 0
    · simp [CDL_DELETE, Heap.rdNext, hh] at hop
    · simp [CDL_DELETE, Heap.rdNext, hh] at hop
  have hdp : (Function.update h.prev (h.next del) (h.prev del)) del = h.prev del := by
    by_cases he : del = h.next del
    · rw [← he, Function.update_same]
    · rw [Function.update_noteq he]
  have hfr : Function.update h.next (h.prev del) (h.next del) del = h.next del :=
    Function.update_noteq (Ne.symm hp) _ _
  by_cases hnz : h.next del = 0
  · by_cases hd : head = del
    · subst hd
      simp [CDL_DELETE, Heap.rdNext, Heap.rdPrev, Heap.wrPrev, hdz, hnz, Ne.symm hdz] at hop
    · simp [CDL_DELETE, Heap.rdNext, Heap.rdPrev, Heap.wrPrev, hdz, hnz, hd] at hop
  · by_cases hpz : h.prev del = 0
    · rw [hpz] at hdp
      by_cases hd : head = del
      · subst hd
        by_cases hn : h.next head = head
        · simp [CDL_DELETE, Heap.rdNext, hdz, hn] at hop
          rw [← hop.1]
        · simp [CDL_DELETE, Heap.rdNext, Heap.rdPrev, Heap.wrPrev, Heap.wrNext, hdz, hnz, hn,
            hdp, hpz] at hop
      · simp [CDL_DELETE, Heap.rdNext, Heap.rdPrev, Heap.wrPrev, Heap.wrNext, hdz, hnz, hd,
          hdp, hpz] at hop
    · by_cases hd : head = del
      · subst hd
        by_cases hn : h.next head = head
        · simp [CDL_DELETE, Heap.rdNext, hdz, hn] at hop
          rw [← hop.1]
        · simp [CDL_DELETE, Heap.rdNext, Heap.rdPrev, Heap.wrPrev, Heap.wrNext, hdz, hnz, hn,
            hdp, hpz] at hop
          rw [← hop.1]
          exact hfr
      · simp [CDL_DELETE, Heap.rdNext, Heap.rdPrev, Heap.wrPrev, Heap.wrNext, hdz, hnz, hd,
          Ne.symm hd, hdp, hpz] at hop
        rw [← hop.1]
        exact hfr
theorem cdlForeachBody_sole_loops :
    ∀ fuel : Nat, cdlForeachBodyFrom CDL_DELETE fuel soleRing 0 1 = (List.replicate fuel 1, none)
  | 0 => rfl
  | f + 1 => by
    have ih := cdlForeachBody_sole_loops f
    have hop : CDL_DELETE soleRing 0 1 = some (soleRing, 0) := by
      simp [CDL_DELETE, Heap.rdNext, Heap.rdPrev, Heap.wrPrev, Heap.wrNext, soleRing]
    have hn : soleRing.next 1 = 1 := rfl
    simp [cdlForeachBodyFrom, hop, Heap.rdNext, hn, ih, visit, List.replicate_succ]

/-- C15, the claim fails for `N = 1`: on the ring of the single node `1` the
plain `CDL_FOREACH` loop whose body is `CDL_DELETE(head, el)` visits the deleted
node again and again, and no amount of fuel lets it terminate. -/
theorem CDL_FOREACH_delete_sole_revisits :
    isCDList soleRing 1 [1] ∧
    (CDL_FOREACH_BODY CDL_DELETE 4 soleRing 1).1 = [1, 1, 1, 1] ∧
    ¬ ∃ fuel, (CDL_FOREACH_BODY CDL_DELETE fuel soleRing 1).2.isSome = true := by
  refine ⟨by decide, by decide, ?_⟩
  rintro ⟨fuel, hsome⟩
  cases fuel with
  | zero => simp [CDL_FOREACH_BODY, cdlForeachBodyFrom] at hsome
  | succ f =>
    have hop : CDL_DELETE soleRing 1 1 = some (soleRing, 0) := by
      simp [CDL_DELETE, Heap.rdNext, soleRing]
    have hn : soleRing.next 1 = 1 := rfl
    simp [CDL_FOREACH_BODY, cdlForeachBodyFrom, hop, Heap.rdNext, hn, visit,
      cdlForeachBody_sole_loops f] at hsome

/-- C15, amended to `N >= 2`: on every well-formed circular list of `N >= 2`
nodes, the plain `CDL_FOREACH` loop whose body deletes the node being visited,
the current head, with `CDL_DELETE` terminates, and the deleted node is visited
once only: the loop ends after that visit, the other nodes staying a
well-formed ring. -/
theorem CDL_FOREACH_delete_head (h : Heap) (head : Ptr) (l : List Ptr) (fuel : Nat)
    (hl : isCDList h head l) (hlen : 2 ≤ l.length) (hf : 2 ≤ fuel) :
    ∃ h1 head1, CDL_FOREACH_BODY CDL_DELETE fuel h head = ([head], some (h1, head1)) ∧
      isCDList h1 head1 l.tail ∧ head ∉ l.tail := by
  obtain ⟨f, rfl⟩ : ∃ f, fuel = f + 2 := ⟨fuel - 2, by omega⟩
  cases l with
  | nil => simp at hlen
  | cons x rest =>
    cases rest with
    | nil => simp at hlen
    | cons y ys =>
      have hr : isRing h.next head (x :: y :: ys) := by
        rcases hl with ⟨h0, _⟩ | ⟨hr, _⟩
        · exact absurd h0 (by simp)
        · exact hr
      have hb : backLinked h.prev ((x :: y :: ys).getLastD 0) (x :: y :: ys) := by
        rcases hl with ⟨h0, _⟩ | ⟨_, hb⟩
        · exact absurd h0 (by simp)
        · exact hb
      have e : head = x := hr.2.2.1
      subst e
      have hx : head ≠ 0 := hr.2.2.2.1
      have hnotin : head ∉ y :: ys := (List.nodup_cons.1 hr.2.1).1
      obtain ⟨h1, head1, hop, hl1, _, hhead, _⟩ := CDL_DELETE_spec h head head [] (y :: ys) hl
      have hh1 : head1 = h.next head := hhead (by simp) rfl
      subst hh1
      rw [List.nil_append] at hl1
      have hprev : h.prev head ≠ head := by
        have hp : h.prev head = (y :: ys).getLastD 0 := by
          have := hb.1
          rw [this, List.getLastD_cons, List.getLastD_cons, List.getLastD_cons]
        rw [hp, List.getLastD_cons]
        exact fun heq => hnotin (heq ▸ getLastD_mem_cons y ys)
      have hnx := CDL_DELETE_next_del h h1 head (h.next head) head hop hprev
      refine ⟨h1, h.next head, ?_, hl1, hnotin⟩
      simp [CDL_FOREACH_BODY, cdlForeachBodyFrom, hx, hop, Heap.rdNext, hnx, visit]

theorem CDL_FOREACH_delete_head_witness :
    isCDList sampleRing 5 [5, 3, 4, 1, 2] ∧ 2 ≤ [5, 3, 4, 1, 2].length ∧ 2 ≤ 2 ∧
    ∃ h1 head1, CDL_FOREACH_BODY CDL_DELETE 2 sampleRing 5 = ([5], some (h1, head1)) ∧
      isCDList h1 head1 [5, 3, 4, 1, 2].tail ∧ 5 ∉ [5, 3, 4, 1, 2].tail :=
  ⟨by decide, by decide, by decide,
    CDL_FOREACH_delete_head sampleRing 5 [5, 3, 4, 1, 2] 2 (by decide) (by decide) (by decide)⟩

/-! ## Searching -/

theorem firstMatch_cons_found {found : Ptr → Bool} {x : Ptr} (xs : List Ptr)
    (hx : found x = true) : firstMatch found (x :: xs) x :=
  Or.inr ⟨[], xs, rfl, hx, fun _ hy => absurd hy (List.not_mem_nil _)⟩

theorem firstMatch_cons_skip {found : Ptr → Bool} {x out : Ptr} {xs : List Ptr}
    (hx : found x = false) (hm : firstMatch found xs out) : firstMatch found (x :: xs) out := by
  rcases hm with ⟨h0, hall⟩ | ⟨l1, l2, he, hf, hall⟩
  · refine Or.inl ⟨h0, fun y hy => ?_⟩
    rcases List.mem_cons.1 hy with rfl | hy
    · exact hx
    · exact hall y hy
  · refine Or.inr ⟨x :: l1, l2, by rw [he]; rfl, hf, fun y hy => ?_⟩
    rcases List.mem_cons.1 hy with rfl | hy
    · exact hx
    · exact hall y hy

theorem firstMatch_null_iff {found : Ptr → Bool} {l : List Ptr} {out : Ptr}
    (hnz : ∀ x ∈ l, x ≠ 0) (hm : firstMatch found l out) :
    out = 0 ↔ ∀ x ∈ l, found x = false := by
  rcases hm with ⟨h0, hall⟩ | ⟨l1, l2, he, hf, _⟩
  · exact ⟨fun _ => hall, fun _ => h0⟩
  · have hmem : out ∈ l := by rw [he]; simp
    constructor
    · intro h0
      exact absurd h0 (hnz out hmem)
    · intro hall
      rw [hall out hmem] at hf
      exact absurd hf (by simp)

theorem llSearchFrom_spec (found : Ptr → Bool) (h : Heap) :
    ∀ (l : List Ptr) (fuel : Nat) (a : Ptr), isList h.next a l → l.length < fuel →
      ∃ out, llSearchFrom found fuel h a = some out ∧ firstMatch found l out
  | [], fuel, a, hl, hf => by
    obtain ⟨f, rfl⟩ : ∃ f, fuel = f + 1 := ⟨fuel - 1, by omega⟩
    have hz : a = 0 := hl
    exact ⟨0, by simp [llSearchFrom, hz], Or.inl ⟨rfl, fun _ hy => absurd hy (List.not_mem_nil _)⟩⟩
  | x :: xs, fuel, a, hl, hf => by
    obtain ⟨f, rfl⟩ : ∃ f, fuel = f + 1 := ⟨fuel - 1, by omega⟩
    obtain ⟨e, hx, hr⟩ := hl
    subst e
    by_cases hfd : found a = true
    · exact ⟨a, by simp [llSearchFrom, hx, hfd], firstMatch_cons_found xs hfd⟩
    · obtain ⟨out, hrun, hm⟩ := llSearchFrom_spec found h xs f (h.next a) hr (by simpa using hf)
      have hfd1 : found a = false := by simpa using hfd
      exact ⟨out, by simp [llSearchFrom, hx, hfd1, hrun], firstMatch_cons_skip hfd1 hm⟩

theorem cdlSearchFrom_spec (found : Ptr → Bool) (h : Heap) (head : Ptr) :
    ∀ (l : List Ptr) (fuel : Nat) (a : Ptr),
      isList (effNext Topology.CDL head h.next) a l → l.length < fuel →
      ∃ out, cdlSearchFrom found head fuel h a = some out ∧ firstMatch found l out
  | [], fuel, a, hl, hf => by
    obtain ⟨f, rfl⟩ : ∃ f, fuel = f + 1 := ⟨fuel - 1, by omega⟩
    have hz : a = 0 := hl
    exact ⟨0, by simp [cdlSearchFrom, hz],
      Or.inl ⟨rfl, fun _ hy => absurd hy (List.not_mem_nil _)⟩⟩
  | x :: xs, fuel, a, hl, hf => by
    obtain ⟨f, rfl⟩ : ∃ f, fuel = f + 1 := ⟨fuel - 1, by omega⟩
    obtain ⟨e, hx, hr⟩ := hl
    subst e
    by_cases hfd : found a = true
    · exact ⟨a, by simp [cdlSearchFrom, hx, hfd], firstMatch_cons_found xs hfd⟩
    · obtain ⟨out, hrun, hm⟩ := cdlSearchFrom_spec found h head xs f _ hr (by simpa using hf)
      have hfd1 : found a = false := by simpa using hfd
      have hstep : (if h.next a = head then 0 else h.next a)
          = effNext Topology.CDL head h.next a := by simp [effNext]
      exact ⟨out, by simp only [cdlSearchFrom, if_neg hx, hfd1, hstep, hrun]; simp,
        firstMatch_cons_skip hfd1 hm⟩

theorem isCDList_start {h : Heap} {head : Ptr} {l : List Ptr} (hl : isCDList h head l) :
    isList (effNext Topology.CDL head h.next) head l ∧ ∀ x ∈ l, x ≠ 0 := by
  rcases hl with ⟨rfl, rfl⟩ | ⟨hr, _⟩
  · exact ⟨rfl, fun _ hy => absurd hy (List.not_mem_nil _)⟩
  · exact ⟨isRing_start hr, isPath_ne_zero hr.2.2⟩

/-- C16. Search returns the first match or not-found: on every null-terminated
list `LL_SEARCH_SCALAR` / `LL_SEARCH` (and `DL_SEARCH_SCALAR` / `DL_SEARCH`, the
same macros), and on every well-formed circular list `CDL_SEARCH_SCALAR` /
`CDL_SEARCH`, return; `out` is the first node in foreach order whose field
equals the value (for which `cmp(node, elt) = 0`), `out` is null exactly when no
node matches, in particular on the empty list; the heap, and with it the list,
is as before. -/
theorem SEARCH_first_match :
    (∀ (field : Ptr → Int) (val : Int) (h : Heap) (head : Ptr) (l : List Ptr) (fuel : Nat),
      isList h.next head l → l.length < fuel →
      ∃ out, LL_SEARCH_SCALAR field val fuel h head = some (h, out) ∧
        DL_SEARCH_SCALAR field val fuel h head = some (h, out) ∧
        firstMatch (fun x => decide (field x = val)) l out ∧
        (out = 0 ↔ ∀ x ∈ l, field x ≠ val)) ∧
    (∀ (cmp : Ptr → Ptr → Int) (elt : Ptr) (h : Heap) (head : Ptr) (l : List Ptr) (fuel : Nat),
      isList h.next head l → l.length < fuel →
      ∃ out, LL_SEARCH cmp elt fuel h head = some (h, out) ∧
        DL_SEARCH cmp elt fuel h head = some (h, out) ∧
        firstMatch (fun x => decide (cmp x elt = 0)) l out ∧
        (out = 0 ↔ ∀ x ∈ l, cmp x elt ≠ 0)) ∧
    (∀ (field : Ptr → Int) (val : Int) (h : Heap) (head : Ptr) (l : List Ptr) (fuel : Nat),
      isCDList h head l → l.length < fuel →
      ∃ out, CDL_SEARCH_SCALAR field val fuel h head = some (h, out) ∧
        firstMatch (fun x => decide (field x = val)) l out ∧
        (out = 0 ↔ ∀ x ∈ l, field x ≠ val)) ∧
    (∀ (cmp : Ptr → Ptr → Int) (elt : Ptr) (h : Heap) (head : Ptr) (l : List Ptr) (fuel : Nat),
      isCDList h head l → l.length < fuel →
      ∃ out, CDL_SEARCH cmp elt fuel h head = some (h, out) ∧
        firstMatch (fun x => decide (cmp x elt = 0)) l out ∧
        (out = 0 ↔ ∀ x ∈ l, cmp x elt ≠ 0)) := by
  refine ⟨?_, ?_, ?_, ?_⟩
  · intro field val h head l fuel hl hf
    obtain ⟨out, hrun, hm⟩ := llSearchFrom_spec _ h l fuel head hl hf
    have hiff := firstMatch_null_iff (isPath_ne_zero hl) hm
    exact ⟨out, by simp [LL_SEARCH_SCALAR, hrun],
      by simp [DL_SEARCH_SCALAR, LL_SEARCH_SCALAR, hrun], hm, by simpa using hiff⟩
  · intro cmp elt h head l fuel hl hf
    obtain ⟨out, hrun, hm⟩ := llSearchFrom_spec _ h l fuel head hl hf
    have hiff := firstMatch_null_iff (isPath_ne_zero hl) hm
    exact ⟨out, by simp [LL_SEARCH, hrun], by simp [DL_SEARCH, LL_SEARCH, hrun], hm,
      by simpa using hiff⟩
  · intro field val h head l fuel hl hf
    obtain ⟨hstart, hnz⟩ := isCDList_start hl
    obtain ⟨out, hrun, hm⟩ := cdlSearchFrom_spec _ h head l fuel head hstart hf
    have hiff := firstMatch_null_iff hnz hm
    exact ⟨out, by simp [CDL_SEARCH_SCALAR, hrun], hm, by simpa using hiff⟩
  · intro cmp elt h head l fuel hl hf
    obtain ⟨hstart, hnz⟩ := isCDList_start hl
    obtain ⟨out, hrun, hm⟩ := cdlSearchFrom_spec _ h head l fuel head hstart hf
    have hiff := firstMatch_null_iff hnz hm
    exact ⟨out, by simp [CDL_SEARCH, hrun], hm, by simpa using hiff⟩

theorem SEARCH_first_match_witness :
    isList sampleHeap.next 5 [5, 3, 4, 1, 2] ∧ [5, 3, 4, 1, 2].length < 6 ∧
    (∃ out, LL_SEARCH_SCALAR (fun x => ((x / 2 : Nat) : Int)) 2 6 sampleHeap 5
        = some (sampleHeap, out) ∧
      DL_SEARCH_SCALAR (fun x => ((x / 2 : Nat) : Int)) 2 6 sampleHeap 5
        = some (sampleHeap, out) ∧
      firstMatch (fun x => decide (((x / 2 : Nat) : Int) = 2)) [5, 3, 4, 1, 2] out ∧
      (out = 0 ↔ ∀ x ∈ ([5, 3, 4, 1, 2] : List Ptr), ((x / 2 : Nat) : Int) ≠ 2)) ∧
    isCDList sampleRing 5 [5, 3, 4, 1, 2] ∧
    (∃ out, CDL_SEARCH halfCmp 4 6 sampleRing 5 = some (sampleRing, out) ∧
      firstMatch (fun x => decide (halfCmp x 4 = 0)) [5, 3, 4, 1, 2] out ∧
      (out = 0 ↔ ∀ x ∈ ([5, 3, 4, 1, 2] : List Ptr), halfCmp x 4 ≠ 0)) :=
  ⟨by decide, by decide,
    SEARCH_first_match.1 (fun x => ((x / 2 : Nat) : Int)) 2 sampleHeap 5
      [5, 3, 4, 1, 2] 6 (by decide) (by decide),
    by decide,
    SEARCH_first_match.2.2.2 halfCmp 4 sampleRing 5 [5, 3, 4, 1, 2] 6 (by decide) (by decide)⟩

/-! ## Sorting trivial lists -/

theorem sortRun_nil (t : Topology) (cmp : Ptr → Ptr → Int) (fuel : Nat) (h : Heap) :
    sortRun t cmp fuel h 0 = some (h, 0) := by
  simp [sortRun]

theorem sortRun_single_LL (cmp : Ptr → Ptr → Int) (f : Nat) (h : Heap) (x : Ptr)
    (hl : isList h.next x [x]) : sortRun Topology.LL cmp (f + 2) h x = some (h, x) := by
  have hx : x ≠ 0 := hl.2.1
  have hn : h.next x = 0 := hl.2.2
  have hnext : Function.update h.next x 0 = h.next := by
    rw [← hn]
    exact Function.update_eq_self x h.next
  simp [sortRun, sortLoop, sortPass, sortCount, sortNext, effNext, sortMerge, sortMergeStep,
    sortTakeP, sortLink, sortFinish, Heap.wrNext, Heap.wrPrev, intVal, INT_MAX, hx, hn, hnext]

theorem sortRun_single_DL (cmp : Ptr → Ptr → Int) (f : Nat) (h : Heap) (x : Ptr)
    (hl : isDList h x [x]) : sortRun Topology.DL cmp (f + 2) h x = some (h, x) := by
  have hx : x ≠ 0 := hl.1.2.1
  have hn : h.next x = 0 := hl.1.2.2
  have hp : h.prev x = x := hl.2.1
  have hnext : Function.update h.next x 0 = h.next := by
    rw [← hn]
    exact Function.update_eq_self x h.next
  have hprev : Function.update h.prev x x = h.prev := by
    conv_lhs => arg 3; rw [← hp]
    exact Function.update_eq_self x h.prev
  simp [sortRun, sortLoop, sortPass, sortCount, sortNext, effNext, sortMerge, sortMergeStep,
    sortTakeP, sortLink, sortFinish, Heap.wrNext, Heap.wrPrev, intVal, INT_MAX, hx, hn, hnext,
    hprev]

theorem sortRun_single_CDL (cmp : Ptr → Ptr → Int) (f : Nat) (h : Heap) (x : Ptr)
    (hl : isCDList h x [x]) : sortRun Topology.CDL cmp (f + 2) h x = some (h, x) := by
  have hr : isRing h.next x [x] ∧ backLinked h.prev ([x].getLastD 0) [x] := by
    rcases hl with ⟨h0, _⟩ | hr
    · exact absurd h0 (by simp)
    · exact hr
  have hx : x ≠ 0 := hr.1.2.2.2.1
  have hn : h.next x = x := hr.1.2.2.2.2
  have hp : h.prev x = x := hr.2.1
  have hnext : Function.update h.next x x = h.next := by
    conv_lhs => arg 3; rw [← hn]
    exact Function.update_eq_self x h.next
  have hprev : Function.update h.prev x x = h.prev := by
    conv_lhs => arg 3; rw [← hp]
    exact Function.update_eq_self x h.prev
  simp [sortRun, sortLoop, sortPass, sortCount, sortNext, effNext, sortMerge, sortMergeStep,
    sortTakeP, sortLink, sortFinish, Heap.wrNext, Heap.wrPrev, intVal, INT_MAX, hx, hn, hnext,
    hprev]

/-- C19. Sort is a no-op on trivial lists: with any comparator, each of
`LL_SORT`, `DL_SORT` and `CDL_SORT` returns the empty list with its head null,
and returns a well-formed single-node list with the head still that node and
the whole heap, so in particular that node's `next` and `prev`, as before the
call. -/
theorem SORT_trivial_noop (cmp : Ptr → Ptr → Int) (fuel : Nat) (h : Heap) :
    (LL_SORT cmp fuel h 0 = some (h, 0) ∧ DL_SORT cmp fuel h 0 = some (h, 0) ∧
      CDL_SORT cmp fuel h 0 = some (h, 0)) ∧
    (∀ x, 2 ≤ fuel →
      (isList h.next x [x] → ∃ h1, LL_SORT cmp fuel h x = some (h1, x) ∧
        h1.next x = h.next x ∧ h1.prev x = h.prev x ∧ h1 = h) ∧
      (isDList h x [x] → ∃ h1, DL_SORT cmp fuel h x = some (h1, x) ∧
        h1.next x = h.next x ∧ h1.prev x = h.prev x ∧ h1 = h) ∧
      (isCDList h x [x] → ∃ h1, CDL_SORT cmp fuel h x = some (h1, x) ∧
        h1.next x = h.next x ∧ h1.prev x = h.prev x ∧ h1 = h)) := by
  refine ⟨⟨sortRun_nil _ cmp fuel h, sortRun_nil _ cmp fuel h, sortRun_nil _ cmp fuel h⟩, ?_⟩
  intro x hf
  obtain ⟨f, rfl⟩ : ∃ f, fuel = f + 2 := ⟨fuel - 2, by omega⟩
  exact ⟨fun hl => ⟨h, sortRun_single_LL cmp f h x hl, rfl, rfl, rfl⟩,
    fun hl => ⟨h, sortRun_single_DL cmp f h x hl, rfl, rfl, rfl⟩,
    fun hl => ⟨h, sortRun_single_CDL cmp f h x hl, rfl, rfl, rfl⟩⟩

theorem SORT_trivial_noop_witness :
    2 ≤ 2 ∧ isList soleList.next 1 [1] ∧ isDList soleList 1 [1] ∧ isCDList soleRing 1 [1] ∧
    (∃ h1, LL_SORT addrCmp 2 soleList 1 = some (h1, 1) ∧
      h1.next 1 = soleList.next 1 ∧ h1.prev 1 = soleList.prev 1 ∧ h1 = soleList) ∧
    (∃ h1, DL_SORT addrCmp 2 soleList 1 = some (h1, 1) ∧
      h1.next 1 = soleList.next 1 ∧ h1.prev 1 = soleList.prev 1 ∧ h1 = soleList) ∧
    (∃ h1, CDL_SORT addrCmp 2 soleRing 1 = some (h1, 1) ∧
      h1.next 1 = soleRing.next 1 ∧ h1.prev 1 = soleRing.prev 1 ∧ h1 = soleRing) :=
  ⟨by decide, by decide, by decide, by decide,
    ((SORT_trivial_noop addrCmp 2 soleList).2 1 (by decide)).1 (by decide),
    ((SORT_trivial_noop addrCmp 2 soleList).2 1 (by decide)).2.1 (by decide),
    ((SORT_trivial_noop addrCmp 2 soleRing).2 1 (by decide)).2.2 (by decide)⟩

/-! ## The stable sorted permutation is unique -/

theorem pair_sublist_asymm {a b : Ptr} :
    ∀ {l : List Ptr}, l.Nodup → List.Sublist [a, b] l → List.Sublist [b, a] l → False
  | [], _, hab, _ => by simp at hab
  | x :: xs, hnd, hab, hba => by
    have hx : x ∉ xs := (List.nodup_cons.1 hnd).1
    rcases List.sublist_cons_iff.1 hab with h1 | ⟨r, hr, h1⟩
    · rcases List.sublist_cons_iff.1 hba with h2 | ⟨r2, hr2, _⟩
      · exact pair_sublist_asymm (List.nodup_cons.1 hnd).2 h1 h2
      · simp only [List.cons.injEq] at hr2
        have hb : b ∈ xs := h1.subset (by simp)
        exact hx (hr2.1 ▸ hb)
    · simp only [List.cons.injEq] at hr
      obtain ⟨rfl, rfl⟩ := hr
      rcases List.sublist_cons_iff.1 hba with h2 | ⟨r2, hr2, _⟩
      · exact hx (h2.subset (by simp))
      · simp only [List.cons.injEq] at hr2
        have hb : b ∈ xs := List.singleton_sublist.1 h1
        exact hx (hr2.1 ▸ hb)

theorem pair_sublist_total {a b : Ptr} (hne : a ≠ b) :
    ∀ {l : List Ptr}, a ∈ l → b ∈ l → List.Sublist [a, b] l ∨ List.Sublist [b, a] l
  | [], ha, _ => by simp at ha
  | x :: xs, ha, hb => by
    rcases List.mem_cons.1 ha with rfl | ha1
    · rcases List.mem_cons.1 hb with rfl | hb1
      · exact absurd rfl hne
      · exact Or.inl ((List.singleton_sublist.2 hb1).cons₂ a)
    · rcases List.mem_cons.1 hb with rfl | hb1
      · exact Or.inr ((List.singleton_sublist.2 ha1).cons₂ b)
      · rcases pair_sublist_total hne ha1 hb1 with h1 | h1
        · exact Or.inl (h1.cons x)
        · exact Or.inr (h1.cons x)

/-- The order of a stable sorted arrangement of `l0`: `a` goes before `b` when
`cmp a b <= 0` and, in case of a tie, `a` came first in `l0`. -/
theorem stable_pairwise {cmp : Ptr → Ptr → Int} {l0 l1 : List Ptr} (hnd : l0.Nodup)
    (hp : l1.Perm l0) (hs : l1.Pairwise (fun x y => cmp x y ≤ 0)) (hst : stableFor cmp l0 l1) :
    l1.Pairwise (fun x y => cmp x y ≤ 0 ∧ (cmp y x ≤ 0 → List.Sublist [x, y] l0)) := by
  have hnd1 : l1.Nodup := hp.nodup_iff.2 hnd
  refine List.pairwise_iff_forall_sublist.2 ?_
  intro a b hab
  refine ⟨List.pairwise_iff_forall_sublist.1 hs hab, fun hba => ?_⟩
  have ha : a ∈ l0 := hp.subset (hab.subset (by simp))
  have hb : b ∈ l0 := hp.subset (hab.subset (by simp))
  have hne : a ≠ b := by
    intro he
    subst he
    exact (List.nodup_cons.1 (hnd1.sublist hab)).1 (by simp)
  rcases pair_sublist_total hne ha hb with h1 | h1
  · exact h1
  · exact absurd (hst b a hba h1) (fun h2 => pair_sublist_asymm hnd1 hab h2)

theorem stable_sort_unique {cmp : Ptr → Ptr → Int} {l0 l1 l2 : List Ptr} (hnd : l0.Nodup)
    (hp1 : l1.Perm l0) (hs1 : l1.Pairwise (fun x y => cmp x y ≤ 0)) (hst1 : stableFor cmp l0 l1)
    (hp2 : l2.Perm l0) (hs2 : l2.Pairwise (fun x y => cmp x y ≤ 0))
    (hst2 : stableFor cmp l0 l2) : l1 = l2 := by
  refine List.Perm.eq_of_sorted ?_ (stable_pairwise hnd hp1 hs1 hst1)
    (stable_pairwise hnd hp2 hs2 hst2) (hp1.trans hp2.symm)
  intro a b _ _ hab hba
  by_contra hne
  exact pair_sublist_asymm hnd (hab.2 hba.1) (hba.2 hab.1)

/-- `DL_SORT` produces the arrangement `c` as soon as `c` is a sorted, stable
permutation of the list. -/
theorem DL_SORT_eq_of (cmp : Ptr → Ptr → Int)
    (htot : ∀ a b, cmp a b ≤ 0 ∨ cmp b a ≤ 0)
    (htr : ∀ a b c, cmp a b ≤ 0 → cmp b c ≤ 0 → cmp a c ≤ 0)
    (h : Heap) (head : Ptr) (l c : List Ptr) (fuel : Nat)
    (hl : isList h.next head l) (hf : l.length < fuel) (hn : l.length ≤ 2 ^ 30)
    (hp : c.Perm l) (hs : c.Pairwise (fun x y => cmp x y ≤ 0)) (hst : stableFor cmp l c) :
    ∃ h1 head1, DL_SORT cmp fuel h head = some (h1, head1) ∧ isList h1.next head1 c := by
  obtain ⟨h1, head1, l1, hrun, hl1, _, hp1, hs1, hst1⟩ :=
    DL_SORT_spec cmp htot htr h head l fuel hl hf hn
  have := stable_sort_unique (isList_nodup hl) hp1 hs1 hst1 hp hs hst
  subst this
  exact ⟨h1, head1, hrun, hl1⟩

theorem stableFor_of_mem {cmp : Ptr → Ptr → Int} {l0 c : List Ptr}
    (hc : ∀ a ∈ l0, ∀ b ∈ l0, cmp a b ≤ 0 → List.Sublist [a, b] l0 → List.Sublist [a, b] c) :
    stableFor cmp l0 c :=
  fun a b hab hsub => hc a (hsub.subset (by simp)) b (hsub.subset (by simp)) hab hsub

/-! ## Fixed sort cases -/

theorem getD_range (lo hi : Int) (hd : lo ≤ 0 ∧ 0 ≤ hi) :
    ∀ (l : List Int) (i : Nat), (∀ v ∈ l, lo ≤ v ∧ v ≤ hi) →
      lo ≤ l.getD i 0 ∧ l.getD i 0 ≤ hi
  | [], _, _ => by simpa using hd
  | v :: _, 0, h => by simpa using h v (List.mem_cons_self _ _)
  | _ :: vs, i + 1, h => by
    simpa using getD_range lo hi hd vs i (fun w hw => h w (List.mem_cons_of_mem _ hw))

theorem fiveKey_range (x : Ptr) : 0 ≤ fiveKey x ∧ fiveKey x ≤ 9 :=
  getD_range 0 9 (by decide) _ _ (by decide)

theorem tenKey_range (x : Ptr) : 0 ≤ tenKey x ∧ tenKey x ≤ 9 :=
  getD_range 0 9 (by decide) _ _ (by decide)

/-- On keys between 0 and 9 the `int` difference does not wrap. -/
theorem ascending_small {key : Ptr → Int} (hk : ∀ x, 0 ≤ key x ∧ key x ≤ 9) (a b : Ptr) :
    ascending key a b = key a - key b := by
  have ha := hk a
  have hb := hk b
  simp only [ascending, intWrap]
  omega

theorem descending_small {key : Ptr → Int} (hk : ∀ x, 0 ≤ key x ∧ key x ≤ 9) (a b : Ptr) :
    descending key a b = key b - key a := by
  have ha := hk a
  have hb := hk b
  simp only [descending, intWrap]
  omega

theorem ascending_total {key : Ptr → Int} (hk : ∀ x, 0 ≤ key x ∧ key x ≤ 9) (a b : Ptr) :
    ascending key a b ≤ 0 ∨ ascending key b a ≤ 0 := by
  rw [ascending_small hk, ascending_small hk]
  omega

theorem ascending_trans {key : Ptr → Int} (hk : ∀ x, 0 ≤ key x ∧ key x ≤ 9) (a b c : Ptr) :
    ascending key a b ≤ 0 → ascending key b c ≤ 0 → ascending key a c ≤ 0 := by
  rw [ascending_small hk, ascending_small hk, ascending_small hk]
  omega

theorem descending_total {key : Ptr → Int} (hk : ∀ x, 0 ≤ key x ∧ key x ≤ 9) (a b : Ptr) :
    descending key a b ≤ 0 ∨ descending key b a ≤ 0 := by
  rw [descending_small hk, descending_small hk]
  omega

theorem descending_trans {key : Ptr → Int} (hk : ∀ x, 0 ≤ key x ∧ key x ≤ 9) (a b c : Ptr) :
    descending key a b ≤ 0 → descending key b c ≤ 0 → descending key a c ≤ 0 := by
  rw [descending_small hk, descending_small hk, descending_small hk]
  omega

theorem sortFive_eq : sortFive 6 = some ([4, 2, 3, 5, 1], [1, 3, 3, 4, 5]) := by
  obtain ⟨h1, head1, hrun, hl1⟩ := insertAll_DL_APPEND [1, 2, 3, 4, 5]
    (Heap.mk (fun _ => 0) (fun _ => 0)) 0 [] ⟨rfl, trivial⟩ (by decide) (by decide)
  obtain ⟨h2, head2, hs, hl2⟩ := DL_SORT_eq_of (ascending fiveKey)
    (ascending_total fiveKey_range) (ascending_trans fiveKey_range) h1 head1 [1, 2, 3, 4, 5]
    [4, 2, 3, 5, 1] 6 hl1.1 (by decide) (by decide) (by decide) (by decide)
    (stableFor_of_mem (by decide))
  have hfe := DL_FOREACH_of_isList h2 [4, 2, 3, 5, 1] 6 head2 hl2 (by decide)
  simp only [sortFive, hrun, hs, hfe, Option.some_bind, Option.map_some']
  rfl

theorem sortTenTwice_eq : sortTenTwice 11 = some [9, 8, 7, 6, 5, 4, 3, 2, 1, 0] := by
  obtain ⟨h1, head1, hrun, hl1⟩ := insertAll_DL_APPEND [1, 2, 3, 4, 5, 6, 7, 8, 9, 10]
    (Heap.mk (fun _ => 0) (fun _ => 0)) 0 [] ⟨rfl, trivial⟩ (by decide) (by decide)
  obtain ⟨h2, head2, hs2, hl2⟩ := DL_SORT_eq_of (ascending tenKey)
    (ascending_total tenKey_range) (ascending_trans tenKey_range) h1 head1
    [1, 2, 3, 4, 5, 6, 7, 8, 9, 10] [1, 2, 3, 4, 5, 6, 7, 8, 9, 10] 11 hl1.1 (by decide)
    (by decide) (List.Perm.refl _) (by decide) (stableFor_refl _ _)
  obtain ⟨h3, head3, hs3, hl3⟩ := DL_SORT_eq_of (descending tenKey)
    (descending_total tenKey_range) (descending_trans tenKey_range) h2 head2
    [1, 2, 3, 4, 5, 6, 7, 8, 9, 10] [10, 9, 8, 7, 6, 5, 4, 3, 2, 1] 11 hl2 (by decide)
    (by decide) (by decide) (by decide) (stableFor_of_mem (by decide))
  have hfe := DL_FOREACH_of_isList h3 [10, 9, 8, 7, 6, 5, 4, 3, 2, 1] 11 head3 hl3 (by decide)
  simp only [sortTenTwice, hrun, hs2, hs3, hfe, Option.some_bind, Option.map_some']
  rfl

theorem sortTenDescending_eq :
    sortTenDescending 11 = some [9, 8, 7, 6, 5, 4, 3, 2, 1, 0] := by
  obtain ⟨h1, head1, hrun, hl1⟩ := insertAll_DL_APPEND [1, 2, 3, 4, 5, 6, 7, 8, 9, 10]
    (Heap.mk (fun _ => 0) (fun _ => 0)) 0 [] ⟨rfl, trivial⟩ (by decide) (by decide)
  obtain ⟨h3, head3, hs3, hl3⟩ := DL_SORT_eq_of (descending tenKey)
    (descending_total tenKey_range) (descending_trans tenKey_range) h1 head1
    [1, 2, 3, 4, 5, 6, 7, 8, 9, 10] [10, 9, 8, 7, 6, 5, 4, 3, 2, 1] 11 hl1.1 (by decide)
    (by decide) (by decide) (by decide) (stableFor_of_mem (by decide))
  have hfe := DL_FOREACH_of_isList h3 [10, 9, 8, 7, 6, 5, 4, 3, 2, 1] 11 head3 hl3 (by decide)
  simp only [sortTenDescending, hrun, hs3, hfe, Option.some_bind, Option.map_some']
  rfl

/-- C20. Fixed sort cases: `DL_SORT` of the doubly-linked list holding
5, 3, 3, 1, 4 with the ascending comparator yields 1, 3, 3, 4, 5, the node of the
first 3 (node `2`) before the node of the second (node `3`); the list holding
0..9, sorted and then sorted again with the descending comparator `b - a`,
yields 9, 8, ..., 0 (and so does sorting it with the descending comparator
straight away). -/
theorem DL_SORT_fixed_cases :
    sortFive 6 = some ([4, 2, 3, 5, 1], [1, 3, 3, 4, 5]) ∧
    sortTenTwice 11 = some [9, 8, 7, 6, 5, 4, 3, 2, 1, 0] ∧
    sortTenDescending 11 = some [9, 8, 7, 6, 5, 4, 3, 2, 1, 0] :=
  ⟨sortFive_eq, sortTenTwice_eq, sortTenDescending_eq⟩

/-! ## The passes of the sort -/

theorem sortPasses_single_LL (cmp : Ptr → Ptr → Int) (f : Nat) (h : Heap) (x : Ptr)
    (hl : isList h.next x [x]) : sortPasses Topology.LL cmp (f + 2) h x = some [(1, 1)] := by
  have hx : x ≠ 0 := hl.2.1
  have hn : h.next x = 0 := hl.2.2
  simp [sortPasses, sortTrace, sortPass, sortCount, sortNext, effNext, sortMerge, sortMergeStep,
    sortTakeP, sortLink, sortFinish, Heap.wrNext, Heap.wrPrev, intVal, INT_MAX, hx, hn]

theorem sortPasses_single_DL (cmp : Ptr → Ptr → Int) (f : Nat) (h : Heap) (x : Ptr)
    (hl : isDList h x [x]) : sortPasses Topology.DL cmp (f + 2) h x = some [(1, 1)] := by
  have hx : x ≠ 0 := hl.1.2.1
  have hn : h.next x = 0 := hl.1.2.2
  simp [sortPasses, sortTrace, sortPass, sortCount, sortNext, effNext, sortMerge, sortMergeStep,
    sortTakeP, sortLink, sortFinish, Heap.wrNext, Heap.wrPrev, intVal, INT_MAX, hx, hn]

theorem sortPasses_single_CDL (cmp : Ptr → Ptr → Int) (f : Nat) (h : Heap) (x : Ptr)
    (hl : isCDList h x [x]) : sortPasses Topology.CDL cmp (f + 2) h x = some [(1, 1)] := by
  have hr : isRing h.next x [x] := by
    rcases hl with ⟨h0, _⟩ | hr
    · exact absurd h0 (by simp)
    · exact hr.1
  have hx : x ≠ 0 := hr.2.2.2.1
  have hn : h.next x = x := hr.2.2.2.2
  simp [sortPasses, sortTrace, sortPass, sortCount, sortNext, effNext, sortMerge, sortMergeStep,
    sortTakeP, sortLink, sortFinish, Heap.wrNext, Heap.wrPrev, intVal, INT_MAX, hx, hn]

/-- C23, as stated, fails on the one-node lists `soleList` and `soleRing`:
each of the three sorts makes one pass whose `_ls_nmerges` ends at 1, and that
is the value the outer loop leaves behind. -/
theorem SORT_single_counts_a_merge :
    isList soleList.next 1 [1] ∧ isDList soleList 1 [1] ∧ isCDList soleRing 1 [1] ∧
    sortPasses Topology.LL addrCmp 2 soleList 1 = some [(1, 1)] ∧
    sortPasses Topology.DL addrCmp 2 soleList 1 = some [(1, 1)] ∧
    sortPasses Topology.CDL addrCmp 2 soleRing 1 = some [(1, 1)] ∧
    (sortLoop Topology.LL addrCmp 2 2 soleList 1 1).map SortState.nmerges = some 1 ∧
    (sortLoop Topology.DL addrCmp 2 2 soleList 1 1).map SortState.nmerges = some 1 ∧
    (sortLoop Topology.CDL addrCmp 2 2 soleRing 1 1).map SortState.nmerges = some 1 := by
  decide

/-- C23, amended. On a well-formed single-node list each of `LL_SORT`,
`DL_SORT` and `CDL_SORT`, with any comparator, makes exactly one pass, with run
size 1, and that pass ends with `_ls_nmerges` equal to one (not zero): the
body of `while (_ls_p)` runs once and merges the node with an empty second
run. -/
theorem SORT_single_one_merge (cmp : Ptr → Ptr → Int) (fuel : Nat) (h : Heap) (x : Ptr)
    (hf : 2 ≤ fuel) :
    (isList h.next x [x] → sortPasses Topology.LL cmp fuel h x = some [(1, 1)]) ∧
    (isDList h x [x] → sortPasses Topology.DL cmp fuel h x = some [(1, 1)]) ∧
    (isCDList h x [x] → sortPasses Topology.CDL cmp fuel h x = some [(1, 1)]) := by
  obtain ⟨f, rfl⟩ : ∃ f, fuel = f + 2 := ⟨fuel - 2, by omega⟩
  exact ⟨sortPasses_single_LL cmp f h x, sortPasses_single_DL cmp f h x,
    sortPasses_single_CDL cmp f h x⟩

theorem SORT_single_one_merge_witness :
    2 ≤ 3 ∧ isList soleList.next 1 [1] ∧ isDList soleList 1 [1] ∧ isCDList soleRing 1 [1] ∧
    sortPasses Topology.LL halfCmp 3 soleList 1 = some [(1, 1)] ∧
    sortPasses Topology.DL halfCmp 3 soleList 1 = some [(1, 1)] ∧
    sortPasses Topology.CDL halfCmp 3 soleRing 1 = some [(1, 1)] :=
  ⟨by decide, by decide, by decide, by decide,
    (SORT_single_one_merge halfCmp 3 soleList 1 (by decide)).1 (by decide),
    (SORT_single_one_merge halfCmp 3 soleList 1 (by decide)).2.1 (by decide),
    (SORT_single_one_merge halfCmp 3 soleRing 1 (by decide)).2.2 (by decide)⟩

/-! ## Where the safe circular loop stops -/

theorem cdlForeachSafe_keep (h : Heap) (head t b : Ptr) :
    ∀ (l1 : List Ptr) (fuel : Nat) (el : Ptr), isPath h.next el (l1 ++ [t]) b → t ∉ l1 →
      l1.length + 1 < fuel →
      cdlForeachSafeFrom bodyKeep t fuel h head el = (l1 ++ [t], some (h, head))
  | [], fuel, el, hl, _, hf => by
    obtain ⟨f, rfl⟩ : ∃ f, fuel = f + 2 := ⟨fuel - 2, by simp at hf; omega⟩
    obtain ⟨e, hx, _⟩ := hl
    subst e
    simp [cdlForeachSafeFrom, Heap.rdNext, bodyKeep, visit, hx]
  | x :: xs, fuel, el, hl, hnot, hf => by
    obtain ⟨f, rfl⟩ : ∃ f, fuel = f + 1 := ⟨fuel - 1, by omega⟩
    have hl1 : isPath h.next el (x :: (xs ++ [t])) b := hl
    obtain ⟨e, hx, hr⟩ := hl1
    subst e
    have hne : el ≠ t := fun hh => hnot (by rw [hh]; exact List.mem_cons_self _ _)
    have ih := cdlForeachSafe_keep h head t b xs f (h.next el) hr
      (fun hh => hnot (List.mem_cons_of_mem _ hh)) (by simpa using hf)
    simp [cdlForeachSafeFrom, Heap.rdNext, bodyKeep, visit, hx, hne, ih]

/-- C21, as stated, fails on the ring `5 -> 3 -> 4 -> 1 -> 2 -> 5` with head
`5`: with a body that leaves the list alone and with a body that deletes the
node visited, `CDL_FOREACH_SAFE` returns after visiting `5, 3, 4, 1, 2`; the
last node it processes is `2`, the `prev` of the head on entry, and not the
head `5`. -/
theorem CDL_FOREACH_SAFE_ends_off_head :
    isCDList sampleRing 5 [5, 3, 4, 1, 2] ∧ sampleRing.prev 5 = 2 ∧
    (CDL_FOREACH_SAFE bodyKeep 6 sampleRing 5).2.isSome = true ∧
    (CDL_FOREACH_SAFE bodyKeep 6 sampleRing 5).1 = [5, 3, 4, 1, 2] ∧
    (CDL_FOREACH_SAFE bodyKeep 6 sampleRing 5).1.getLast? = some 2 ∧
    (CDL_FOREACH_SAFE bodyKeep 6 sampleRing 5).1.getLast? ≠ some 5 ∧
    (CDL_FOREACH_SAFE CDL_DELETE 6 sampleRing 5).2.isSome = true ∧
    (CDL_FOREACH_SAFE CDL_DELETE 6 sampleRing 5).1 = [5, 3, 4, 1, 2] ∧
    (CDL_FOREACH_SAFE CDL_DELETE 6 sampleRing 5).1.getLast? = some 2 ∧
    (CDL_FOREACH_SAFE CDL_DELETE 6 sampleRing 5).1.getLast? ≠ some 5 := by
  decide

/-- C21, amended. `CDL_FOREACH_SAFE` remembers `head->prev` on entry, the last
node of the ring, and its termination is tied to that node: on every
well-formed circular list of `N >= 1` nodes, with a body that leaves the list
alone and with the body `CDL_DELETE(head, el)`, the traversal returns after
visiting the nodes once each in ring order, so the node whose processing ends
it is the node that was `head->prev` when iteration began; that node is the
original head only when `N = 1`. -/
theorem CDL_FOREACH_SAFE_ends_at_tail (h : Heap) (head : Ptr) (l : List Ptr) (fuel : Nat)
    (hl : isCDList h head l) (hne : l ≠ []) (hf : l.length < fuel) :
    CDL_FOREACH_SAFE bodyKeep fuel h head = (l, some (h, head)) ∧
    (∃ h1, CDL_FOREACH_SAFE CDL_DELETE fuel h head = (l, some (h1, 0))) ∧
    l.getLast? = some (h.prev head) ∧
    (h.prev head = head ↔ l.length = 1) := by
  have hl0 := hl
  obtain ⟨h1, hrun⟩ := cdlForeachSafe_delete l fuel h head hl hne hf
  rcases hl with ⟨h0, _⟩ | ⟨hr, hb⟩
  · exact absurd h0 hne
  · obtain ⟨t, ht, _, hpt⟩ := ring_tail hr hb
    have htl : l.getLastD 0 = t := by
      have := getLast?_eq_getLastD hne 0
      rw [ht] at this
      exact (Option.some.inj this).symm
    obtain ⟨rest, hrest⟩ := isPath_cons_of_ne hr.2.2 hr.1
    have hhz : head ≠ 0 :=
      isPath_ne_zero hr.2.2 head (by rw [hrest]; exact List.mem_cons_self _ _)
    rw [htl] at hrun
    refine ⟨?_, ⟨h1, ?_⟩, by rw [hpt]; exact ht, ?_⟩
    · rcases eq_nil_or_snoc l with h0 | ⟨l1, t1, hsn⟩
      · exact absurd h0 hne
      · have ht1 : t1 = t := by
          rw [hsn, List.getLastD_concat] at htl
          exact htl
        subst ht1
        have hnd := hr.2.1
        rw [hsn] at hnd hf
        have hnot : t1 ∉ l1 := fun hm =>
          (List.nodup_append.1 hnd).2.2 hm (List.mem_singleton_self _)
        have hp := hr.2.2
        rw [hsn] at hp
        have hk := cdlForeachSafe_keep h head t1 head l1 fuel head hp hnot
          (by simpa using hf)
        rw [hsn]
        simp [CDL_FOREACH_SAFE, hhz, Heap.rdPrev, hpt, hk]
    · simp [CDL_FOREACH_SAFE, hhz, Heap.rdPrev, hpt, hrun]
    · rw [hpt]
      subst hrest
      have hnd := hr.2.1
      cases rest with
      | nil =>
        simp only [List.getLast?_singleton, Option.some.injEq] at ht
        simp [ht]
      | cons y ys =>
        rw [List.getLast?_cons_cons] at ht
        have hm : t ∈ y :: ys := List.mem_of_getLast?_eq_some ht
        constructor
        · intro he
          rw [he] at hm
          exact absurd hm (List.nodup_cons.1 hnd).1
        · intro hlen
          simp at hlen

theorem CDL_FOREACH_SAFE_ends_at_tail_witness :
    isCDList sampleRing 1 [1, 2, 5, 3, 4] ∧ ([1, 2, 5, 3, 4] : List Ptr) ≠ [] ∧
    [1, 2, 5, 3, 4].length < 7 ∧
    (CDL_FOREACH_SAFE bodyKeep 7 sampleRing 1 = ([1, 2, 5, 3, 4], some (sampleRing, 1)) ∧
      (∃ h1, CDL_FOREACH_SAFE CDL_DELETE 7 sampleRing 1 = ([1, 2, 5, 3, 4], some (h1, 0))) ∧
      [1, 2, 5, 3, 4].getLast? = some (sampleRing.prev 1) ∧
      (sampleRing.prev 1 = 1 ↔ [1, 2, 5, 3, 4].length = 1)) :=
  ⟨by decide, by decide, by decide,
    CDL_FOREACH_SAFE_ends_at_tail sampleRing 1 [1, 2, 5, 3, 4] 7 (by decide) (by decide)
      (by decide)⟩

/-! ## Deleting a node that is not in the list -/

theorem llWalkTo_absent (h : Heap) (del : Ptr) :
    ∀ (l : List Ptr) (p a : Ptr) (fuel : Nat), isList h.next a (l ++ [p]) →
      del ∉ l ++ [p] → l.length < fuel → llWalkTo del fuel h a = some p
  | [], p, a, fuel, hl, _, hf => by
    obtain ⟨f, rfl⟩ : ∃ f, fuel = f + 1 := ⟨fuel - 1, by omega⟩
    obtain ⟨e, hp, hn⟩ := hl
    subst e
    have hn0 : h.next a = 0 := hn
    simp [llWalkTo, Heap.rdNext, hp, hn0]
  | x :: xs, p, a, fuel, hl, hnot, hf => by
    obtain ⟨f, rfl⟩ : ∃ f, fuel = f + 1 := ⟨fuel - 1, by omega⟩
    have hl1 : isPath h.next a (x :: (xs ++ [p])) 0 := hl
    obtain ⟨e, hx, hr⟩ := hl1
    subst e
    have hmem : h.next a ∈ xs ++ [p] := by
      rw [isPath_head hr]
      exact headD_mem (by simp) 0
    have hne : h.next a ≠ 0 := isPath_ne_zero hr _ hmem
    have hnd : h.next a ≠ del := fun hh => hnot (List.mem_cons_of_mem _ (hh ▸ hmem))
    have ih := llWalkTo_absent h del xs p (h.next a) f hr
      (fun hh => hnot (List.mem_cons_of_mem _ hh)) (by simpa using hf)
    simp [llWalkTo, Heap.rdNext, hx, hne, hnd, ih]

/-- C24. `LL_DELETE` of an absent node is a no-op on a non-empty list: on every
non-empty null-terminated singly-linked list and for every `del` that is not
one of its nodes, `LL_DELETE` returns (no null pointer is dereferenced, and
fuel equal to the length of the list is enough for the walk), the head is
unchanged and so is the heap, hence every `next` field of the list and the
`LL_FOREACH` sequence. -/
theorem LL_DELETE_absent (h : Heap) (head del : Ptr) (l : List Ptr) (fuel : Nat)
    (hl : isList h.next head l) (hne : l ≠ []) (hd : del ∉ l) (hf : l.length ≤ fuel) :
    ∃ h1 head1, LL_DELETE fuel h head del = some (h1, head1) ∧ head1 = head ∧ h1 = h ∧
      (∀ x ∈ l, h1.next x = h.next x) ∧ isList h1.next head1 l := by
  rcases eq_nil_or_snoc l with h0 | ⟨l0, p, rfl⟩
  · exact absurd h0 hne
  · have hhd : head ≠ del := by
      intro heq
      apply hd
      rw [← heq, isPath_head hl]
      exact headD_mem (by simp) 0
    have hw := llWalkTo_absent h del l0 p head fuel hl hd (by simp at hf; omega)
    obtain ⟨hpz, hpn, _⟩ := isPath_last hl
    exact ⟨h, head, by simp [LL_DELETE, hhd, hw, Heap.rdNext, hpz, hpn], rfl, rfl,
      fun _ _ => rfl, hl⟩

theorem LL_DELETE_absent_witness :
    isList sampleHeap.next 5 [5, 3, 4, 1, 2] ∧ ([5, 3, 4, 1, 2] : List Ptr) ≠ [] ∧
    7 ∉ [5, 3, 4, 1, 2] ∧ [5, 3, 4, 1, 2].length ≤ 5 ∧
    ∃ h1 head1, LL_DELETE 5 sampleHeap 5 7 = some (h1, head1) ∧ head1 = 5 ∧ h1 = sampleHeap ∧
      (∀ x ∈ [5, 3, 4, 1, 2], h1.next x = sampleHeap.next x) ∧
      isList h1.next head1 [5, 3, 4, 1, 2] :=
  ⟨by decide, by decide, by decide, by decide,
    LL_DELETE_absent sampleHeap 5 7 [5, 3, 4, 1, 2] 5 (by decide) (by decide) (by decide)
      (by decide)⟩

/-! ## Well-formedness after any sequence of doubly-linked operations -/

/-- C25. Full doubly-linked well-formedness is preserved: starting from the
empty list (`head = NULL`, any heap), after every finite sequence of
`DL_PREPEND`, `DL_APPEND` (of non-null nodes not in the list) and `DL_DELETE`
(of nodes in the list) the calls succeed, `DL_FOREACH` yields the expected
sequence, the `next` of its last node is null, and every node other than the
head has as `prev` the node just before it in that sequence. -/
theorem DL_wellformed_preserved (ops : List DLOp) (h0 : Heap) (l : List Ptr) (fuel : Nat)
    (hpre : dlSeq ops [] = some l) (hf : l.length < fuel) :
    ∃ h head, dlRun ops h0 0 = some (h, head) ∧ DL_FOREACH fuel h head = some l ∧
      (∀ t, l.getLast? = some t → h.next t = 0) ∧
      (∀ l1 a b l2, l = l1 ++ a :: b :: l2 → h.prev b = a) := by
  obtain ⟨h, head, hrun, hl⟩ := dlRun_spec ops h0 0 [] l ⟨rfl, trivial⟩ hpre
  refine ⟨h, head, hrun, DL_FOREACH_of_isList h l fuel head hl.1 hf, ?_, ?_⟩
  · intro t ht
    exact isList_getLast hl.1 ht
  · intro l1 a b l2 he
    have hb := hl.2
    rw [he] at hb
    exact backLinked_pred hb

theorem DL_wellformed_preserved_witness :
    dlSeq [DLOp.append 1, DLOp.prepend 2, DLOp.append 3, DLOp.prepend 4, DLOp.delete 1] []
      = some [4, 2, 3] ∧ [4, 2, 3].length < 4 ∧
    ∃ h head, dlRun [DLOp.append 1, DLOp.prepend 2, DLOp.append 3, DLOp.prepend 4,
        DLOp.delete 1] sampleHeap 0 = some (h, head) ∧ DL_FOREACH 4 h head = some [4, 2, 3] ∧
      (∀ t, [4, 2, 3].getLast? = some t → h.next t = 0) ∧
      (∀ l1 a b l2, [4, 2, 3] = l1 ++ a :: b :: l2 → h.prev b = a) :=
  ⟨by decide, by decide,
    DL_wellformed_preserved
      [DLOp.append 1, DLOp.prepend 2, DLOp.append 3, DLOp.prepend 4, DLOp.delete 1] sampleHeap
      [4, 2, 3] 4 (by decide) (by decide)⟩

/-! ## Prepending to a ring -/

theorem insertAll_CDL_PREPEND :
    ∀ (ns : List Ptr) (h : Heap) (head : Ptr) (l : List Ptr), isCDList h head l →
      (l ++ ns).Nodup → (∀ n ∈ ns, n ≠ 0) →
      ∃ h1 head1, insertAll CDL_PREPEND ns h head = some (h1, head1) ∧
        isCDList h1 head1 (ns.reverse ++ l)
  | [], h, head, l, hl, _, _ => ⟨h, head, rfl, by simpa using hl⟩
  | n :: ns, h, head, l, hl, hnd, hnz => by
    have hn : n ∉ l := fun hm =>
      (List.nodup_append.1 hnd).2.2 hm (List.mem_cons_self _ _)
    obtain ⟨h1, hop, hl1⟩ := CDL_PREPEND_spec h head n l hl
      (hnz n (List.mem_cons_self _ _)) hn
    have hperm : List.Perm ((n :: l) ++ ns) (l ++ n :: ns) := List.perm_middle.symm
    obtain ⟨h2, head2, hrun, hl2⟩ := insertAll_CDL_PREPEND ns h1 n (n :: l) hl1
      (hperm.nodup_iff.2 hnd) (fun m hm => hnz m (List.mem_cons_of_mem _ hm))
    exact ⟨h2, head2, by simp [insertAll, hop, hrun], by simpa using hl2⟩

/-- C26. `CDL_PREPEND` inserts in front of the head: on every well-formed
circular list, the empty one included, and with a non-null node not in it, the
call succeeds, the node is the new head, and the `CDL_FOREACH` sequence is the
new node followed by the sequence before; prepending `n1..nk` to the empty ring
and iterating yields `nk, ..., n1`. -/
theorem CDL_PREPEND_in_front :
    (∀ (h : Heap) (head add : Ptr) (l : List Ptr) (fuel : Nat),
      isCDList h head l → add ≠ 0 → add ∉ l → l.length + 1 < fuel →
      CDL_FOREACH fuel h head = some l ∧
      ∃ h1 head1, CDL_PREPEND h head add = some (h1, head1) ∧ head1 = add ∧
        CDL_FOREACH fuel h1 head1 = some (add :: l)) ∧
    (∀ (h0 : Heap) (ns : List Ptr) (fuel : Nat),
      ns.Nodup → (∀ n ∈ ns, n ≠ 0) → ns.length < fuel →
      ∃ h head, insertAll CDL_PREPEND ns h0 0 = some (h, head) ∧
        CDL_FOREACH fuel h head = some ns.reverse) := by
  refine ⟨?_, ?_⟩
  · intro h head add l fuel hl ha hn hf
    obtain ⟨h1, hop, hl1⟩ := CDL_PREPEND_spec h head add l hl ha hn
    exact ⟨CDL_FOREACH_of_isCDList h head l fuel hl (by omega), h1, add, hop, rfl,
      CDL_FOREACH_of_isCDList h1 add _ fuel hl1 (by simpa using hf)⟩
  · intro h0 ns fuel hnd hnz hf
    obtain ⟨h, head, hrun, hl⟩ := insertAll_CDL_PREPEND ns h0 0 [] (Or.inl ⟨rfl, rfl⟩)
      (by simpa using hnd) hnz
    exact ⟨h, head, hrun,
      CDL_FOREACH_of_isCDList h head _ fuel (by simpa using hl) (by simpa using hf)⟩

theorem CDL_PREPEND_in_front_witness :
    isCDList sampleRing 5 [5, 3, 4, 1, 2] ∧ (7 : Ptr) ≠ 0 ∧ 7 ∉ [5, 3, 4, 1, 2] ∧
    [5, 3, 4, 1, 2].length + 1 < 7 ∧
    (CDL_FOREACH 7 sampleRing 5 = some [5, 3, 4, 1, 2] ∧
      ∃ h1 head1, CDL_PREPEND sampleRing 5 7 = some (h1, head1) ∧ head1 = 7 ∧
        CDL_FOREACH 7 h1 head1 = some (7 :: [5, 3, 4, 1, 2])) ∧
    ([1, 2, 3] : List Ptr).Nodup ∧ (∀ n ∈ [1, 2, 3], n ≠ 0) ∧ [1, 2, 3].length < 4 ∧
    (∃ h head, insertAll CDL_PREPEND [1, 2, 3] sampleHeap 0 = some (h, head) ∧
      CDL_FOREACH 4 h head = some [1, 2, 3].reverse) :=
  ⟨by decide, by decide, by decide, by decide,
    CDL_PREPEND_in_front.1 sampleRing 5 7 [5, 3, 4, 1, 2] 7 (by decide) (by decide)
      (by decide) (by decide),
    by decide, by decide, by decide,
    CDL_PREPEND_in_front.2 sampleHeap [1, 2, 3] 4 (by decide) (by decide) (by decide)⟩

end Utlist
